import Mathlib

/-!
# Yorkie: a verification development

A shallow embedding of parts of the Yorkie document engine
(`pkg/document/json`, `pkg/splay`, `api/converter`) together with theorems
about the embedded code.

Conventions of the embedding:

* a Go `byte` is a `Fin 256`; a Go `string` and a `[]byte` are lists of bytes;
* Go machine integers are `Int`/`Nat` with explicit reduction modulo `2^w`
  at every conversion;
* a Go function that can panic returns an `Option`, `none` standing for the panic;
* a `float64` is represented by its IEEE-754 bit pattern.
-/

namespace Yorkie

/-! ## Bytes and machine integers -/

/-- A Go `byte`. -/
abbrev Byte := Fin 256

/-- A Go `string`: an immutable sequence of bytes. -/
abbrev GoString := List Byte

/-- The Go conversion `byte(v)` of an unsigned value: the low eight bits. -/
def byte (v : Nat) : Byte := ⟨v % 256, Nat.mod_lt _ (by decide)⟩

/-- The Go conversion `uint32(v)` of a signed value. -/
def toUint32 (v : Int) : Nat := (v % 4294967296).toNat

/-- The Go conversion `uint64(v)` of a signed value. -/
def toUint64 (v : Int) : Nat := (v % 18446744073709551616).toNat

/-- The Go conversion `int32(u)` of an unsigned value: two's complement on 32 bits. -/
def toInt32 (u : Nat) : Int :=
  if u % 4294967296 < 2147483648 then ((u % 4294967296 : Nat) : Int)
  else ((u % 4294967296 : Nat) : Int) - 4294967296

/-- The Go conversion `int64(u)` of an unsigned value: two's complement on 64 bits. -/
def toInt64 (u : Nat) : Int :=
  if u % 18446744073709551616 < 9223372036854775808 then ((u % 18446744073709551616 : Nat) : Int)
  else ((u % 18446744073709551616 : Nat) : Int) - 18446744073709551616

/-- The Go conversion `int32(v)` of a signed value (an `int`). -/
def intToInt32 (v : Int) : Int := toInt32 (toUint32 v)

/-- The range of a Go `int32`. -/
def IsInt32 (v : Int) : Prop := -2147483648 ≤ v ∧ v < 2147483648

/-- The range of a Go `int` and of a Go `int64` (64-bit platforms). -/
def IsInt64 (v : Int) : Prop := -9223372036854775808 ≤ v ∧ v < 9223372036854775808

instance (v : Int) : Decidable (IsInt32 v) := by unfold IsInt32; infer_instance

instance (v : Int) : Decidable (IsInt64 v) := by unfold IsInt64; infer_instance

/-- Go `binary.LittleEndian.PutUint32` on a fresh `[4]byte`. -/
def putUint32 (v : Nat) : List Byte :=
  [byte v, byte (v / 256), byte (v / 65536), byte (v / 16777216)]

/-- Go `binary.LittleEndian.PutUint64` on a fresh `[8]byte`. -/
def putUint64 (v : Nat) : List Byte :=
  [byte v, byte (v / 256), byte (v / 65536), byte (v / 16777216),
   byte (v / 4294967296), byte (v / 1099511627776), byte (v / 281474976710656),
   byte (v / 72057594037927936)]

/-- Go `binary.LittleEndian.Uint32`: reads the first four bytes, panics on a shorter slice. -/
def uint32LE : List Byte → Option Nat
  | b0 :: b1 :: b2 :: b3 :: _ =>
    some (b0.val + b1.val * 256 + b2.val * 65536 + b3.val * 16777216)
  | _ => none

/-- Go `binary.LittleEndian.Uint64`: reads the first eight bytes, panics on a shorter slice. -/
def uint64LE : List Byte → Option Nat
  | b0 :: b1 :: b2 :: b3 :: b4 :: b5 :: b6 :: b7 :: _ =>
    some (b0.val + b1.val * 256 + b2.val * 65536 + b3.val * 16777216
      + b4.val * 4294967296 + b5.val * 1099511627776 + b6.val * 281474976710656
      + b7.val * 72057594037927936)
  | _ => none

/-- The number a byte sequence denotes when read least significant byte first. -/
def littleEndian : List Byte → Nat
  | [] => 0
  | b :: bs => b.val + 256 * littleEndian bs

/-! ## `pkg/document/time` -/

namespace time

/-- Modelled from the spec: the package `pkg/document/time` is not part of the sources at
hand. A Ticket is a triple `(lamport: u64, delimiter: u32, actor: ActorID)`, the actor being
an opaque sequence of 12 bytes. -/
structure Ticket where
  lamport : Nat
  delimiter : Nat
  actorID : List Byte
  deriving DecidableEq, Repr

/-- Modelled from the spec: `InitialTicket` is the all-zero ticket. -/
def InitialTicket : Ticket := ⟨0, 0, List.replicate 12 0⟩

/-- One hexadecimal digit, lower case. -/
def hexDigit (n : Nat) : Char :=
  if n < 10 then Char.ofNat (48 + n) else Char.ofNat (87 + n)

/-- Modelled from the spec: the actor is rendered as a hex string, two digits per byte
(24 digits for the 12 bytes of an actor). -/
def hexString (bs : List Byte) : String :=
  String.mk (bs.flatMap fun b => [hexDigit (b.val / 16), hexDigit (b.val % 16)])

/-- Accessor `Ticket.Lamport`. -/
def Ticket.Lamport (t : Ticket) : Nat := t.lamport

/-- Accessor `Ticket.Delimiter`. -/
def Ticket.Delimiter (t : Ticket) : Nat := t.delimiter

/-- Accessor `Ticket.ActorIDHex`. -/
def Ticket.ActorIDHex (t : Ticket) : String := hexString t.actorID

/-- Lexicographic comparison of two byte sequences. -/
def compareBytes : List Byte → List Byte → Ordering
  | [], [] => .eq
  | [], _ :: _ => .lt
  | _ :: _, [] => .gt
  | a :: as, b :: bs =>
    if a.val < b.val then .lt else if b.val < a.val then .gt else compareBytes as bs

/-- Modelled from the spec: the total order on tickets compares `lamport`, then `actor`
lexicographically, then `delimiter`. -/
def Ticket.Compare (a b : Ticket) : Ordering :=
  if a.lamport < b.lamport then .lt
  else if b.lamport < a.lamport then .gt
  else match compareBytes a.actorID b.actorID with
    | .lt => .lt
    | .gt => .gt
    | .eq =>
      if a.delimiter < b.delimiter then .lt
      else if b.delimiter < a.delimiter then .gt
      else .eq

/-- Ticket `a` is strictly later than ticket `b`. -/
def Ticket.After (a b : Ticket) : Bool := a.Compare b == .gt

/-- The larger of two tickets in ticket order. -/
def Ticket.max (a b : Ticket) : Ticket := if b.After a then b else a

end time

open time

/-! ## `pkg/document/json/primitive.go` -/

namespace json

/-- The Go type `ValueType`, an `int`. -/
abbrev ValueType := Int

def Null : ValueType := 0
def Boolean : ValueType := 1
def Integer : ValueType := 2
def Long : ValueType := 3
def Double : ValueType := 4
def String : ValueType := 5
def Bytes : ValueType := 6
def Date : ValueType := 7

/-- The location attached to a Go `time.Time`. -/
inductive Location where
  | UTC
  | Local
  | Fixed (offset : Int)
  deriving DecidableEq, Repr

/-- A Go `time.Time`: an instant given by its whole UNIX seconds and the nanoseconds
within that second, with the location it is presented in. -/
structure Time where
  unixSec : Int
  nsec : Nat
  loc : Location
  deriving DecidableEq, Repr

/-- Go `Time.UTC`: the same instant presented in UTC. -/
def Time.UTC (t : Time) : Time := { t with loc := .UTC }

/-- Go `Time.Unix`: the whole UNIX seconds of the instant. -/
def Time.Unix (t : Time) : Int := t.unixSec

/-- Go `time.Unix(sec, 0)`: the local time of the given UNIX second. -/
def Time.ofUnix (sec : Int) : Time := ⟨sec, 0, .Local⟩

/-- A dynamically typed Go value, an `interface{}`, by its dynamic type. The constructor
`int` holds a Go `int`, `int64` a Go `int64`; `float64` holds the IEEE-754 bit pattern;
`other` stands for a value of any further type. -/
inductive Value where
  | nil
  | bool (b : Bool)
  | int (v : Int)
  | int32 (v : Int)
  | int64 (v : Int)
  | float64 (bits : Nat)
  | string (s : GoString)
  | bytes (b : List Byte)
  | time (t : Time)
  | other
  deriving DecidableEq, Repr

/-- Primitive represents JSON primitive data type including logical lock. -/
structure Primitive where
  valueType : ValueType
  value : Value
  createdAt : Ticket
  deletedAt : Option Ticket
  deriving DecidableEq, Repr

/-- ValueFromBytes parses the given bytes into value. -/
def ValueFromBytes (valueType : ValueType) (value : List Byte) : Option Value :=
  if valueType = Boolean then
    match value with
    | [] => none
    | b :: _ => if b = 1 then some (.bool true) else some (.bool false)
  else if valueType = Integer then
    (uint32LE value).map fun u => .int (toInt32 u)
  else if valueType = Long then
    (uint64LE value).map fun u => .int64 (toInt64 u)
  else if valueType = Double then
    (uint64LE value).map fun u => .float64 u
  else if valueType = String then
    some (.string value)
  else if valueType = Bytes then
    some (.bytes value)
  else if valueType = Date then
    (uint64LE value).map fun u => .time (Time.ofUnix (toInt64 u))
  else none

/-- NewPrimitive creates a new instance of Primitive. -/
def NewPrimitive (value : Value) (createdAt : Ticket) : Option Primitive :=
  match value with
  | .bool _ => some ⟨Boolean, value, createdAt, none⟩
  | .int _ => some ⟨Integer, value, createdAt, none⟩
  | .int64 _ => some ⟨Long, value, createdAt, none⟩
  | .float64 _ => some ⟨Double, value, createdAt, none⟩
  | .string _ => some ⟨String, value, createdAt, none⟩
  | .bytes _ => some ⟨Bytes, value, createdAt, none⟩
  | .time _ => some ⟨Date, value, createdAt, none⟩
  | _ => none

/-- Bytes creates an array representing the value. -/
def Primitive.Bytes (p : Primitive) : Option (List Byte) :=
  match p.value with
  | .bool val => if val then some [1] else some [0]
  | .int val => some (putUint32 (toUint32 val))
  | .int64 val => some (putUint64 (toUint64 val))
  | .float64 val => some (putUint64 val)
  | .string val => some val
  | .bytes val => some val
  | .time val => some (putUint64 (toUint64 val.UTC.Unix))
  | _ => none

/-- CreatedAt returns the creation time. -/
def Primitive.CreatedAt (p : Primitive) : Ticket := p.createdAt

/-- DeletedAt returns the deletion time of this element. -/
def Primitive.DeletedAt (p : Primitive) : Option Ticket := p.deletedAt

/-- Delete deletes this element. -/
def Primitive.Delete (p : Primitive) (deletedAt : Option Ticket) : Primitive :=
  { p with deletedAt := deletedAt }

/-- ValueType returns the type of the value. -/
def Primitive.ValueType (p : Primitive) : ValueType := p.valueType

/-- The values whose dynamic type is `bool`, `int64`, `float64`, `string` or `[]byte`; the
number held lies in the range of its Go type. -/
def Value.IsExactKind : Value → Prop
  | .bool _ => True
  | .int64 v => IsInt64 v
  | .float64 bits => bits < 18446744073709551616
  | .string _ => True
  | .bytes _ => True
  | _ => False

/-- The wire round trip of a value: build the primitive, take its payload, parse the
payload back under the primitive's value type. -/
def roundTrip (v : Value) (t : Ticket) : Option Value :=
  (NewPrimitive v t).bind fun p => p.Bytes.bind fun b => ValueFromBytes p.ValueType b

/-! ## `pkg/document/json/array.go` and the RGA it rests on -/

/-- Modelled from the spec: the type `RGANode` is not part of the sources at hand. A node
of the sequence holds its element; the links `next` and `prev` are the positions in the
list of nodes. -/
structure RGANodeOf (E : Type) where
  elem : E

/-- Modelled from the spec: the type `RGA` is not part of the sources at hand. It is an
insertion-ordered sequence of nodes, tombstones included; the sentinel head is left out
of the list. -/
structure RGAOf (E : Type) where
  nodes : List (RGANodeOf E)

/-- Array represents JSON array data structure including logical clock. -/
structure ArrayOf (E : Type) where
  elements : RGAOf E
  createdAt : Ticket
  deletedAt : Option Ticket

/-- The interface `Element`, a closed variant over Object, Array, Primitive and Text.
Of an Object and of a Text only the two tickets are kept. -/
inductive Element where
  | object (createdAt : Ticket) (deletedAt : Option Ticket)
  | array (a : ArrayOf Element)
  | primitive (p : Primitive)
  | text (createdAt : Ticket) (deletedAt : Option Ticket)

abbrev RGANode := RGANodeOf Element

abbrev RGA := RGAOf Element

abbrev Array := ArrayOf Element

/-- NewArray creates a new instance of Array. -/
def NewArray (elements : RGA) (createdAt : Ticket) : Array :=
  { elements := elements, createdAt := createdAt, deletedAt := none }

/-- CreatedAt returns the creation time of this Array. -/
def Array.CreatedAt (a : Array) : Ticket := a.createdAt

/-- DeletedAt returns the deletion time of this Array. -/
def Array.DeletedAt (a : Array) : Option Ticket := a.deletedAt

/-- Delete deletes this element. -/
def Array.Delete (a : Array) (deletedAt : Option Ticket) : Array :=
  { a with deletedAt := deletedAt }

/-- The method `CreatedAt` of the interface `Element`. -/
def Element.CreatedAt : Element → Ticket
  | .object c _ => c
  | .array a => Array.CreatedAt a
  | .primitive p => p.CreatedAt
  | .text c _ => c

/-- The method `DeletedAt` of the interface `Element`. -/
def Element.DeletedAt : Element → Option Ticket
  | .object _ d => d
  | .array a => Array.DeletedAt a
  | .primitive p => p.DeletedAt
  | .text _ d => d

/-- The method `Delete` of the interface `Element`. Modelled from the spec: Object and
Text are not among the sources; their `Delete` records the given ticket as `deleted_at`,
as the implementations for Array and Primitive do. -/
def Element.Delete (e : Element) (deletedAt : Option Ticket) : Element :=
  match e with
  | .object c _ => .object c deletedAt
  | .array a => .array (Array.Delete a deletedAt)
  | .primitive p => .primitive (p.Delete deletedAt)
  | .text c _ => .text c deletedAt

/-- Modelled from the spec: `RGANode.isDeleted` is not part of the sources at hand. An
element is observable iff `deleted_at` is unset. -/
def RGANodeOf.isDeleted (n : RGANode) : Bool := n.elem.DeletedAt.isSome

/-- Modelled from the spec: `NewRGA`, the empty sequence. -/
def NewRGA : RGA := ⟨[]⟩

/-- Modelled from the spec: `nodes()` is the in-order iteration including tombstones. -/
def RGAOf.Nodes (a : RGA) : List RGANode := a.nodes

/-- Modelled from the spec: `add(elem)` appends after the tail. -/
def RGAOf.Add (a : RGA) (e : Element) : RGA := ⟨a.nodes ++ [⟨e⟩]⟩

/-- The forward scan of `insert_after`: skip the nodes whose `created_at` is later than
that of the new element, then place the new node. -/
def insertScan (e : Element) : List RGANode → List RGANode
  | [] => [⟨e⟩]
  | n :: rest =>
    if n.elem.CreatedAt.After e.CreatedAt then n :: insertScan e rest
    else ⟨e⟩ :: n :: rest

/-- The search of `insert_after` for the node created at `prev`. -/
def insertAfterNode (prev : Ticket) (e : Element) : List RGANode → Option (List RGANode)
  | [] => none
  | n :: rest =>
    if n.elem.CreatedAt = prev then some (n :: insertScan e rest)
    else (insertAfterNode prev e rest).map fun r => n :: r

/-- Modelled from the spec: `insert_after(prev_created_at, elem)` finds the node with
`created_at = prev_created_at`, scans forward while the subsequent nodes have
`created_at > elem.created_at` and inserts there. The sentinel head carries the initial
ticket; an anchor that is not found leaves the sequence as it is. -/
def RGAOf.InsertAfter (a : RGA) (prevCreatedAt : Ticket) (e : Element) : RGA :=
  if prevCreatedAt = InitialTicket then ⟨insertScan e a.nodes⟩
  else match insertAfterNode prevCreatedAt e a.nodes with
    | some ns => ⟨ns⟩
    | none => a

/-- The ticket a removal records: deletions are monotone, an earlier ticket does not
replace a later one. -/
def tombstoneAt (current : Option Ticket) (deletedAt : Ticket) : Ticket :=
  match current with
  | none => deletedAt
  | some c => c.max deletedAt

/-- The search of `remove_by_created_at`: the first node created at `createdAt` is marked
deleted; the result is the removed element, if any, with the new list of nodes. -/
def removeNode (createdAt deletedAt : Ticket) : List RGANode → Option Element × List RGANode
  | [] => (none, [])
  | n :: rest =>
    if n.elem.CreatedAt = createdAt then
      let e := n.elem.Delete (some (tombstoneAt n.elem.DeletedAt deletedAt))
      (some e, ⟨e⟩ :: rest)
    else
      let r := removeNode createdAt deletedAt rest
      (r.1, n :: r.2)

/-- Modelled from the spec: `remove_by_created_at(created_at, deleted_at)` marks the node
deleted, with a monotone `deleted_at`; an unknown `created_at` leaves the sequence as it is
and yields nil. -/
def RGAOf.RemoveByCreatedAt (a : RGA) (createdAt deletedAt : Ticket) : Option Element × RGA :=
  let r := removeNode createdAt deletedAt a.nodes
  (r.1, ⟨r.2⟩)

/-- The walk of `get`: the element of the `idx`-th node that is not a tombstone. -/
def getVisible : List RGANode → Nat → Option Element
  | [], _ => none
  | n :: rest, idx =>
    if n.isDeleted then getVisible rest idx
    else match idx with
      | 0 => some n.elem
      | k + 1 => getVisible rest k

/-- Modelled from the spec: `get(idx)` skips tombstones; it yields nil when there is no
visible element at `idx`. -/
def RGAOf.Get (a : RGA) (idx : Int) : Option Element :=
  if idx < 0 then none else getVisible a.nodes idx.toNat

/-- The walk of `get`, by place: the place in the sequence of the `idx`-th node that is not
a tombstone. -/
def visiblePlace : List RGANode → Nat → Option Nat
  | [], _ => none
  | n :: rest, idx =>
    if n.isDeleted then (visiblePlace rest idx).map fun place => place + 1
    else match idx with
      | 0 => some 0
      | k + 1 => (visiblePlace rest k).map fun place => place + 1

/-- The place of the node whose element `get(idx)` points to. -/
def RGAOf.GetPlace (a : RGA) (idx : Int) : Option Nat :=
  if idx < 0 then none else visiblePlace a.nodes idx.toNat

/-- Modelled from the spec: `Len()` is the count of non-tombstoned nodes. -/
def RGAOf.Len (a : RGA) : Int := ((a.nodes.filter fun n => !n.isDeleted).length : Nat)

/-- Add adds the given element at the last. -/
def Array.Add (a : Array) (elem : Element) : Array :=
  { a with elements := a.elements.Add elem }

/-- Get returns the element of the given index. -/
def Array.Get (a : Array) (idx : Int) : Option Element := a.elements.Get idx

/-- Remove removes the element of the given index. The pointer `removed` is kept as the
place of the node it was read from: what the caller is handed is the element of that node
as the removal leaves it. -/
def Array.Remove (a : Array) (idx : Int) (deletedAt : Ticket) : Option Element × Array :=
  match a.elements.GetPlace idx, a.elements.Get idx with
  | some place, some removed =>
    let elements := (a.elements.RemoveByCreatedAt removed.CreatedAt deletedAt).2
    (elements.nodes[place]?.map fun n => n.elem, { a with elements := elements })
  | _, _ => (none, a)

/-- Elements returns an array of elements contained in this RGA. -/
def Array.Elements (a : Array) : List Element :=
  a.elements.Nodes.foldl
    (fun elements node => if node.isDeleted then elements else elements ++ [node.elem]) []

/-- InsertAfter inserts the given element after the given previous element. -/
def Array.InsertAfter (a : Array) (prevCreatedAt : Ticket) (element : Element) : Array :=
  { a with elements := a.elements.InsertAfter prevCreatedAt element }

/-- RemoveByCreatedAt removes the given element. -/
def Array.RemoveByCreatedAt (a : Array) (createdAt deletedAt : Ticket) : Option Element × Array :=
  let r := a.elements.RemoveByCreatedAt createdAt deletedAt
  (r.1, { a with elements := r.2 })

/-- Len returns length of this Array. -/
def Array.Len (a : Array) : Int := a.elements.Len

/-- A call of one of the mutating methods of an Array. -/
inductive ArrayCall where
  | Add (elem : Element)
  | InsertAfter (prevCreatedAt : Ticket) (element : Element)
  | Remove (idx : Int) (deletedAt : Ticket)
  | RemoveByCreatedAt (createdAt deletedAt : Ticket)

/-- The Array after one call. -/
def ArrayCall.apply (a : Array) : ArrayCall → Array
  | .Add e => a.Add e
  | .InsertAfter p e => a.InsertAfter p e
  | .Remove i d => (a.Remove i d).2
  | .RemoveByCreatedAt c d => (a.RemoveByCreatedAt c d).2

/-- The Array after a sequence of calls, first call first. -/
def runCalls (a : Array) (calls : List ArrayCall) : Array :=
  calls.foldl ArrayCall.apply a

/-- The tickets under which the nodes of an Array were created, in sequence order. -/
def Array.createdAts (a : Array) : List Ticket :=
  a.elements.Nodes.map fun n => n.elem.CreatedAt

/-- An Array of three booleans created at lamport 1, 2 and 3, the second a tombstone. -/
def sampleArray : json.Array :=
  NewArray
    ⟨[⟨.primitive ⟨Boolean, .bool true, ⟨1, 0, []⟩, none⟩⟩,
      ⟨.primitive ⟨Boolean, .bool false, ⟨2, 0, []⟩, some ⟨4, 0, []⟩⟩⟩,
      ⟨.primitive ⟨Boolean, .bool true, ⟨3, 0, []⟩, none⟩⟩]⟩
    ⟨0, 1, []⟩

/-- An Array built by three calls of `Add` with elements of one and the same `created_at`:
a boolean deleted at lamport 9, a boolean that is not deleted, and a third boolean deleted at
lamport 9. -/
def twiceCreatedArray : json.Array :=
  runCalls (NewArray NewRGA ⟨0, 1, []⟩)
    [.Add (.primitive ⟨Boolean, .bool true, ⟨1, 0, []⟩, some ⟨9, 0, []⟩⟩),
     .Add (.primitive ⟨Boolean, .bool false, ⟨1, 0, []⟩, none⟩),
     .Add (.primitive ⟨Boolean, .bool true, ⟨1, 0, []⟩, some ⟨9, 0, []⟩⟩)]

end json

/-! ## `pkg/splay` -/

namespace splay

/-- The interface `Value` of the package: a value exposes `Len() int` and `String() string`.
A value is given by what its two methods return. -/
structure Value where
  Len : Int
  String : String
  deriving DecidableEq, Repr

/-- The type `stringValue` of `splay_test.go`. -/
structure stringValue where
  content : String
  deriving DecidableEq, Repr

/-- The method `Len` of `stringValue`: the number of bytes of the content. -/
def stringValue.Len (v : stringValue) : Int := (v.content.utf8ByteSize : Nat)

/-- The method `String` of `stringValue`. -/
def stringValue.String (v : stringValue) : String := v.content

/-- A `stringValue` seen through the interface `Value`. -/
def stringValue.toValue (v : stringValue) : Value := ⟨v.Len, v.String⟩

/-- Modelled from the spec: the package `pkg/splay` itself is not part of the sources at
hand, only its test is. A node pointer is either nil or points to a node that stores a
user value and a cached `subtree_weight` and owns its left and right subtrees. The
number `id` stands for the address of the node; the parent link is the position of the
node in the tree that holds it. -/
inductive Node where
  | nil
  | mk (left : Node) (id : Nat) (value : Value) (weight : Int) (right : Node)
  deriving DecidableEq, Repr

/-- Modelled from the spec: a tree is its root pointer. -/
structure Tree where
  root : Node
  deriving DecidableEq, Repr

/-- The cached weight under a node pointer, `0` for nil. -/
def Node.subtreeWeight : Node → Int
  | .nil => 0
  | .mk _ _ _ w _ => w

/-- Modelled from the spec: `NewNode(value)` makes a detached node; its subtree is the
node alone, of weight `value.Len()`. The address of the fresh node is given. -/
def NewNode (id : Nat) (value : Value) : Node := .mk .nil id value value.Len .nil

/-- The function `newSplayNode` of `splay_test.go`. -/
def newSplayNode (id : Nat) (content : String) : Node :=
  NewNode id (stringValue.toValue ⟨content⟩)

/-- Modelled from the spec: `NewTree()` is the empty tree. -/
def NewTree : Tree := ⟨.nil⟩

/-- Modelled from the spec: a node with the two given subtrees whose `subtree_weight` is
computed afresh from its own length and the cached weights of its children. -/
def updateSubtree (left : Node) (id : Nat) (value : Value) (right : Node) : Node :=
  .mk left id value (value.Len + left.subtreeWeight + right.subtreeWeight) right

/-- The side on which a node hangs from its parent. -/
inductive Side where
  | L
  | R
  deriving DecidableEq, Repr

/-- One step of the way from a node up to the root: the parent, the side on which the
node hangs from it, and the parent's other subtree. -/
structure Step where
  side : Side
  id : Nat
  value : Value
  weight : Int
  sibling : Node
  deriving DecidableEq, Repr

/-- The parent chain of the node with address `id`, nearest parent first, together with the
node itself; `none` when the tree does not hold the node. -/
def locate (id : Nat) : Node → List Step → Option (Node × List Step)
  | .nil, _ => none
  | .mk l i v w r, up =>
    if i = id then some (.mk l i v w r, up)
    else match locate id l (⟨.L, i, v, w, r⟩ :: up) with
      | some found => some found
      | none => locate id r (⟨.R, i, v, w, l⟩ :: up)

/-- Modelled from the spec: the rotations of `splay(node)`, applied from the node upwards
until it is the root: a zig-zig or a zig-zag while there is a grandparent, a single zig
under the root. Every node on the rotation path has its `subtree_weight` updated
bottom-up. -/
def splayUp : Node → List Step → Node
  | x, [] => x
  | .nil, _ => .nil
  | .mk a xi xv _ b, [p] =>
    match p.side with
    | .L => updateSubtree a xi xv (updateSubtree b p.id p.value p.sibling)
    | .R => updateSubtree (updateSubtree p.sibling p.id p.value a) xi xv b
  | .mk a xi xv _ b, p :: g :: up =>
    match p.side, g.side with
    | .L, .L =>
      splayUp (updateSubtree a xi xv
        (updateSubtree b p.id p.value (updateSubtree p.sibling g.id g.value g.sibling))) up
    | .R, .R =>
      splayUp (updateSubtree
        (updateSubtree (updateSubtree g.sibling g.id g.value p.sibling) p.id p.value a)
        xi xv b) up
    | .L, .R =>
      splayUp (updateSubtree (updateSubtree g.sibling g.id g.value a) xi xv
        (updateSubtree b p.id p.value p.sibling)) up
    | .R, .L =>
      splayUp (updateSubtree (updateSubtree p.sibling p.id p.value a) xi xv
        (updateSubtree b g.id g.value g.sibling)) up

/-- Modelled from the spec: `splay(node)` rotates `node` to the root. A node that the tree
does not hold leaves the tree as it is. -/
def Tree.Splay (t : Tree) (id : Nat) : Tree :=
  match locate id t.root [] with
  | some (x, up) => ⟨splayUp x up⟩
  | none => t

/-- The parent chain of the free place at the right-most end of a tree. -/
def rightmost : Node → List Step → List Step
  | .nil, up => up
  | .mk l i v w r, up => rightmost r (⟨.R, i, v, w, l⟩ :: up)

/-- Modelled from the spec: `insert(node)` appends the node with address `id` at the
right-most position and splays it (amortised O(log n)). -/
def Tree.Insert (t : Tree) (id : Nat) (value : Value) : Tree :=
  ⟨splayUp (NewNode id value) (rightmost t.root [])⟩

/-- Modelled from the spec: `index_of(node)` splays `node`, then returns
`left.subtree_weight`. The result is the index together with the tree after the splay. -/
def Tree.IndexOf (t : Tree) (id : Nat) : Int × Tree :=
  match (t.Splay id).root with
  | .nil => (0, t.Splay id)
  | .mk l _ _ _ _ => (l.subtreeWeight, t.Splay id)

/-- The text `[<subtree_weight>,<len>]<value>` of one node. -/
def annotate (weight len : Int) (value : String) : String :=
  "[" ++ toString weight ++ "," ++ toString len ++ "]" ++ value

/-- The in-order walk of `AnnotatedString` below a node pointer. -/
def Node.AnnotatedString : Node → String
  | .nil => ""
  | .mk l _ v w r => l.AnnotatedString ++ annotate w v.Len v.String ++ r.AnnotatedString

/-- Modelled from the spec: `AnnotatedString()` emits `[<subtree_weight>,<len>]<value>` in
in-order. -/
def Tree.AnnotatedString (t : Tree) : String := t.root.AnnotatedString

/-- The nodes below a node pointer in in-order, each by its address and value. -/
def Node.inorder : Node → List (Nat × Value)
  | .nil => []
  | .mk l i v _ r => l.inorder ++ (i, v) :: r.inorder

/-- The nodes of a tree in in-order. -/
def Tree.inorder (t : Tree) : List (Nat × Value) := t.root.inorder

/-- The sum of `Len()` over a sequence of nodes. -/
def totalLen (ns : List (Nat × Value)) : Int := (ns.map fun n => n.2.Len).sum

/-- The nodes strictly to the left of the node with address `id` in a sequence. -/
def leftOf (id : Nat) (ns : List (Nat × Value)) : List (Nat × Value) :=
  ns.takeWhile fun n => n.1 != id

/-- The weight invariant: at every node the cached `subtree_weight` is the sum of `Len()`
over the node and its descendants. -/
def Node.WeightOk : Node → Prop
  | .nil => True
  | .mk l i v w r => w = totalLen (Node.inorder (.mk l i v w r)) ∧ l.WeightOk ∧ r.WeightOk

/-- The weight invariant can be checked by a walk of the tree. -/
def Node.decWeightOk : (n : Node) → Decidable n.WeightOk
  | .nil => .isTrue trivial
  | .mk l i v w r =>
    have := Node.decWeightOk l
    have := Node.decWeightOk r
    inferInstanceAs (Decidable (w = totalLen (Node.inorder (.mk l i v w r)) ∧ l.WeightOk ∧ r.WeightOk))

instance (n : Node) : Decidable n.WeightOk := Node.decWeightOk n

/-- The nodes that come before a node in in-order, read off its parent chain. -/
def pathBefore : List Step → List (Nat × Value)
  | [] => []
  | p :: up =>
    match p.side with
    | .L => pathBefore up
    | .R => pathBefore up ++ (p.sibling.inorder ++ [(p.id, p.value)])

/-- The nodes that come after a node in in-order, read off its parent chain. -/
def pathAfter : List Step → List (Nat × Value)
  | [] => []
  | p :: up =>
    match p.side with
    | .L => (p.id, p.value) :: p.sibling.inorder ++ pathAfter up
    | .R => pathAfter up

/-- The tree around a node: the node put back under its parent chain, the parents as they
were. -/
def plug : Node → List Step → Node
  | x, [] => x
  | x, p :: up =>
    match p.side with
    | .L => plug (.mk x p.id p.value p.weight p.sibling) up
    | .R => plug (.mk p.sibling p.id p.value p.weight x) up

/-- The address of the node a pointer points to. -/
def Node.id? : Node → Option Nat
  | .nil => none
  | .mk _ i _ _ _ => some i

/-- The trees built from the empty tree by `Insert` of fresh nodes and by `Splay` and
`IndexOf` of nodes. -/
inductive Built : Tree → Prop where
  | NewTree : Built NewTree
  | Insert (t : Tree) (id : Nat) (value : Value) :
      Built t → id ∉ t.inorder.map Prod.fst → Built (t.Insert id value)
  | Splay (t : Tree) (id : Nat) : Built t → Built (t.Splay id)
  | IndexOf (t : Tree) (id : Nat) : Built t → Built (t.IndexOf id).2

/-- The tree of the test: `A2`, `B23`, `C234` and `D2345` inserted in turn, at the
addresses 1 to 4. -/
def testTree : Tree :=
  (((NewTree.Insert 1 (stringValue.toValue ⟨"A2"⟩)).Insert 2 (stringValue.toValue ⟨"B23"⟩)).Insert 3
    (stringValue.toValue ⟨"C234"⟩)).Insert 4 (stringValue.toValue ⟨"D2345"⟩)

end splay

/-! ## `api`: the messages of the wire format -/

namespace api

/-- The enumeration `ValueType` of the wire format. -/
inductive ValueType where
  | NULL
  | BOOLEAN
  | INTEGER
  | LONG
  | DOUBLE
  | STRING
  | BYTES
  | DATE
  | JSON_OBJECT
  | JSON_ARRAY
  | TEXT
  deriving DecidableEq, Repr

/-- The message `TimeTicket`. -/
structure TimeTicket where
  Lamport : Nat
  Delimiter : Nat
  ActorId : String
  deriving DecidableEq, Repr

/-- The message `JSONElementSimple`. -/
structure JSONElementSimple where
  CreatedAt : TimeTicket
  Type_ : ValueType
  Value : List Byte
  deriving DecidableEq, Repr

/-- The message `TextNodePos`. -/
structure TextNodePos where
  CreatedAt : TimeTicket
  Offset : Int
  RelativeOffset : Int
  deriving DecidableEq, Repr

/-- The message `Operation.Set`. -/
structure Operation_Set where
  ParentCreatedAt : TimeTicket
  Key : String
  Value : JSONElementSimple
  ExecutedAt : TimeTicket
  deriving DecidableEq, Repr

/-- The message `Operation.Add`. -/
structure Operation_Add where
  ParentCreatedAt : TimeTicket
  PrevCreatedAt : TimeTicket
  Value : JSONElementSimple
  ExecutedAt : TimeTicket
  deriving DecidableEq, Repr

/-- The message `Operation.Remove`. -/
structure Operation_Remove where
  ParentCreatedAt : TimeTicket
  CreatedAt : TimeTicket
  ExecutedAt : TimeTicket
  deriving DecidableEq, Repr

/-- The message `Operation.Edit`. A Go map is kept as the list of its entries. -/
structure Operation_Edit where
  ParentCreatedAt : TimeTicket
  From : TextNodePos
  To : TextNodePos
  CreatedAtMapByActor : List (String × TimeTicket)
  Content : String
  ExecutedAt : TimeTicket
  deriving DecidableEq, Repr

/-- The message `Operation.Select`. -/
structure Operation_Select where
  ParentCreatedAt : TimeTicket
  From : TextNodePos
  To : TextNodePos
  ExecutedAt : TimeTicket
  deriving DecidableEq, Repr

/-- The message `Operation`, by the variant of its body. -/
inductive Operation where
  | Set (body : Operation_Set)
  | Add (body : Operation_Add)
  | Remove (body : Operation_Remove)
  | Edit (body : Operation_Edit)
  | Select (body : Operation_Select)
  deriving DecidableEq, Repr

end api

/-! ## `pkg/document/operation` and the text positions of `pkg/document/json` -/

/-- Modelled from the spec: `TextNodeID{created_at, offset}`; the offset is a Go `int`. -/
structure json.TextNodeID where
  createdAt : Ticket
  offset : Int
  deriving DecidableEq, Repr

/-- Modelled from the spec: `TextNodePos{id, relative_offset}`; the relative offset is a
Go `int`. -/
structure json.TextNodePos where
  id : json.TextNodeID
  relativeOffset : Int
  deriving DecidableEq, Repr

/-- Modelled from the spec: the interface `operation.Operation` with its implementations
`Set`, `Add`, `Remove`, `Edit` and `Select`, each with `parent_created_at`, `executed_at`
and its type-specific fields. `Other` stands for any further implementation of the
interface. A Go map is kept as the list of its entries. -/
inductive operation.Operation where
  | Set (parentCreatedAt : Ticket) (key : String) (value : json.Element) (executedAt : Ticket)
  | Add (parentCreatedAt prevCreatedAt : Ticket) (value : json.Element) (executedAt : Ticket)
  | Remove (parentCreatedAt createdAt executedAt : Ticket)
  | Edit (parentCreatedAt : Ticket) (From To : json.TextNodePos)
      (createdAtMapByActor : List (String × Ticket)) (content : String) (executedAt : Ticket)
  | Select (parentCreatedAt : Ticket) (From To : json.TextNodePos) (executedAt : Ticket)
  | Other

/-! ## `api/converter/to_pb.go` -/

namespace converter

/-- The function `toTimeTicket`. -/
def toTimeTicket (ticket : Ticket) : api.TimeTicket :=
  { Lamport := ticket.Lamport, Delimiter := ticket.Delimiter, ActorId := ticket.ActorIDHex }

/-- The function `toJSONElement`; `none` is the panic
`fail to encode JSONElement to protobuf` or a panic of `Bytes`. -/
def toJSONElement (elem : json.Element) : Option api.JSONElementSimple :=
  match elem with
  | .object createdAt _ =>
    some { Type_ := .JSON_OBJECT, CreatedAt := toTimeTicket createdAt, Value := [] }
  | .array a =>
    some { Type_ := .JSON_ARRAY, CreatedAt := toTimeTicket (json.Array.CreatedAt a), Value := [] }
  | .primitive p =>
    if p.ValueType = json.Boolean then
      p.Bytes.map fun b => { Type_ := .BOOLEAN, CreatedAt := toTimeTicket p.CreatedAt, Value := b }
    else if p.ValueType = json.Integer then
      p.Bytes.map fun b => { Type_ := .INTEGER, CreatedAt := toTimeTicket p.CreatedAt, Value := b }
    else if p.ValueType = json.Long then
      p.Bytes.map fun b => { Type_ := .LONG, CreatedAt := toTimeTicket p.CreatedAt, Value := b }
    else if p.ValueType = json.Double then
      p.Bytes.map fun b => { Type_ := .DOUBLE, CreatedAt := toTimeTicket p.CreatedAt, Value := b }
    else if p.ValueType = json.String then
      p.Bytes.map fun b => { Type_ := .STRING, CreatedAt := toTimeTicket p.CreatedAt, Value := b }
    else if p.ValueType = json.Bytes then
      p.Bytes.map fun b => { Type_ := .BYTES, CreatedAt := toTimeTicket p.CreatedAt, Value := b }
    else if p.ValueType = json.Date then
      p.Bytes.map fun b => { Type_ := .DATE, CreatedAt := toTimeTicket p.CreatedAt, Value := b }
    else none
  | .text createdAt _ =>
    some { Type_ := .TEXT, CreatedAt := toTimeTicket createdAt, Value := [] }

/-- The function `toTextNodePos`. -/
def toTextNodePos (pos : json.TextNodePos) : api.TextNodePos :=
  { CreatedAt := toTimeTicket pos.id.createdAt
    Offset := intToInt32 pos.id.offset
    RelativeOffset := intToInt32 pos.relativeOffset }

/-- The function `toCreatedAtMapByActor`. -/
def toCreatedAtMapByActor (createdAtMapByActor : List (String × Ticket)) :
    List (String × api.TimeTicket) :=
  createdAtMapByActor.map fun entry => (entry.1, toTimeTicket entry.2)

/-- The body of the loop of `ToOperations`: the message of one operation; `none` is the
panic `unsupported operation` or a panic of `toJSONElement`. -/
def toOperation (o : operation.Operation) : Option api.Operation :=
  match o with
  | .Set parentCreatedAt key value executedAt =>
    (toJSONElement value).map fun v => .Set
      { ParentCreatedAt := toTimeTicket parentCreatedAt
        Key := key
        Value := v
        ExecutedAt := toTimeTicket executedAt }
  | .Add parentCreatedAt prevCreatedAt value executedAt =>
    (toJSONElement value).map fun v => .Add
      { ParentCreatedAt := toTimeTicket parentCreatedAt
        PrevCreatedAt := toTimeTicket prevCreatedAt
        Value := v
        ExecutedAt := toTimeTicket executedAt }
  | .Remove parentCreatedAt createdAt executedAt =>
    some (.Remove
      { ParentCreatedAt := toTimeTicket parentCreatedAt
        CreatedAt := toTimeTicket createdAt
        ExecutedAt := toTimeTicket executedAt })
  | .Edit parentCreatedAt From To createdAtMapByActor content executedAt =>
    some (.Edit
      { ParentCreatedAt := toTimeTicket parentCreatedAt
        From := toTextNodePos From
        To := toTextNodePos To
        CreatedAtMapByActor := toCreatedAtMapByActor createdAtMapByActor
        Content := content
        ExecutedAt := toTimeTicket executedAt })
  | .Select parentCreatedAt From To executedAt =>
    some (.Select
      { ParentCreatedAt := toTimeTicket parentCreatedAt
        From := toTextNodePos From
        To := toTextNodePos To
        ExecutedAt := toTimeTicket executedAt })
  | .Other => none

/-- ToOperations converts the given model format to Protobuf format. -/
def ToOperations (operations : List operation.Operation) : Option (List api.Operation) :=
  operations.foldl
    (fun pbOperations o =>
      pbOperations.bind fun done => (toOperation o).map fun pbOperation => done ++ [pbOperation])
    (some [])

/-- A ticket is serialised with its lamport, its delimiter and the hex string of its actor
unchanged. -/
def SameTicket (m : api.TimeTicket) (t : Ticket) : Prop :=
  m.Lamport = t.lamport ∧ m.Delimiter = t.delimiter ∧ m.ActorId = hexString t.actorID

/-- A text position is carried with the ticket of its node unchanged and with its two
offsets converted to 32 bits, which leaves an offset of the 32-bit range as it is. -/
def SamePos (m : api.TextNodePos) (pos : json.TextNodePos) : Prop :=
  SameTicket m.CreatedAt pos.id.createdAt ∧
  m.Offset = intToInt32 pos.id.offset ∧
  m.RelativeOffset = intToInt32 pos.relativeOffset ∧
  (IsInt32 pos.id.offset → m.Offset = pos.id.offset) ∧
  (IsInt32 pos.relativeOffset → m.RelativeOffset = pos.relativeOffset)

/-- A map of tickets by actor is carried entry by entry: the same actors, each with its
ticket serialised unchanged. -/
def SameMap (m : List (String × api.TimeTicket)) (entries : List (String × Ticket)) : Prop :=
  m.map Prod.fst = entries.map Prod.fst ∧
  List.Forall₂ (fun pb entry => pb.1 = entry.1 ∧ SameTicket pb.2 entry.2) m entries

/-- A message has the variant of an operation and carries its `parent_created_at`, its
`executed_at` and its type-specific fields. -/
def Carries : operation.Operation → api.Operation → Prop
  | .Set parentCreatedAt key value executedAt, .Set m =>
    SameTicket m.ParentCreatedAt parentCreatedAt ∧ m.Key = key ∧
    toJSONElement value = some m.Value ∧ SameTicket m.ExecutedAt executedAt
  | .Add parentCreatedAt prevCreatedAt value executedAt, .Add m =>
    SameTicket m.ParentCreatedAt parentCreatedAt ∧ SameTicket m.PrevCreatedAt prevCreatedAt ∧
    toJSONElement value = some m.Value ∧ SameTicket m.ExecutedAt executedAt
  | .Remove parentCreatedAt createdAt executedAt, .Remove m =>
    SameTicket m.ParentCreatedAt parentCreatedAt ∧ SameTicket m.CreatedAt createdAt ∧
    SameTicket m.ExecutedAt executedAt
  | .Edit parentCreatedAt From To createdAtMapByActor content executedAt, .Edit m =>
    SameTicket m.ParentCreatedAt parentCreatedAt ∧ SamePos m.From From ∧ SamePos m.To To ∧
    SameMap m.CreatedAtMapByActor createdAtMapByActor ∧ m.Content = content ∧
    SameTicket m.ExecutedAt executedAt
  | .Select parentCreatedAt From To executedAt, .Select m =>
    SameTicket m.ParentCreatedAt parentCreatedAt ∧ SamePos m.From From ∧ SamePos m.To To ∧
    SameTicket m.ExecutedAt executedAt
  | _, _ => False

/-- The operations `ToOperations` has a message for: a Set or an Add whose value
`toJSONElement` encodes, a Remove, an Edit, a Select. -/
def supported : operation.Operation → Bool
  | .Set _ _ value _ => (toJSONElement value).isSome
  | .Add _ _ value _ => (toJSONElement value).isSome
  | .Remove _ _ _ => true
  | .Edit _ _ _ _ _ _ => true
  | .Select _ _ _ _ => true
  | .Other => false

/-- An actor of twelve bytes. -/
def sampleActor : List Byte := [0, 1, 2, 3, 4, 5, 6, 7, 8, 9, 10, 171]

/-- A list of one operation of each kind; the Edit starts at the offset `2^31`. -/
def sampleOperations : List operation.Operation :=
  [.Set ⟨1, 0, sampleActor⟩ "k" (.primitive ⟨json.Integer, .int 7, ⟨2, 0, sampleActor⟩, none⟩)
      ⟨2, 0, sampleActor⟩,
   .Add ⟨1, 0, sampleActor⟩ InitialTicket (.text ⟨3, 0, sampleActor⟩ none) ⟨3, 0, sampleActor⟩,
   .Remove ⟨1, 0, sampleActor⟩ ⟨2, 0, sampleActor⟩ ⟨4, 0, sampleActor⟩,
   .Edit ⟨3, 0, sampleActor⟩ ⟨⟨⟨3, 0, sampleActor⟩, 2147483648⟩, 0⟩ ⟨⟨⟨3, 0, sampleActor⟩, 0⟩, 1⟩
      [("000102030405060708090aab", ⟨3, 0, sampleActor⟩)] "x" ⟨5, 0, sampleActor⟩,
   .Select ⟨3, 0, sampleActor⟩ ⟨⟨⟨3, 0, sampleActor⟩, 0⟩, 0⟩ ⟨⟨⟨3, 0, sampleActor⟩, 0⟩, 1⟩
      ⟨6, 0, sampleActor⟩]

end converter

/-! ## Change packs: `pkg/document/key`, `checkpoint`, `change` and their messages -/

/-- Modelled from the spec: the document key `(collection, document)` of package `key`. -/
structure key.Key where
  Collection : String
  Document : String
  deriving DecidableEq, Repr

/-- Modelled from the spec: `Checkpoint = {server_seq: u64, client_seq: u32}`. -/
structure checkpoint.Checkpoint where
  ServerSeq : Nat
  ClientSeq : Nat
  deriving DecidableEq, Repr

/-- Modelled from the spec: `ChangeID = {client_seq, server_seq, lamport, actor}`; the
server sequence is held by the change. -/
structure change.ID where
  clientSeq : Nat
  lamport : Nat
  actor : List Byte
  deriving DecidableEq, Repr

/-- Modelled from the spec: `Change = {id, message, operations}` with the server sequence
the server assigned to it. -/
structure change.Change where
  id : change.ID
  message : String
  operations : List operation.Operation
  serverSeq : Nat

/-- Modelled from the spec: `ChangePack = {document_key, checkpoint, changes}`. -/
structure change.Pack where
  DocumentKey : key.Key
  Checkpoint : checkpoint.Checkpoint
  Changes : List change.Change

/-- The message `DocumentKey`. -/
structure api.DocumentKey where
  Collection : String
  Document : String
  deriving DecidableEq, Repr

/-- The message `Checkpoint`. -/
structure api.Checkpoint where
  ServerSeq : Nat
  ClientSeq : Nat
  deriving DecidableEq, Repr

/-- The message `ChangeID`. -/
structure api.ChangeID where
  ClientSeq : Nat
  Lamport : Nat
  ActorId : String
  deriving DecidableEq, Repr

/-- The message `Change`. -/
structure api.Change where
  Id : api.ChangeID
  Message : String
  Operations : List api.Operation
  deriving DecidableEq, Repr

/-- The message `ChangePack`. -/
structure api.ChangePack where
  DocumentKey : api.DocumentKey
  Checkpoint : api.Checkpoint
  Changes : List api.Change
  deriving DecidableEq, Repr

namespace converter

/-- The function `toDocumentKey`. -/
def toDocumentKey (key : key.Key) : api.DocumentKey :=
  { Collection := key.Collection, Document := key.Document }

/-- The function `toCheckpoint`. -/
def toCheckpoint (cp : checkpoint.Checkpoint) : api.Checkpoint :=
  { ServerSeq := cp.ServerSeq, ClientSeq := cp.ClientSeq }

/-- The function `toChangeID`; the actor is rendered by its `String` method, the hex
string of its bytes. -/
def toChangeID (id : change.ID) : api.ChangeID :=
  { ClientSeq := id.clientSeq, Lamport := id.lamport, ActorId := hexString id.actor }

/-- The function `toChanges`; `none` is a panic of `ToOperations`. -/
def toChanges (changes : List change.Change) : Option (List api.Change) :=
  changes.foldl
    (fun pbChanges c =>
      pbChanges.bind fun done => (ToOperations c.operations).map fun ops =>
        done ++ [{ Id := toChangeID c.id, Message := c.message, Operations := ops }])
    (some [])

/-- ToChangePack converts the given model format to Protobuf format. -/
def ToChangePack (pack : change.Pack) : Option api.ChangePack :=
  (toChanges pack.Changes).map fun changes =>
    { DocumentKey := toDocumentKey pack.DocumentKey
      Checkpoint := toCheckpoint pack.Checkpoint
      Changes := changes }

/-- The tag of the wire format that matches a value type of a primitive. -/
def tagOf (vt : json.ValueType) : api.ValueType :=
  if vt = json.Boolean then .BOOLEAN
  else if vt = json.Integer then .INTEGER
  else if vt = json.Long then .LONG
  else if vt = json.Double then .DOUBLE
  else if vt = json.String then .STRING
  else if vt = json.Bytes then .BYTES
  else if vt = json.Date then .DATE
  else .NULL

/-- The value a payload stands for: what a reader of the wire format gets back for a value.
An int is kept on 32 bits, an int64 and a bit pattern on 64 bits, a date by its whole UNIX
second in local time. -/
def wireValue : json.Value → json.Value
  | .int v => .int (intToInt32 v)
  | .int64 v => .int64 (toInt64 (toUint64 v))
  | .float64 bits => .float64 (bits % 18446744073709551616)
  | .time t => .time (json.Time.ofUnix (toInt64 (toUint64 t.unixSec)))
  | v => v

/-- The values a payload gives back unchanged: those of the exact kinds and an int of the
32-bit range. -/
def IsWireExact : json.Value → Prop
  | .int v => IsInt32 v
  | v => v.IsExactKind

/-- A change pack of two changes, the first with one operation of each kind. -/
def samplePack : change.Pack :=
  { DocumentKey := ⟨"c1", "d1"⟩
    Checkpoint := ⟨3, 2⟩
    Changes :=
      [⟨⟨1, 5, sampleActor⟩, "first", sampleOperations, 1⟩,
       ⟨⟨2, 6, sampleActor⟩, "second", [], 2⟩] }

end converter

namespace converter

/-- A message of a change carries the message of the change, the `client_seq`, the lamport
and the actor hex of its id, and `ToOperations` of its operations. -/
def CarriesChange (c : change.Change) (m : api.Change) : Prop :=
  m.Message = c.message ∧ m.Id.ClientSeq = c.id.clientSeq ∧ m.Id.Lamport = c.id.lamport ∧
  m.Id.ActorId = hexString c.id.actor ∧ ToOperations c.operations = some m.Operations

end converter

/-! ## `Primitive.Marshal` and the JSON text of a string -/

/-- The bytes of a text of ASCII characters. -/
def ascii (s : String) : GoString := s.toList.map fun c => byte c.toNat

/-- The formatting of packages `fmt` and `time` that is left open: the text of a float64
under the verb `%f`, given by its bit pattern; the RFC 3339 text of a time; and what
`fmt.Sprintf` writes for an operand that does not fit the verb. -/
structure json.Formats where
  float : Nat → GoString
  rfc3339 : json.Time → GoString
  other : Char → json.Value → GoString

/-- Go `fmt.Sprintf("%t", v)`. -/
def json.sprintT (f : json.Formats) : json.Value → GoString
  | .bool true => ascii "true"
  | .bool false => ascii "false"
  | v => f.other 't' v

/-- Go `fmt.Sprintf("%d", v)`: the decimal digits of an integer of any width. -/
def json.sprintD (f : json.Formats) : json.Value → GoString
  | .int v => ascii (toString v)
  | .int32 v => ascii (toString v)
  | .int64 v => ascii (toString v)
  | v => f.other 'd' v

/-- Go `fmt.Sprintf("%f", v)`. -/
def json.sprintF (f : json.Formats) : json.Value → GoString
  | .float64 bits => f.float bits
  | v => f.other 'f' v

/-- Go `fmt.Sprintf("%s", v)`: the bytes of a string or of a byte sequence, as they are. -/
def json.sprintS (f : json.Formats) : json.Value → GoString
  | .string s => s
  | .bytes b => b
  | v => f.other 's' v

/-- Marshal returns the JSON encoding of the value. -/
def json.Primitive.Marshal (f : json.Formats) (p : json.Primitive) : Option GoString :=
  if p.valueType = json.Boolean then some (json.sprintT f p.value)
  else if p.valueType = json.Integer then some (json.sprintD f p.value)
  else if p.valueType = json.Long then some (json.sprintD f p.value)
  else if p.valueType = json.Double then some (json.sprintF f p.value)
  else if p.valueType = json.String then some ([34] ++ json.sprintS f p.value ++ [34])
  else if p.valueType = json.Bytes then some ([34] ++ json.sprintS f p.value ++ [34])
  else if p.valueType = json.Date then
    match p.value with
    | .time t => some (f.rfc3339 t)
    | _ => none
  else none

/-- The value of a hexadecimal digit. -/
def hexValue (b : Byte) : Option Nat :=
  if 48 ≤ b.val ∧ b.val ≤ 57 then some (b.val - 48)
  else if 97 ≤ b.val ∧ b.val ≤ 102 then some (b.val - 87)
  else if 65 ≤ b.val ∧ b.val ≤ 70 then some (b.val - 55)
  else none

/-- The UTF-8 bytes of a code point of the basic plane. -/
def utf8 (cp : Nat) : List Byte :=
  if cp < 128 then [byte cp]
  else if cp < 2048 then [byte (192 + cp / 64), byte (128 + cp % 64)]
  else [byte (224 + cp / 4096), byte (128 + cp / 64 % 64), byte (128 + cp % 64)]

/-- The byte a simple escape of a JSON string stands for. -/
def unescape (e : Byte) : Option Byte :=
  if e.val = 34 then some 34
  else if e.val = 92 then some 92
  else if e.val = 47 then some 47
  else if e.val = 98 then some 8
  else if e.val = 102 then some 12
  else if e.val = 110 then some 10
  else if e.val = 114 then some 13
  else if e.val = 116 then some 9
  else none

/-- The content of a JSON string literal (RFC 8259) read from behind its opening quote up
to its closing quote, which has to end the text: a quote, a backslash and a control byte
may only appear escaped. Escapes `\u` of surrogate halves are left out. -/
def parseStringBody : List Byte → Option GoString
  | [] => none
  | b :: rest =>
    if b.val = 34 then (if rest.isEmpty then some [] else none)
    else if b.val = 92 then
      match rest with
      | [] => none
      | e :: rest2 =>
        if e.val = 117 then
          match rest2 with
          | h1 :: h2 :: h3 :: h4 :: rest3 =>
            match hexValue h1, hexValue h2, hexValue h3, hexValue h4 with
            | some d1, some d2, some d3, some d4 =>
              if 55296 ≤ d1 * 4096 + d2 * 256 + d3 * 16 + d4 ∧
                  d1 * 4096 + d2 * 256 + d3 * 16 + d4 < 57344 then none
              else (parseStringBody rest3).map fun s =>
                utf8 (d1 * 4096 + d2 * 256 + d3 * 16 + d4) ++ s
            | _, _, _, _ => none
          | _ => none
        else
          match unescape e with
          | some c => (parseStringBody rest2).map fun s => c :: s
          | none => none
    else if b.val < 32 then none
    else (parseStringBody rest).map fun s => b :: s

/-- The string a text denotes when it is a JSON string literal; `none` when it is not. -/
def parseJSONString : List Byte → Option GoString
  | [] => none
  | q :: rest => if q.val = 34 then parseStringBody rest else none

/-! ## `yorkie/backend/mongo`: the store and the driver -/

namespace mongo

/-- The errors of the package and those of the driver that the code tells apart. -/
inductive Error where
  | ErrClientNotFound
  | ErrDocumentNotFound
  | ErrSnapshotNotFound
  | ErrNoDocuments
  | ErrInvalidHex
  | InvalidByteError
  | Driver (message : String)
  deriving DecidableEq, Repr

/-- A `primitive.ObjectID`, kept as the number its twelve bytes denote. -/
abbrev ObjectID := Nat

/-- The value of a hexadecimal digit. -/
def hexDigitValue (c : Char) : Option Nat :=
  if 48 ≤ c.toNat ∧ c.toNat ≤ 57 then some (c.toNat - 48)
  else if 97 ≤ c.toNat ∧ c.toNat ≤ 102 then some (c.toNat - 87)
  else if 65 ≤ c.toNat ∧ c.toNat ≤ 70 then some (c.toNat - 55)
  else none

/-- The driver's `primitive.ObjectIDFromHex`: 24 hexadecimal digits give an ObjectID, any
other text gives an error: `ErrInvalidHex` when `len(s)`, the number of bytes, is not 24,
the error of `hex.DecodeString` on a byte that is no hexadecimal digit. Which of the two
errors a text of another length with such a byte gets depends on the version of the
driver. -/
def ObjectIDFromHex (s : String) : Except Error ObjectID :=
  if s.utf8ByteSize ≠ 24 then .error .ErrInvalidHex
  else match s.toList.mapM hexDigitValue with
    | some digits => .ok (digits.foldl (fun acc d => acc * 16 + d) 0)
    | none => .error .InvalidByteError

/-- Modelled from the spec: `types.ClientInfo` is not part of the sources at hand; the
fields are those the queries name. An instant is kept as a number. -/
structure ClientInfo where
  ID : ObjectID
  Key : String
  Status : String
  CreatedAt : Nat
  UpdatedAt : Nat
  deriving DecidableEq, Repr

/-- Modelled from the spec: `types.DocInfo`, by the fields the queries name. -/
structure DocInfo where
  ID : ObjectID
  Key : String
  Owner : ObjectID
  ServerSeq : Nat
  CreatedAt : Nat
  AccessedAt : Nat
  UpdatedAt : Nat
  deriving DecidableEq, Repr

/-- Modelled from the spec: `types.ChangeInfo`, by the fields the queries name. -/
structure ChangeInfo where
  ID : ObjectID
  DocID : ObjectID
  ServerSeq : Nat
  Actor : List Byte
  ClientSeq : Nat
  Lamport : Nat
  Message : String
  Operations : List (List Byte)
  deriving DecidableEq, Repr

/-- Modelled from the spec: `types.SnapshotInfo`, by the fields the queries name. -/
structure SnapshotInfo where
  ID : ObjectID
  DocID : ObjectID
  ServerSeq : Nat
  Snapshot : List Byte
  CreatedAt : Nat
  deriving DecidableEq, Repr

/-- The zero value `types.SnapshotInfo{}`. -/
def SnapshotInfo.zero : SnapshotInfo := ⟨0, 0, 0, [], 0⟩

/-- The constant `types.ClientActivated`. -/
def ClientActivated : String := "activated"

/-- The constant `types.ClientDeactivated`. -/
def ClientDeactivated : String := "deactivated"

/-- The functions of package `yorkie/types` that are not part of the sources at hand. -/
structure Types where
  EncodeActorID : List Byte → List Byte
  EncodeOperation : List operation.Operation → List (List Byte)
  ToChange : ChangeInfo → Except Error change.Change

/-- The database: the four collections, each the list of its documents in natural
order. -/
structure Store where
  clients : List ClientInfo
  documents : List DocInfo
  changes : List ChangeInfo
  snapshots : List SnapshotInfo
  deriving DecidableEq, Repr

/-- The driver's `FindOne`: the first document that matches the filter; `none` is
`mongo.ErrNoDocuments`. -/
def findOne {α : Type} (filter : α → Bool) (col : List α) : Option α := col.find? filter

/-- The driver's update of one document: the first document that matches the filter is
changed, the others stay. -/
def updateFirst {α : Type} (filter : α → Bool) (update : α → α) : List α → List α
  | [] => []
  | x :: xs => if filter x then update x :: xs else x :: updateFirst filter update xs

/-- An `_id` that no document of the collection has. -/
def freshID (ids : List ObjectID) : ObjectID := ids.foldr max 0 + 1

/-- The function `FindLastSnapshotInfo`. -/
def FindLastSnapshotInfo (s : Store) (docID : ObjectID) : Except Error SnapshotInfo :=
  let snapshotInfo := SnapshotInfo.zero
  let result :=
    ((s.snapshots.filter fun x => x.DocID = docID).insertionSort
      fun a b => a.ServerSeq ≤ b.ServerSeq).head?
  match result with
  | none => .ok snapshotInfo
  | some _ => .ok snapshotInfo

/-- The filter of one write of `CreateChangeInfos`. -/
def changeFilter (docID : ObjectID) (c : change.Change) (r : ChangeInfo) : Bool :=
  r.DocID = docID && r.ServerSeq = c.serverSeq

/-- The update `$set` of one write of `CreateChangeInfos`. -/
def changeSet (ty : Types) (c : change.Change) (r : ChangeInfo) : ChangeInfo :=
  { r with
    Actor := ty.EncodeActorID c.id.actor
    ClientSeq := c.id.clientSeq
    Lamport := c.id.lamport
    Message := c.message
    Operations := ty.EncodeOperation c.operations }

/-- One write of the bulk of `CreateChangeInfos`: an update of one document with upsert. -/
def upsertChange (ty : Types) (docID : ObjectID) (col : List ChangeInfo) (c : change.Change) :
    List ChangeInfo :=
  if col.any (changeFilter docID c) then updateFirst (changeFilter docID c) (changeSet ty c) col
  else col ++ [changeSet ty c ⟨freshID (col.map fun r => r.ID), docID, c.serverSeq, [], 0, 0, "", []⟩]

/-- The function `CreateChangeInfos`: the error it returns and the store it leaves. -/
def CreateChangeInfos (ty : Types) (s : Store) (docID : ObjectID) (changes : List change.Change) :
    Option Error × Store :=
  if changes.length = 0 then (none, s)
  else (none, { s with changes := changes.foldl (upsertChange ty docID) s.changes })

/-- The largest Go `int64`, `math.MaxInt64`. -/
def MaxInt64 : Nat := 9223372036854775807

/-- The function `FindChangeInfosBetweenServerSeqs`. The bounds are Go `uint64` and go
into the filter as they are; the driver refuses to encode a `uint64` above `math.MaxInt64`,
so that `Find` returns an error for such a bound. -/
def FindChangeInfosBetweenServerSeqs (ty : Types) (s : Store) (docID : ObjectID)
    (from_ to_ : Nat) : Except Error (List change.Change) :=
  if MaxInt64 < from_ ∨ MaxInt64 < to_ then .error (.Driver "overflows int64")
  else
    let cursor :=
      s.changes.filter fun r => r.DocID = docID && from_ ≤ r.ServerSeq && r.ServerSeq ≤ to_
    cursor.foldl
      (fun acc changeInfo => acc.bind fun changes =>
        (ty.ToChange changeInfo).map fun c => changes ++ [c])
      (.ok [])

/-- The function `FindDocInfoByKey`: what it returns and the store it leaves. `now` is the
instant `time.Now()` gives. -/
def FindDocInfoByKey (now : Nat) (s : Store) (clientInfo : ClientInfo) (bsonDocKey : String)
    (createDocIfNotExist : Bool) : Except Error DocInfo × Store :=
  let res : Nat × ObjectID × List DocInfo :=
    if s.documents.any (fun d => d.Key = bsonDocKey) then
      (0, 0, updateFirst (fun d => d.Key = bsonDocKey) (fun d => { d with AccessedAt := now })
        s.documents)
    else if createDocIfNotExist then
      (1, freshID (s.documents.map fun d => d.ID),
        s.documents ++ [⟨freshID (s.documents.map fun d => d.ID), bsonDocKey, 0, 0, 0, now, 0⟩])
    else (0, 0, s.documents)
  if res.1 > 0 then
    match findOne (fun d => d.ID = res.2.1) res.2.2 with
    | some docInfo =>
      let updated := updateFirst (fun d => d.ID = res.2.1)
        (fun d => { d with Owner := clientInfo.ID, CreatedAt := now }) res.2.2
      (.ok docInfo, { s with documents := updated })
    | none => (.error .ErrNoDocuments, { s with documents := res.2.2 })
  else
    match findOne (fun d => d.Key = bsonDocKey) res.2.2 with
    | none => (.error .ErrDocumentNotFound, { s with documents := res.2.2 })
    | some docInfo => (.ok docInfo, { s with documents := res.2.2 })

/-- The function `FindClientInfoByID`. -/
def FindClientInfoByID (s : Store) (clientID : String) : Except Error ClientInfo :=
  match ObjectIDFromHex clientID with
  | .error err => .error err
  | .ok id =>
    match findOne (fun c => c.ID = id) s.clients with
    | none => .error .ErrClientNotFound
    | some client => .ok client

/-- The function `DeactivateClient`: what it returns and the store it leaves. The driver's
`FindOneAndUpdate` yields the document as it was before the update. -/
def DeactivateClient (now : Nat) (s : Store) (clientID : String) :
    Except Error ClientInfo × Store :=
  match ObjectIDFromHex clientID with
  | .error err => (.error err, s)
  | .ok id =>
    match findOne (fun c => c.ID = id) s.clients with
    | none => (.error .ErrClientNotFound, s)
    | some clientInfo =>
      let updated := updateFirst (fun c => c.ID = id)
        (fun c => { c with Status := ClientDeactivated, UpdatedAt := now }) s.clients
      (.ok clientInfo, { s with clients := updated })

/-- The driver's `mongo.IndexModel`: the keys with their directions and the option
`unique`. -/
structure IndexModel where
  Keys : List (String × Int)
  Unique : Bool
  deriving DecidableEq, Repr

def ColClientInfos : String := "clients"

def idxClientInfos : List IndexModel := [⟨[("key", 1)], true⟩]

def ColDocInfos : String := "documents"

def idxDocInfos : List IndexModel := [⟨[("key", 1)], true⟩]

def ColChanges : String := "changes"

def idxChanges : List IndexModel := [⟨[("doc_id", 1), ("server_seq", 1)], true⟩]

def ColSnapshots : String := "snapshots"

def idxSnapshots : List IndexModel := [⟨[("doc_id", 1), ("server_seq", 1)], true⟩]

/-- The indexes of a database, each with the collection it is on. -/
abbrev Indexes := List (String × IndexModel)

/-- The driver's `Indexes().CreateMany` on a collection; `fails` tells the collections on
which the driver reports an error. -/
def createMany (fails : String → Bool) (db : Indexes) (col : String) (models : List IndexModel) :
    Except Error Indexes :=
  if fails col then .error (.Driver col) else .ok (db ++ models.map fun m => (col, m))

/-- The function `ensureIndexes`: the error it returns and the indexes it leaves. -/
def ensureIndexes (fails : String → Bool) (db : Indexes) : Option Error × Indexes :=
  match createMany fails db ColClientInfos idxClientInfos with
  | .error err => (some err, db)
  | .ok db1 =>
    match createMany fails db1 ColDocInfos idxDocInfos with
    | .error err => (some err, db1)
    | .ok db2 =>
      match createMany fails db2 ColChanges idxChanges with
      | .error err => (some err, db2)
      | .ok db3 =>
        match createMany fails db3 ColSnapshots idxSnapshots with
        | .error err => (some err, db3)
        | .ok db4 => (none, db4)

end mongo

namespace mongo

/-- A store with two snapshots of the document 7, taken at the server sequences 1 and 2,
and one snapshot of the document 8. -/
def sampleSnapshots : Store :=
  { clients := []
    documents := []
    changes := []
    snapshots := [⟨1, 7, 1, [1], 10⟩, ⟨2, 7, 2, [2], 20⟩, ⟨3, 8, 5, [5], 30⟩] }

/-- The store with no document in any collection. -/
def emptyStore : Store := ⟨[], [], [], []⟩

end mongo

namespace mongo

/-- The key `(doc_id, server_seq)` of a stored change. -/
def ChangeInfo.key (r : ChangeInfo) : ObjectID × Nat := (r.DocID, r.ServerSeq)

/-- Encoders that keep the actor as it is and write one byte sequence for every operation;
`ToChange` reads the id, the message and the server sequence back. -/
def sampleTypes : Types :=
  { EncodeActorID := fun actor => actor
    EncodeOperation := fun ops => ops.map fun _ => []
    ToChange := fun r => .ok ⟨⟨r.ClientSeq, r.Lamport, r.Actor⟩, r.Message, [], r.ServerSeq⟩ }

/-- Three changes, the first and the last with the same server sequence. -/
def sampleChanges : List change.Change :=
  [⟨⟨1, 5, [1]⟩, "first", [], 4⟩, ⟨⟨2, 6, [1]⟩, "second", [], 5⟩, ⟨⟨3, 7, [2]⟩, "third", [], 4⟩]

/-- A store with one stored change of the document 7 and one of the document 8. -/
def sampleStore : Store :=
  { clients := [⟨11, "alice", "activated", 1, 1⟩, ⟨12, "bob", "activated", 2, 2⟩]
    documents := [⟨21, "c$d1", 11, 0, 1, 1, 1⟩]
    changes := [⟨1, 7, 4, [9], 9, 9, "old", []⟩, ⟨2, 8, 4, [8], 8, 8, "other", []⟩]
    snapshots := [] }

end mongo

/-! ## Deep copies, the JSON text of an Array and the widths of the payloads -/

/-- Go `Time.Equal`: the two times are the same instant, whatever their locations. -/
def json.Time.Equal (a b : json.Time) : Prop := a.unixSec = b.unixSec ∧ a.nsec = b.nsec

/-- DeepCopy copies itself deeply. -/
def json.Primitive.DeepCopy (p : json.Primitive) : json.Primitive := p

mutual

/-- The method `DeepCopy` of the interface `Element`. Modelled from the spec: Object and
Text are not among the sources; their copy carries the same tickets. -/
def json.Element.DeepCopy : json.Element → json.Element
  | .object createdAt deletedAt => .object createdAt deletedAt
  | .array a => .array (json.Array.DeepCopy a)
  | .primitive p => .primitive p.DeepCopy
  | .text createdAt deletedAt => .text createdAt deletedAt

/-- DeepCopy copies itself deeply. -/
def json.Array.DeepCopy : json.Array → json.Array
  | ⟨⟨nodes⟩, createdAt, deletedAt⟩ =>
    { json.NewArray (json.copyNodes nodes json.NewRGA) createdAt with deletedAt := deletedAt }

/-- The loop of `Array.DeepCopy`: the copy of the element of every node, tombstones
included, is added to the new sequence. -/
def json.copyNodes : List json.RGANode → json.RGA → json.RGA
  | [], elements => elements
  | ⟨elem⟩ :: rest, elements => json.copyNodes rest (elements.Add (json.Element.DeepCopy elem))

end

/-- The formatting left open for `Marshal` on elements: that of the primitives, and the
JSON text of an Object and of a Text, which are not among the sources. -/
structure json.ElementFormats where
  primitive : json.Formats
  object : Ticket → Option Ticket → Option GoString
  text : Ticket → Option Ticket → Option GoString

/-- The texts joined with commas. -/
def json.joinComma : List GoString → GoString
  | [] => []
  | [s] => s
  | s :: rest => s ++ [44] ++ json.joinComma rest

mutual

/-- The method `Marshal` of the interface `Element`. -/
def json.Element.Marshal (f : json.ElementFormats) : json.Element → Option GoString
  | .object createdAt deletedAt => f.object createdAt deletedAt
  | .array a => json.Array.Marshal f a
  | .primitive p => p.Marshal f.primitive
  | .text createdAt deletedAt => f.text createdAt deletedAt

/-- Marshal returns the JSON encoding of this Array. Modelled from the spec: `marshal()` of
the sequence is the JSON representation, skipping tombstones, comma-separated. -/
def json.Array.Marshal (f : json.ElementFormats) : json.Array → Option GoString
  | ⟨⟨nodes⟩, _, _⟩ =>
    (json.marshalNodes f nodes).map fun items => [91] ++ json.joinComma items ++ [93]

/-- The JSON texts of the elements of the nodes that are not tombstones. -/
def json.marshalNodes (f : json.ElementFormats) : List json.RGANode → Option (List GoString)
  | [] => some []
  | ⟨elem⟩ :: rest =>
    if elem.DeletedAt.isSome then json.marshalNodes f rest
    else (json.Element.Marshal f elem).bind fun s =>
      (json.marshalNodes f rest).map fun items => s :: items

end

/-- The number of bytes `ValueFromBytes` needs of a payload: one for a Boolean, four for an
Integer, eight for a Long, a Double and a Date, none for a String and for Bytes. -/
def json.payloadWidth (vt : json.ValueType) : Nat :=
  if vt = json.Boolean then 1
  else if vt = json.Integer then 4
  else if vt = json.Long ∨ vt = json.Double ∨ vt = json.Date then 8
  else 0

/-- The well-formed payloads: four bytes for an Integer, eight bytes for a Long, a Double
and a Date, any bytes for a String and for Bytes, the one byte 0 or 1 for a Boolean. -/
def json.WellFormedPayload (vt : json.ValueType) (b : List Byte) : Prop :=
  (vt = json.Integer ∧ b.length = 4) ∨
  ((vt = json.Long ∨ vt = json.Double ∨ vt = json.Date) ∧ b.length = 8) ∨
  vt = json.String ∨ vt = json.Bytes ∨
  (vt = json.Boolean ∧ (b = [0] ∨ b = [1]))

/-- An Array that holds a tombstoned boolean, a nested Array with a tombstone of its own
and a string. -/
def json.nestedArray : json.Array :=
  json.NewArray
    ⟨[⟨.primitive ⟨json.Boolean, .bool true, ⟨1, 0, []⟩, some ⟨9, 0, []⟩⟩⟩,
      ⟨.array { json.sampleArray with createdAt := ⟨2, 0, []⟩ }⟩,
      ⟨.primitive ⟨json.String, .string [104, 105], ⟨3, 0, []⟩, none⟩⟩]⟩
    ⟨0, 2, []⟩

end Yorkie

namespace Yorkie

/-! # Theorems -/

section JsonTheorems

open time json

/-! ## Machine integers and byte order -/

theorem uint32LE_putUint32 (u : Nat) (h : u < 4294967296) :
    uint32LE (putUint32 u) = some u := by
  simp only [putUint32, uint32LE, byte, Option.some.injEq]
  omega

theorem uint64LE_putUint64 (u : Nat) (h : u < 18446744073709551616) :
    uint64LE (putUint64 u) = some u := by
  simp only [putUint64, uint64LE, byte, Option.some.injEq]
  omega

theorem littleEndian_putUint32 (u : Nat) :
    littleEndian (putUint32 u) = u % 4294967296 := by
  simp only [putUint32, littleEndian, byte]
  omega

theorem littleEndian_putUint64 (u : Nat) :
    littleEndian (putUint64 u) = u % 18446744073709551616 := by
  simp only [putUint64, littleEndian, byte]
  omega

theorem toUint32_lt (v : Int) : toUint32 v < 4294967296 := by
  unfold toUint32; omega

theorem toUint64_lt (v : Int) : toUint64 v < 18446744073709551616 := by
  unfold toUint64; omega

theorem intToInt32_eq_iff (v : Int) : intToInt32 v = v ↔ IsInt32 v := by
  unfold intToInt32 IsInt32 toInt32 toUint32
  constructor
  · intro h; split at h <;> omega
  · intro h; split <;> omega

theorem toInt64_toUint64 (v : Int) (h : IsInt64 v) : toInt64 (toUint64 v) = v := by
  unfold IsInt64 at h
  unfold toInt64 toUint64
  split <;> omega

/-! ## Primitives on the wire -/

/-- C1 (as the code has it): the Integer primitive of a Go int `v` yields a payload that
parses back, under the type Integer, to `v` reduced to 32 bits in two's complement; this is
`v` itself exactly when `v` lies in the 32-bit range `-2^31 ≤ v < 2^31`. -/
theorem integer_round_trip_32bit (v : Int) (t : Ticket) :
    ∃ p b, json.NewPrimitive (.int v) t = some p ∧ p.ValueType = json.Integer ∧
      p.Bytes = some b ∧ json.ValueFromBytes json.Integer b = some (.int (intToInt32 v)) ∧
      (intToInt32 v = v ↔ IsInt32 v) := by
  refine ⟨⟨json.Integer, .int v, t, none⟩, putUint32 (toUint32 v), rfl, rfl, rfl, ?_,
    intToInt32_eq_iff v⟩
  simp [json.ValueFromBytes, json.Integer, json.Boolean, uint32LE_putUint32 _ (toUint32_lt v),
    intToInt32]

/-- C1 fails as stated: the Go int `2^31` comes back from its Integer payload as `-2^31`. -/
theorem integer_round_trip_overflow :
    IsInt64 2147483648 ∧
    ((json.NewPrimitive (.int 2147483648) InitialTicket).bind fun p =>
      p.Bytes.bind fun b => json.ValueFromBytes json.Integer b) = some (.int (-2147483648)) ∧
    ((json.NewPrimitive (.int 2147483648) InitialTicket).bind fun p =>
      p.Bytes.bind fun b => json.ValueFromBytes json.Integer b) ≠ some (.int 2147483648) := by
  decide

/-- C2: a bool, an int64, a float64 (by its bit pattern), a string and a byte sequence
come back unchanged from the payload of their primitive, parsed under the primitive's
value type. -/
theorem exact_kinds_round_trip (v : json.Value) (t : Ticket) (h : v.IsExactKind) :
    json.roundTrip v t = some v := by
  cases v with
  | bool b =>
    cases b <;> rfl
  | int64 x =>
    simp [json.roundTrip, json.NewPrimitive, json.Primitive.Bytes, json.Primitive.ValueType,
      json.ValueFromBytes, json.Long, json.Boolean, json.Integer,
      uint64LE_putUint64 _ (toUint64_lt x), toInt64_toUint64 x h]
  | float64 bits =>
    have hb : bits < 18446744073709551616 := h
    simp [json.roundTrip, json.NewPrimitive, json.Primitive.Bytes, json.Primitive.ValueType,
      json.ValueFromBytes, json.Double, json.Long, json.Boolean, json.Integer,
      uint64LE_putUint64 _ hb]
  | string s => rfl
  | bytes b => rfl
  | nil => exact h.elim
  | int x => exact h.elim
  | int32 x => exact h.elim
  | time x => exact h.elim
  | other => exact h.elim

/-- C2 at a negative int64. -/
theorem exact_kinds_round_trip_witness :
    json.roundTrip (.int64 (-7)) InitialTicket = some (.int64 (-7)) :=
  exact_kinds_round_trip (.int64 (-7)) InitialTicket
    (by simp [json.Value.IsExactKind, IsInt64])

/-- C3: the payload `Bytes` builds, by the dynamic type of the value: one byte `1` or `0`
for a bool; four bytes that read little-endian as the value on 32 bits for an int; eight
bytes that read little-endian as the value on 64 bits for an int64; eight bytes that read
little-endian as the bit pattern for a float64; the bytes themselves for a string and for a
byte sequence; eight bytes that read little-endian as the UNIX seconds on 64 bits for a
date. -/
theorem Bytes_wire_payload (vt : json.ValueType) (c : Ticket) (d : Option Ticket) :
    (∀ b : Bool, json.Primitive.Bytes ⟨vt, .bool b, c, d⟩ = some [if b then 1 else 0]) ∧
    (∀ v : Int, ∃ bs, json.Primitive.Bytes ⟨vt, .int v, c, d⟩ = some bs ∧ bs.length = 4 ∧
      (littleEndian bs : Int) = v % 4294967296) ∧
    (∀ v : Int, ∃ bs, json.Primitive.Bytes ⟨vt, .int64 v, c, d⟩ = some bs ∧ bs.length = 8 ∧
      (littleEndian bs : Int) = v % 18446744073709551616) ∧
    (∀ bits : Nat, ∃ bs, json.Primitive.Bytes ⟨vt, .float64 bits, c, d⟩ = some bs ∧
      bs.length = 8 ∧ littleEndian bs = bits % 18446744073709551616) ∧
    (∀ s : GoString, json.Primitive.Bytes ⟨vt, .string s, c, d⟩ = some s) ∧
    (∀ b : List Byte, json.Primitive.Bytes ⟨vt, .bytes b, c, d⟩ = some b) ∧
    (∀ t : json.Time, ∃ bs, json.Primitive.Bytes ⟨vt, .time t, c, d⟩ = some bs ∧
      bs.length = 8 ∧ (littleEndian bs : Int) = t.unixSec % 18446744073709551616) := by
  refine ⟨?_, ?_, ?_, ?_, ?_, ?_, ?_⟩
  · intro b; cases b <;> rfl
  · intro v
    refine ⟨putUint32 (toUint32 v), rfl, rfl, ?_⟩
    rw [littleEndian_putUint32]; unfold toUint32; omega
  · intro v
    refine ⟨putUint64 (toUint64 v), rfl, rfl, ?_⟩
    rw [littleEndian_putUint64]; unfold toUint64; omega
  · intro bits
    exact ⟨putUint64 bits, rfl, rfl, littleEndian_putUint64 bits⟩
  · intro s; rfl
  · intro b; rfl
  · intro t
    refine ⟨putUint64 (toUint64 t.unixSec), rfl, rfl, ?_⟩
    rw [littleEndian_putUint64]; unfold toUint64; omega

/-! ## Deletion tickets -/

/-- C4 (as the code has it): `Delete` records the ticket it is given. After `Delete(t1)`
followed by `Delete(t2)` the `DeletedAt()` of an Array and of a Primitive is `t2`, whatever
the order of the two tickets; it is the larger of the two when `t2` is the later one. -/
theorem Delete_records_last (a : json.Array) (p : json.Primitive) (t1 t2 : Ticket) :
    ((a.Delete (some t1)).Delete (some t2)).DeletedAt = some t2 ∧
    ((p.Delete (some t1)).Delete (some t2)).DeletedAt = some t2 ∧
    (t2.After t1 = true → t1.max t2 = t2) := by
  refine ⟨rfl, rfl, ?_⟩
  intro h
  simp [Ticket.max, h]

/-- C4 at two tickets of the same actor. -/
theorem Delete_records_last_witness :
    Ticket.max ⟨1, 0, []⟩ ⟨2, 0, []⟩ = ⟨2, 0, []⟩ :=
  (Delete_records_last (json.NewArray json.NewRGA InitialTicket)
    ⟨json.Boolean, .bool true, InitialTicket, none⟩ ⟨1, 0, []⟩ ⟨2, 0, []⟩).2.2 (by decide)

/-- C4 fails as stated: after `Delete` at lamport 2 and then `Delete` at lamport 1, the
`DeletedAt()` of an Array and of a Primitive is the earlier ticket, not the larger one. -/
theorem Delete_not_monotone :
    Ticket.max ⟨2, 0, []⟩ ⟨1, 0, []⟩ = ⟨2, 0, []⟩ ∧
    (((json.NewArray json.NewRGA InitialTicket).Delete (some ⟨2, 0, []⟩)).Delete
      (some ⟨1, 0, []⟩)).DeletedAt = some ⟨1, 0, []⟩ ∧
    ((json.Primitive.Delete (json.Primitive.Delete ⟨json.Boolean, .bool true, InitialTicket, none⟩
      (some ⟨2, 0, []⟩)) (some ⟨1, 0, []⟩)).DeletedAt = some ⟨1, 0, []⟩) ∧
    (some (⟨1, 0, []⟩ : Ticket) ≠ some (Ticket.max ⟨2, 0, []⟩ ⟨1, 0, []⟩)) := by
  decide

/-! ## Arrays -/

/-- The nodes of a sequence that are not tombstones. -/
theorem Elements_loop (ns : List json.RGANode) (acc : List json.Element) :
    ns.foldl (fun elements node => if node.isDeleted then elements else elements ++ [node.elem])
      acc = acc ++ (ns.filter fun n => !n.isDeleted).map fun n => n.elem := by
  induction ns generalizing acc with
  | nil => simp
  | cons n rest ih =>
    rw [List.foldl_cons, ih]
    cases hn : n.isDeleted <;> simp [hn]

theorem Elements_eq (a : json.Array) :
    a.Elements = (a.elements.nodes.filter fun n => !n.isDeleted).map fun n => n.elem := by
  unfold json.Array.Elements json.RGAOf.Nodes
  rw [Elements_loop]; simp

/-- C5: after any sequence of `Add`, `InsertAfter`, `Remove` and `RemoveByCreatedAt` calls,
on the empty Array or on any other, `Len()` is the number of nodes that are not tombstones
and equals `len(Elements())`, `Elements()` being the elements of the non-deleted nodes in
sequence order. -/
theorem Len_eq_length_Elements (a : json.Array) (calls : List json.ArrayCall) :
    (json.runCalls a calls).Len = ((json.runCalls a calls).Elements.length : Nat) ∧
    (json.runCalls a calls).Elements =
      ((json.runCalls a calls).elements.Nodes.filter fun n => !n.isDeleted).map fun n => n.elem := by
  refine ⟨?_, Elements_eq _⟩
  rw [Elements_eq]
  simp [json.Array.Len, json.RGAOf.Len]

theorem getVisible_eq (ns : List json.RGANode) (k : Nat) :
    json.getVisible ns k = ((ns.filter fun n => !n.isDeleted).map fun n => n.elem)[k]? := by
  induction ns generalizing k with
  | nil => simp [json.getVisible]
  | cons n rest ih =>
    unfold json.getVisible
    cases hn : n.isDeleted
    · cases k with
      | zero => simp [hn]
      | succ k => simp [hn, ih]
    · simp [hn, ih]

theorem getVisible_split (ns : List json.RGANode) (k : Nat) (e : json.Element)
    (h : json.getVisible ns k = some e) :
    ∃ pre post, ns = pre ++ ⟨e⟩ :: post ∧ e.DeletedAt = none ∧
      (pre.filter fun n => !n.isDeleted).length = k := by
  induction ns generalizing k with
  | nil => simp [json.getVisible] at h
  | cons n rest ih =>
    unfold json.getVisible at h
    cases hn : n.isDeleted
    · rw [hn] at h
      cases k with
      | zero =>
        simp at h
        refine ⟨[], rest, ?_, ?_, by simp⟩
        · cases n; simp at h; simp [h]
        · subst h
          simpa [json.RGANodeOf.isDeleted] using hn
      | succ k =>
        simp at h
        obtain ⟨pre, post, h1, h2, h3⟩ := ih k h
        exact ⟨n :: pre, post, by simp [h1], h2, by simp [hn, h3]⟩
    · rw [hn] at h
      simp at h
      obtain ⟨pre, post, h1, h2, h3⟩ := ih k h
      exact ⟨n :: pre, post, by simp [h1], h2, by simp [hn, h3]⟩

theorem removeNode_split (c d : Ticket) (pre post : List json.RGANode) (n : json.RGANode)
    (hpre : ∀ m ∈ pre, m.elem.CreatedAt ≠ c) (hn : n.elem.CreatedAt = c) :
    json.removeNode c d (pre ++ n :: post) =
      (some (n.elem.Delete (some (json.tombstoneAt n.elem.DeletedAt d))),
        pre ++ ⟨n.elem.Delete (some (json.tombstoneAt n.elem.DeletedAt d))⟩ :: post) := by
  induction pre with
  | nil => simp [json.removeNode, hn]
  | cons m rest ih =>
    have hm : m.elem.CreatedAt ≠ c := hpre m (by simp)
    have hrest : ∀ x ∈ rest, x.elem.CreatedAt ≠ c := fun x hx => hpre x (by simp [hx])
    simp [json.removeNode, hm, ih hrest]

theorem Element_DeletedAt_Delete (e : json.Element) (d : Option Ticket) :
    (e.Delete d).DeletedAt = d := by
  cases e <;> rfl

theorem Element_CreatedAt_Delete (e : json.Element) (d : Option Ticket) :
    (e.Delete d).CreatedAt = e.CreatedAt := by
  cases e <;> rfl

theorem visiblePlace_split (pre post : List json.RGANode) (n : json.RGANode)
    (hn : n.isDeleted = false) :
    json.visiblePlace (pre ++ n :: post) (pre.filter fun m => !m.isDeleted).length =
      some pre.length := by
  induction pre with
  | nil => simp [json.visiblePlace, hn]
  | cons m rest ih =>
    cases hm : m.isDeleted
    · simp [json.visiblePlace, hm, ih]
    · simp [json.visiblePlace, hm, ih]

theorem getElem?_split_place {α : Type} (pre post : List α) (x : α) :
    (pre ++ x :: post)[pre.length]? = some x := by
  rw [List.getElem?_append_right (Nat.le_refl _)]
  simp

/-- C6: `Remove(idx, d)` on an Array whose nodes have pairwise distinct `created_at`
returns the element that `Get(idx)` points to before the call, the `idx`-th element of
`Elements()`, as the call leaves it: with `deleted_at = d`. When `Get(idx)` is nil the
result is nil and the Array is unchanged. Otherwise the node of that element, and no other,
is changed: its element carries `deleted_at = d` and keeps its `created_at`, all nodes
keep their positions, and `Len()` is one less. -/
theorem Remove_spec (a : json.Array) (idx : Int) (d : Ticket) (h : a.createdAts.Nodup) :
    (a.Remove idx d).1 = (a.Get idx).map (fun e => e.Delete (some d)) ∧
    a.Get idx = (if idx < 0 then none else a.Elements[idx.toNat]?) ∧
    (a.Get idx = none → a.Remove idx d = (none, a)) ∧
    (∀ e, a.Get idx = some e →
      ∃ pre post, a.elements.nodes = pre ++ ⟨e⟩ :: post ∧ e.DeletedAt = none ∧
        (a.Remove idx d).1 = some (e.Delete (some d)) ∧
        (a.Remove idx d).2 = { a with elements := ⟨pre ++ ⟨e.Delete (some d)⟩ :: post⟩ } ∧
        (e.Delete (some d)).DeletedAt = some d ∧
        (e.Delete (some d)).CreatedAt = e.CreatedAt ∧
        (a.Remove idx d).2.Len = a.Len - 1) := by
  have hnone : a.Get idx = none → a.Remove idx d = (none, a) := by
    intro hg
    unfold json.Array.Get at hg
    unfold json.Array.Remove
    rw [hg]
    cases a.elements.GetPlace idx <;> rfl
  have hsome : ∀ e, a.Get idx = some e →
      ∃ pre post, a.elements.nodes = pre ++ ⟨e⟩ :: post ∧ e.DeletedAt = none ∧
        a.Remove idx d = (some (e.Delete (some d)),
          { a with elements := ⟨pre ++ ⟨e.Delete (some d)⟩ :: post⟩ }) := by
    intro e hg
    have hg2 : a.elements.Get idx = some e := hg
    have hidx : ¬ idx < 0 := by
      intro hneg
      unfold json.RGAOf.Get at hg2
      rw [if_pos hneg] at hg2
      cases hg2
    have hv : json.getVisible a.elements.nodes idx.toNat = some e := by
      unfold json.RGAOf.Get at hg2
      rwa [if_neg hidx] at hg2
    obtain ⟨pre, post, hsplit, hdel, hlen⟩ := getVisible_split _ _ _ hv
    have hnd : (List.map (fun n : json.RGANode => n.elem.CreatedAt) (pre ++ ⟨e⟩ :: post)).Nodup := by
      have := h
      unfold json.Array.createdAts json.RGAOf.Nodes at this
      rwa [hsplit] at this
    have hpre : ∀ m ∈ pre, m.elem.CreatedAt ≠ e.CreatedAt := by
      intro m hm heq
      rw [List.map_append, List.map_cons, List.nodup_append] at hnd
      exact hnd.2.2 (List.mem_map.mpr ⟨m, hm, rfl⟩) (by simp [heq])
    have hrm := removeNode_split e.CreatedAt d pre post ⟨e⟩ hpre rfl
    simp only [hdel, json.tombstoneAt] at hrm
    have h1 : json.RGANodeOf.isDeleted (⟨e⟩ : json.RGANode) = false := by
      simp [json.RGANodeOf.isDeleted, hdel]
    have hplace : a.elements.GetPlace idx = some pre.length := by
      unfold json.RGAOf.GetPlace
      rw [if_neg hidx, hsplit, ← hlen]
      exact visiblePlace_split pre post ⟨e⟩ h1
    refine ⟨pre, post, hsplit, hdel, ?_⟩
    unfold json.Array.Remove
    rw [hg2, hplace]
    simp only [json.RGAOf.RemoveByCreatedAt, hsplit, hrm, getElem?_split_place, Option.map_some']
  refine ⟨?_, ?_, hnone, ?_⟩
  · cases hg : a.Get idx with
    | none => rw [hnone hg]; rfl
    | some e =>
      obtain ⟨pre, post, _, _, hr⟩ := hsome e hg
      rw [hr]; rfl
  · unfold json.Array.Get json.RGAOf.Get
    split
    · rfl
    · rw [getVisible_eq, Elements_eq]
  · intro e hg
    obtain ⟨pre, post, hsplit, hdel, hr⟩ := hsome e hg
    refine ⟨pre, post, hsplit, hdel, by rw [hr], by rw [hr], Element_DeletedAt_Delete _ _,
      Element_CreatedAt_Delete _ _, ?_⟩
    rw [hr]
    simp only [json.Array.Len, json.RGAOf.Len, hsplit]
    have h1 : json.RGANodeOf.isDeleted (⟨e⟩ : json.RGANode) = false := by
      simp [json.RGANodeOf.isDeleted, hdel]
    have h2 : json.RGANodeOf.isDeleted (⟨e.Delete (some d)⟩ : json.RGANode) = true := by
      simp [json.RGANodeOf.isDeleted, Element_DeletedAt_Delete]
    simp [List.filter_append, List.filter_cons, h1, h2]
    omega

/-- C6 on an Array with a tombstone in the middle: removing index 1 hands back the third
element with `deleted_at = 5` and leaves one visible element. -/
theorem Remove_spec_witness :
    json.sampleArray.createdAts.Nodup ∧
    (json.sampleArray.Remove 1 ⟨5, 0, []⟩).1 =
      (json.sampleArray.Get 1).map (fun e => e.Delete (some ⟨5, 0, []⟩)) ∧
    ((json.sampleArray.Remove 1 ⟨5, 0, []⟩).1.map fun e => e.DeletedAt) = some (some ⟨5, 0, []⟩) ∧
    (json.sampleArray.Remove 1 ⟨5, 0, []⟩).2.Len = 1 :=
  ⟨by decide, (Remove_spec json.sampleArray 1 ⟨5, 0, []⟩ (by decide)).1, by decide, by decide⟩

/-- C6 fails on an Array built by `Add` alone when nodes share a `created_at`: on
`twiceCreatedArray`, `Get(0)` is the second node, not deleted, while its `created_at` is
also that of the first and third nodes, tombstones already. `Remove(0, d)` hands back an
element that is not deleted, the element of `Get(0)` is still visible afterwards, and
`Len()` stays 1. -/
theorem Remove_hits_other_node :
    ¬ json.twiceCreatedArray.createdAts.Nodup ∧
    json.twiceCreatedArray.Len = 1 ∧
    ((json.twiceCreatedArray.Get 0).map fun e => e.DeletedAt) = some none ∧
    ((json.twiceCreatedArray.Remove 0 ⟨5, 0, []⟩).1.map fun e => e.DeletedAt) = some none ∧
    (json.twiceCreatedArray.Remove 0 ⟨5, 0, []⟩).2.Len = 1 ∧
    (((json.twiceCreatedArray.Remove 0 ⟨5, 0, []⟩).2.Get 0).map fun e => e.DeletedAt) =
      some none := by
  decide

end JsonTheorems

section SplayTheorems

open splay

/-! ## The splay tree -/

theorem list_pairs_induction {α : Type} {P : List α → Prop} (h0 : P [])
    (h1 : ∀ a, P [a]) (h2 : ∀ a b l, P l → P (a :: b :: l)) : ∀ l, P l := by
  intro l
  have key : ∀ n, ∀ l : List α, l.length ≤ n → P l := by
    intro n
    induction n using Nat.strong_induction_on with
    | _ n ih =>
      intro l hl
      match l, hl with
      | [], _ => exact h0
      | [a], _ => exact h1 a
      | a :: b :: rest, hl =>
        simp only [List.length_cons] at hl
        exact h2 a b rest (ih (n - 2) (by omega) rest (by omega))
  exact key l.length l le_rfl

theorem totalLen_append (xs ys : List (Nat × Value)) :
    totalLen (xs ++ ys) = totalLen xs + totalLen ys := by
  simp [totalLen]

theorem totalLen_cons (x : Nat × Value) (xs : List (Nat × Value)) :
    totalLen (x :: xs) = x.2.Len + totalLen xs := by
  simp [totalLen]

theorem totalLen_nil : totalLen [] = 0 := rfl

theorem subtreeWeight_of_WeightOk (n : Node) (h : n.WeightOk) :
    n.subtreeWeight = totalLen n.inorder := by
  cases n with
  | nil => rfl
  | mk l i v w r => exact h.1

theorem WeightOk_updateSubtree (l r : Node) (i : Nat) (v : Value)
    (hl : l.WeightOk) (hr : r.WeightOk) : (updateSubtree l i v r).WeightOk := by
  refine ⟨?_, hl, hr⟩
  simp only [Node.inorder, totalLen_append, totalLen_cons,
    subtreeWeight_of_WeightOk l hl, subtreeWeight_of_WeightOk r hr]
  omega

theorem inorder_updateSubtree (l r : Node) (i : Nat) (v : Value) :
    (updateSubtree l i v r).inorder = l.inorder ++ (i, v) :: r.inorder := rfl

theorem inorder_plug (up : List Step) :
    ∀ x : Node, (plug x up).inorder = pathBefore up ++ x.inorder ++ pathAfter up := by
  induction up with
  | nil => intro x; simp [plug, pathBefore, pathAfter]
  | cons p up ih =>
    intro x
    unfold plug pathBefore pathAfter
    cases hp : p.side <;> simp [ih, Node.inorder]

theorem inorder_splayUp (up : List Step) :
    ∀ (a b : Node) (xi : Nat) (xv : Value) (w : Int),
      (splayUp (.mk a xi xv w b) up).inorder
        = pathBefore up ++ (a.inorder ++ (xi, xv) :: b.inorder) ++ pathAfter up := by
  induction up using list_pairs_induction with
  | h0 => intro a b xi xv w; simp [splayUp, pathBefore, pathAfter, Node.inorder]
  | h1 p =>
    intro a b xi xv w
    unfold splayUp
    cases hp : p.side <;>
      simp [pathBefore, pathAfter, hp, inorder_updateSubtree]
  | h2 p g up ih =>
    intro a b xi xv w
    unfold splayUp
    cases hp : p.side <;> cases hg : g.side <;>
      simp [updateSubtree, ih, pathBefore, pathAfter, hp, hg, Node.inorder]

theorem id_splayUp (up : List Step) :
    ∀ (a b : Node) (xi : Nat) (xv : Value) (w : Int),
      ∃ l w1 r, splayUp (.mk a xi xv w b) up = .mk l xi xv w1 r := by
  induction up using list_pairs_induction with
  | h0 => intro a b xi xv w; exact ⟨a, w, b, rfl⟩
  | h1 p =>
    intro a b xi xv w
    unfold splayUp
    cases hp : p.side <;> exact ⟨_, _, _, rfl⟩
  | h2 p g up ih =>
    intro a b xi xv w
    unfold splayUp
    cases hp : p.side <;> cases hg : g.side <;> exact ih _ _ _ _ _

theorem WeightOk_splayUp (up : List Step) :
    ∀ (a b : Node) (xi : Nat) (xv : Value) (w : Int),
      (Node.mk a xi xv w b).WeightOk → (∀ p ∈ up, p.sibling.WeightOk) →
      (splayUp (.mk a xi xv w b) up).WeightOk := by
  induction up using list_pairs_induction with
  | h0 =>
    intro a b xi xv w hx _
    exact hx
  | h1 p =>
    intro a b xi xv w hx hs
    have ha := hx.2.1
    have hb := hx.2.2
    have hps : p.sibling.WeightOk := hs p (by simp)
    unfold splayUp
    cases hp : p.side
    · exact WeightOk_updateSubtree _ _ _ _ ha (WeightOk_updateSubtree _ _ _ _ hb hps)
    · exact WeightOk_updateSubtree _ _ _ _ (WeightOk_updateSubtree _ _ _ _ hps ha) hb
  | h2 p g up ih =>
    intro a b xi xv w hx hs
    have ha := hx.2.1
    have hb := hx.2.2
    have hps : p.sibling.WeightOk := hs p (by simp)
    have hgs : g.sibling.WeightOk := hs g (by simp)
    have hup : ∀ q ∈ up, q.sibling.WeightOk := fun q hq => hs q (by simp [hq])
    unfold splayUp
    cases hp : p.side <;> cases hg : g.side
    · exact ih _ _ _ _ _ (WeightOk_updateSubtree _ _ _ _ ha
        (WeightOk_updateSubtree _ _ _ _ hb (WeightOk_updateSubtree _ _ _ _ hps hgs))) hup
    · exact ih _ _ _ _ _ (WeightOk_updateSubtree _ _ _ _ (WeightOk_updateSubtree _ _ _ _ hgs ha)
        (WeightOk_updateSubtree _ _ _ _ hb hps)) hup
    · exact ih _ _ _ _ _ (WeightOk_updateSubtree _ _ _ _ (WeightOk_updateSubtree _ _ _ _ hps ha)
        (WeightOk_updateSubtree _ _ _ _ hb hgs)) hup
    · exact ih _ _ _ _ _ (WeightOk_updateSubtree _ _ _ _
        (WeightOk_updateSubtree _ _ _ _ (WeightOk_updateSubtree _ _ _ _ hgs hps) ha) hb) hup

theorem locate_plug (id : Nat) (t : Node) :
    ∀ (up : List Step) (x : Node) (up1 : List Step), locate id t up = some (x, up1) →
      plug x up1 = plug t up ∧ ∃ l v w r, x = .mk l id v w r := by
  induction t with
  | nil => intro up x up1 h; simp [locate] at h
  | mk l i v w r ihl ihr =>
    intro up x up1 h
    unfold locate at h
    by_cases hi : i = id
    · simp only [hi, if_true, Option.some.injEq, Prod.mk.injEq] at h
      obtain ⟨h1, h2⟩ := h
      subst h1 h2 hi
      exact ⟨rfl, l, v, w, r, rfl⟩
    · simp only [hi, if_false] at h
      cases hl : locate id l (⟨.L, i, v, w, r⟩ :: up) with
      | some found =>
        rw [hl] at h
        simp only [Option.some.injEq] at h
        subst h
        obtain ⟨h1, h2⟩ := ihl _ _ _ hl
        exact ⟨by rw [h1]; rfl, h2⟩
      | none =>
        rw [hl] at h
        obtain ⟨h1, h2⟩ := ihr _ _ _ h
        exact ⟨by rw [h1]; rfl, h2⟩

theorem locate_WeightOk (id : Nat) (t : Node) :
    ∀ (up : List Step) (x : Node) (up1 : List Step), locate id t up = some (x, up1) →
      t.WeightOk → (∀ p ∈ up, p.sibling.WeightOk) →
      x.WeightOk ∧ ∀ p ∈ up1, p.sibling.WeightOk := by
  induction t with
  | nil => intro up x up1 h; simp [locate] at h
  | mk l i v w r ihl ihr =>
    intro up x up1 h ht hup
    unfold locate at h
    by_cases hi : i = id
    · subst hi
      simp only [if_true, Option.some.injEq, Prod.mk.injEq] at h
      obtain ⟨h1, h2⟩ := h
      subst h1 h2
      exact ⟨ht, hup⟩
    · simp only [hi, if_false] at h
      cases hl : locate id l (⟨.L, i, v, w, r⟩ :: up) with
      | some found =>
        rw [hl] at h
        simp only [Option.some.injEq] at h
        subst h
        refine ihl _ _ _ hl ht.2.1 ?_
        intro p hp
        rcases List.mem_cons.mp hp with rfl | hp
        · exact ht.2.2
        · exact hup p hp
      | none =>
        rw [hl] at h
        refine ihr _ _ _ h ht.2.2 ?_
        intro p hp
        rcases List.mem_cons.mp hp with rfl | hp
        · exact ht.2.1
        · exact hup p hp

theorem locate_isSome (id : Nat) (t : Node) :
    id ∈ t.inorder.map Prod.fst → ∀ up : List Step, ∃ found, locate id t up = some found := by
  induction t with
  | nil => intro h; simp [Node.inorder] at h
  | mk l i v w r ihl ihr =>
    intro h up
    unfold locate
    by_cases hi : i = id
    · simp [hi]
    · simp only [hi, if_false]
      cases hl : locate id l (⟨.L, i, v, w, r⟩ :: up) with
      | some found => exact ⟨found, rfl⟩
      | none =>
        have hmem : id ∈ r.inorder.map Prod.fst := by
          simp only [Node.inorder, List.map_append, List.map_cons, List.mem_append,
            List.mem_cons] at h
          rcases h with h | h | h
          · obtain ⟨f, hf⟩ := ihl h (⟨.L, i, v, w, r⟩ :: up)
            rw [hl] at hf; cases hf
          · exact absurd h.symm hi
          · exact h
        exact ihr hmem _

theorem Splay_root (t : Tree) (id : Nat) (h : id ∈ t.inorder.map Prod.fst) :
    ∃ l v w r up, locate id t.root [] = some (.mk l id v w r, up) ∧
      t.Splay id = ⟨splayUp (.mk l id v w r) up⟩ ∧
      pathBefore up ++ (l.inorder ++ (id, v) :: r.inorder) ++ pathAfter up = t.inorder := by
  obtain ⟨⟨x, up⟩, hloc⟩ := locate_isSome id t.root h []
  obtain ⟨hplug, l, v, w, r, hx⟩ := locate_plug id t.root [] x up hloc
  subst hx
  refine ⟨l, v, w, r, up, hloc, ?_, ?_⟩
  · unfold Tree.Splay; rw [hloc]
  · have := inorder_plug up (.mk l id v w r)
    rw [hplug] at this
    simp only [plug] at this
    unfold Tree.inorder
    rw [this]; rfl

theorem inorder_Splay (t : Tree) (id : Nat) : (t.Splay id).inorder = t.inorder := by
  unfold Tree.Splay
  cases hloc : locate id t.root [] with
  | none => rfl
  | some found =>
    obtain ⟨x, up⟩ := found
    obtain ⟨hplug, l, v, w, r, hx⟩ := locate_plug id t.root [] x up hloc
    subst hx
    show (splayUp _ up).inorder = t.root.inorder
    rw [inorder_splayUp]
    have := inorder_plug up (.mk l id v w r)
    rw [hplug] at this
    simp only [plug] at this
    rw [this]; rfl

theorem WeightOk_Splay (t : Tree) (id : Nat) (h : t.root.WeightOk) :
    (t.Splay id).root.WeightOk := by
  unfold Tree.Splay
  cases hloc : locate id t.root [] with
  | none => exact h
  | some found =>
    obtain ⟨x, up⟩ := found
    obtain ⟨_, l, v, w, r, hx⟩ := locate_plug id t.root [] x up hloc
    subst hx
    obtain ⟨h1, h2⟩ := locate_WeightOk id t.root [] _ up hloc h (by simp)
    exact WeightOk_splayUp up _ _ _ _ _ h1 h2

/-- C9: `Splay(n)` on a tree that satisfies the weight invariant and holds the node `n`
makes `n` the root, leaves the in-order sequence of nodes and values as it was, and yields a
tree in which every node's subtree weight is the sum of `Len()` over the node and its
descendants. -/
theorem Splay_spec (t : Tree) (id : Nat) (hw : t.root.WeightOk)
    (hmem : id ∈ t.inorder.map Prod.fst) :
    (t.Splay id).root.id? = some id ∧
    (t.Splay id).inorder = t.inorder ∧
    (t.Splay id).root.WeightOk := by
  refine ⟨?_, inorder_Splay t id, WeightOk_Splay t id hw⟩
  obtain ⟨l, v, w, r, up, _, hs, _⟩ := Splay_root t id hmem
  obtain ⟨l1, w1, r1, h1⟩ := id_splayUp up l r id v w
  rw [hs, h1]; rfl

theorem rightmost_spec (t : Node) :
    ∀ up : List Step,
      pathBefore (rightmost t up) = pathBefore up ++ t.inorder ∧
      pathAfter (rightmost t up) = pathAfter up ∧
      ((∀ p ∈ up, p.side = Side.R) → ∀ p ∈ rightmost t up, p.side = Side.R) ∧
      (t.WeightOk → (∀ p ∈ up, p.sibling.WeightOk) →
        ∀ p ∈ rightmost t up, p.sibling.WeightOk) := by
  induction t with
  | nil => intro up; simp [rightmost, Node.inorder]
  | mk l i v w r _ ihr =>
    intro up
    obtain ⟨h1, h2, h3, h4⟩ := ihr (⟨.R, i, v, w, l⟩ :: up)
    unfold rightmost
    refine ⟨?_, ?_, ?_, ?_⟩
    · rw [h1]; simp [pathBefore, Node.inorder]
    · rw [h2]; simp [pathAfter]
    · intro hup
      apply h3
      intro p hp
      rcases List.mem_cons.mp hp with rfl | hp
      · rfl
      · exact hup p hp
    · intro ht hup
      apply h4 ht.2.2
      intro p hp
      rcases List.mem_cons.mp hp with rfl | hp
      · exact ht.2.1
      · exact hup p hp

theorem splayUp_right_spine (up : List Step) :
    ∀ (a b : Node) (xi : Nat) (xv : Value) (w : Int), (∀ p ∈ up, p.side = Side.R) →
      ∃ l w1, splayUp (.mk a xi xv w b) up = .mk l xi xv w1 b := by
  induction up using list_pairs_induction with
  | h0 => intro a b xi xv w _; exact ⟨a, w, rfl⟩
  | h1 p =>
    intro a b xi xv w hs
    have hp : p.side = Side.R := hs p (by simp)
    unfold splayUp
    rw [hp]
    exact ⟨_, _, rfl⟩
  | h2 p g up ih =>
    intro a b xi xv w hs
    have hp : p.side = Side.R := hs p (by simp)
    have hg : g.side = Side.R := hs g (by simp)
    have hup : ∀ q ∈ up, q.side = Side.R := fun q hq => hs q (by simp [hq])
    unfold splayUp
    rw [hp, hg]
    exact ih _ _ _ _ _ hup

theorem WeightOk_NewNode (id : Nat) (v : Value) : (NewNode id v).WeightOk := by
  refine ⟨?_, trivial, trivial⟩
  simp [Node.inorder, totalLen]

theorem inorder_Insert (t : Tree) (id : Nat) (v : Value) :
    (t.Insert id v).inorder = t.inorder ++ [(id, v)] := by
  obtain ⟨h1, h2, _, _⟩ := rightmost_spec t.root []
  unfold Tree.Insert Tree.inorder NewNode
  rw [inorder_splayUp, h1, h2]
  simp [pathBefore, pathAfter, Node.inorder]

theorem WeightOk_Insert (t : Tree) (id : Nat) (v : Value) (hw : t.root.WeightOk) :
    (t.Insert id v).root.WeightOk := by
  obtain ⟨_, _, _, h4⟩ := rightmost_spec t.root []
  exact WeightOk_splayUp _ _ _ _ _ _ (WeightOk_NewNode id v) (h4 hw (by simp))

/-- C8: `Insert(n)` on a tree that satisfies the weight invariant appends `n` at the
right-most position: the in-order sequence afterwards is the previous one followed by `n`.
The inserted node is the root and has no right subtree, its subtree weight is the total
length of all values, and `AnnotatedString` ends with the annotation of `n` under that
weight. -/
theorem Insert_spec (t : Tree) (id : Nat) (v : Value) (hw : t.root.WeightOk) :
    (t.Insert id v).inorder = t.inorder ++ [(id, v)] ∧
    (t.Insert id v).root.WeightOk ∧
    ∃ l, (t.Insert id v).root = .mk l id v (totalLen (t.inorder ++ [(id, v)])) .nil ∧
      (t.Insert id v).AnnotatedString
        = l.AnnotatedString ++ annotate (totalLen (t.inorder ++ [(id, v)])) v.Len v.String := by
  refine ⟨inorder_Insert t id v, WeightOk_Insert t id v hw, ?_⟩
  obtain ⟨_, _, h3, _⟩ := rightmost_spec t.root []
  obtain ⟨l, w1, hroot⟩ :=
    splayUp_right_spine (rightmost t.root []) .nil .nil id v v.Len (h3 (by simp))
  have hroot2 : (t.Insert id v).root = .mk l id v w1 .nil := hroot
  have hw2 := WeightOk_Insert t id v hw
  have hw1 : w1 = totalLen (t.inorder ++ [(id, v)]) := by
    have h := subtreeWeight_of_WeightOk _ hw2
    rw [← inorder_Insert]
    rw [hroot2] at h
    rw [Tree.inorder, hroot2]
    exact h
  subst hw1
  refine ⟨l, hroot2, ?_⟩
  unfold Tree.AnnotatedString
  rw [hroot2]
  simp [Node.AnnotatedString]

/-- C8 on the tree of the test: inserting `E23456` after the four values of the test. -/
theorem Insert_spec_witness :
    (testTree.Insert 5 (stringValue.toValue ⟨"E23456"⟩)).inorder
      = testTree.inorder ++ [(5, stringValue.toValue ⟨"E23456"⟩)] ∧
    (testTree.Insert 5 (stringValue.toValue ⟨"E23456"⟩)).AnnotatedString
      = "[2,2]A2[5,3]B23[9,4]C234[14,5]D2345[20,6]E23456" :=
  ⟨(Insert_spec testTree 5 (stringValue.toValue ⟨"E23456"⟩) (by decide)).1, by decide⟩

theorem leftOf_split (id : Nat) (v : Value) (xs ys : List (Nat × Value))
    (h : id ∉ xs.map Prod.fst) : leftOf id (xs ++ (id, v) :: ys) = xs := by
  induction xs with
  | nil => simp [leftOf]
  | cons x xs ih =>
    simp only [List.map_cons, List.mem_cons, not_or] at h
    have hx : x.1 ≠ id := fun e => h.1 e.symm
    have := ih h.2
    unfold leftOf at this ⊢
    simp [hx, this]

theorem Built_invariant (t : Tree) (hb : Built t) :
    t.root.WeightOk ∧ (t.inorder.map Prod.fst).Nodup := by
  induction hb with
  | NewTree => exact ⟨trivial, by simp [NewTree, Tree.inorder, Node.inorder]⟩
  | Insert t id v _ hfresh ih =>
    refine ⟨WeightOk_Insert t id v ih.1, ?_⟩
    rw [inorder_Insert, List.map_append, List.nodup_append]
    refine ⟨ih.2, by simp, ?_⟩
    intro a ha hb
    simp at hb
    subst hb
    exact hfresh ha
  | Splay t id _ ih =>
    exact ⟨WeightOk_Splay t id ih.1, by rw [inorder_Splay]; exact ih.2⟩
  | IndexOf t id _ ih =>
    have h : (t.IndexOf id).2 = t.Splay id := by
      unfold Tree.IndexOf
      cases (t.Splay id).root <;> rfl
    rw [h]
    exact ⟨WeightOk_Splay t id ih.1, by rw [inorder_Splay]; exact ih.2⟩

/-- C7: in a tree built by `Insert`, `Splay` and `IndexOf` calls, `IndexOf(n)` of a node
`n` of the tree is the sum of `Len()` over the nodes strictly to the left of `n` in
in-order, and the subtree weight of the root is the total length of all values; the call
leaves the in-order sequence as it was. -/
theorem IndexOf_spec (t : Tree) (id : Nat) (hb : Built t)
    (hmem : id ∈ t.inorder.map Prod.fst) :
    (t.IndexOf id).1 = totalLen (leftOf id t.inorder) ∧
    t.root.subtreeWeight = totalLen t.inorder ∧
    (t.IndexOf id).2.inorder = t.inorder := by
  obtain ⟨hw, hnd⟩ := Built_invariant t hb
  have h2 : (t.IndexOf id).2 = t.Splay id := by
    unfold Tree.IndexOf
    cases (t.Splay id).root <;> rfl
  refine ⟨?_, subtreeWeight_of_WeightOk _ hw, by rw [h2, inorder_Splay]⟩
  obtain ⟨l, v, w, r, up, _, hs, _⟩ := Splay_root t id hmem
  obtain ⟨l1, w1, r1, h1⟩ := id_splayUp up l r id v w
  have hroot : (t.Splay id).root = .mk l1 id v w1 r1 := by rw [hs, h1]
  have hin : l1.inorder ++ (id, v) :: r1.inorder = t.inorder := by
    have := inorder_Splay t id
    rw [Tree.inorder, hroot] at this
    exact this
  have hwok : (Node.mk l1 id v w1 r1).WeightOk := by
    have := WeightOk_Splay t id hw
    rwa [hroot] at this
  have hfresh : id ∉ l1.inorder.map Prod.fst := by
    rw [← hin, List.map_append, List.map_cons, List.nodup_append] at hnd
    intro hmem1
    exact hnd.2.2 hmem1 (by simp)
  unfold Tree.IndexOf
  rw [hroot, ← hin, leftOf_split id v _ _ hfresh]
  exact subtreeWeight_of_WeightOk _ hwok.2.1

/-- The tree of the test is built by four calls of `Insert`. -/
theorem Built_testTree : Built testTree :=
  Built.Insert _ 4 _ (Built.Insert _ 3 _ (Built.Insert _ 2 _ (Built.Insert _ 1 _ Built.NewTree
    (by decide)) (by decide)) (by decide)) (by decide)

/-- C7 on the tree of the test: the index of `C234` is 5, the root weighs 14. -/
theorem IndexOf_spec_witness :
    (testTree.IndexOf 3).1 = totalLen (leftOf 3 testTree.inorder) ∧
    totalLen (leftOf 3 testTree.inorder) = 5 ∧
    testTree.root.subtreeWeight = 14 :=
  ⟨(IndexOf_spec testTree 3 Built_testTree (by decide)).1, by decide, by decide⟩

/-- C9 on the tree of the test: `Splay(B)`. -/
theorem Splay_spec_witness :
    (testTree.Splay 2).root.id? = some 2 ∧
    (testTree.Splay 2).inorder = testTree.inorder ∧
    (testTree.Splay 2).AnnotatedString = "[2,2]A2[14,3]B23[9,4]C234[5,5]D2345" :=
  ⟨(Splay_spec testTree 2 (by decide) (by decide)).1,
    (Splay_spec testTree 2 (by decide) (by decide)).2.1, by decide⟩

/-- The assertions of `TestSplayTree` hold of the model: the annotated strings after each
insertion and after `Splay(B)`, and the four indexes, each `IndexOf` working on the tree
the previous one left. -/
theorem TestSplayTree_assertions :
    (NewTree.Insert 1 (stringValue.toValue ⟨"A2"⟩)).AnnotatedString = "[2,2]A2" ∧
    ((NewTree.Insert 1 (stringValue.toValue ⟨"A2"⟩)).Insert 2
      (stringValue.toValue ⟨"B23"⟩)).AnnotatedString = "[2,2]A2[5,3]B23" ∧
    (((NewTree.Insert 1 (stringValue.toValue ⟨"A2"⟩)).Insert 2
      (stringValue.toValue ⟨"B23"⟩)).Insert 3 (stringValue.toValue ⟨"C234"⟩)).AnnotatedString
      = "[2,2]A2[5,3]B23[9,4]C234" ∧
    testTree.AnnotatedString = "[2,2]A2[5,3]B23[9,4]C234[14,5]D2345" ∧
    (testTree.Splay 2).AnnotatedString = "[2,2]A2[14,3]B23[9,4]C234[5,5]D2345" ∧
    ((testTree.Splay 2).IndexOf 1).1 = 0 ∧
    (((testTree.Splay 2).IndexOf 1).2.IndexOf 2).1 = 2 ∧
    ((((testTree.Splay 2).IndexOf 1).2.IndexOf 2).2.IndexOf 3).1 = 5 ∧
    (((((testTree.Splay 2).IndexOf 1).2.IndexOf 2).2.IndexOf 3).2.IndexOf 4).1 = 9 := by
  decide

end SplayTheorems

section ConverterTheorems

open time converter

/-! ## The converter -/

theorem SameTicket_toTimeTicket (t : Ticket) : SameTicket (toTimeTicket t) t :=
  ⟨rfl, rfl, rfl⟩

theorem SamePos_toTextNodePos (pos : json.TextNodePos) : SamePos (toTextNodePos pos) pos :=
  ⟨SameTicket_toTimeTicket _, rfl, rfl,
    fun h => (intToInt32_eq_iff _).mpr h, fun h => (intToInt32_eq_iff _).mpr h⟩

theorem SameMap_toCreatedAtMapByActor (entries : List (String × Ticket)) :
    SameMap (toCreatedAtMapByActor entries) entries := by
  unfold SameMap toCreatedAtMapByActor
  refine ⟨by simp, ?_⟩
  induction entries with
  | nil => exact List.Forall₂.nil
  | cons e rest ih => exact List.Forall₂.cons ⟨rfl, SameTicket_toTimeTicket _⟩ ih

theorem toOperation_supported (o : operation.Operation) (h : supported o = true) :
    ∃ m, toOperation o = some m ∧ Carries o m := by
  cases o with
  | Set p k v e =>
    simp only [supported, Option.isSome_iff_exists] at h
    obtain ⟨j, hj⟩ := h
    refine ⟨.Set ⟨toTimeTicket p, k, j, toTimeTicket e⟩, ?_, ?_⟩
    · simp only [toOperation, hj, Option.map_some']
    · exact ⟨SameTicket_toTimeTicket _, rfl, hj, SameTicket_toTimeTicket _⟩
  | Add p q v e =>
    simp only [supported, Option.isSome_iff_exists] at h
    obtain ⟨j, hj⟩ := h
    refine ⟨.Add ⟨toTimeTicket p, toTimeTicket q, j, toTimeTicket e⟩, ?_, ?_⟩
    · simp only [toOperation, hj, Option.map_some']
    · exact ⟨SameTicket_toTimeTicket _, SameTicket_toTimeTicket _, hj,
        SameTicket_toTimeTicket _⟩
  | Remove p c e =>
    exact ⟨.Remove ⟨toTimeTicket p, toTimeTicket c, toTimeTicket e⟩, rfl,
      SameTicket_toTimeTicket _, SameTicket_toTimeTicket _, SameTicket_toTimeTicket _⟩
  | Edit p f t mp c e =>
    exact ⟨.Edit ⟨toTimeTicket p, toTextNodePos f, toTextNodePos t, toCreatedAtMapByActor mp, c,
        toTimeTicket e⟩, rfl,
      SameTicket_toTimeTicket _, SamePos_toTextNodePos _, SamePos_toTextNodePos _,
      SameMap_toCreatedAtMapByActor _, rfl, SameTicket_toTimeTicket _⟩
  | Select p f t e =>
    exact ⟨.Select ⟨toTimeTicket p, toTextNodePos f, toTextNodePos t, toTimeTicket e⟩, rfl,
      SameTicket_toTimeTicket _, SamePos_toTextNodePos _, SamePos_toTextNodePos _,
      SameTicket_toTimeTicket _⟩
  | Other => simp [supported] at h

theorem toOperation_unsupported (o : operation.Operation) (h : supported o = false) :
    toOperation o = none := by
  cases o with
  | Set p k v e =>
    cases hv : toJSONElement v with
    | none => simp [toOperation, hv]
    | some j => simp [supported, hv] at h
  | Add p q v e =>
    cases hv : toJSONElement v with
    | none => simp [toOperation, hv]
    | some j => simp [supported, hv] at h
  | Remove p c e => simp [supported] at h
  | Edit p f t mp c e => simp [supported] at h
  | Select p f t e => simp [supported] at h
  | Other => rfl

theorem ToOperations_loop_panicked (ops : List operation.Operation) :
    ops.foldl
      (fun pbOperations o =>
        pbOperations.bind fun done => (toOperation o).map fun pbOperation => done ++ [pbOperation])
      none = none := by
  induction ops with
  | nil => rfl
  | cons o rest ih => simpa using ih

theorem ToOperations_loop_supported (ops : List operation.Operation)
    (h : ∀ o ∈ ops, supported o = true) :
    ∀ done : List api.Operation, ∃ msgs,
      ops.foldl
        (fun pbOperations o =>
          pbOperations.bind fun done => (toOperation o).map fun pbOperation => done ++ [pbOperation])
        (some done) = some (done ++ msgs) ∧ List.Forall₂ Carries ops msgs := by
  induction ops with
  | nil => intro done; exact ⟨[], by simp, List.Forall₂.nil⟩
  | cons o rest ih =>
    intro done
    obtain ⟨m, hm, hc⟩ := toOperation_supported o (h o (by simp))
    obtain ⟨msgs, h1, h2⟩ := ih (fun x hx => h x (by simp [hx])) (done ++ [m])
    refine ⟨m :: msgs, ?_, List.Forall₂.cons hc h2⟩
    simp only [List.foldl_cons, Option.some_bind, hm, Option.map_some']
    rw [h1]; simp

theorem ToOperations_loop_unsupported (ops : List operation.Operation)
    (h : ∃ o ∈ ops, supported o = false) :
    ∀ done : List api.Operation,
      ops.foldl
        (fun pbOperations o =>
          pbOperations.bind fun done => (toOperation o).map fun pbOperation => done ++ [pbOperation])
        (some done) = none := by
  induction ops with
  | nil => obtain ⟨o, ho, _⟩ := h; simp at ho
  | cons o rest ih =>
    intro done
    rw [List.foldl_cons]
    cases hs : supported o with
    | false =>
      rw [toOperation_unsupported o hs]
      exact ToOperations_loop_panicked rest
    | true =>
      obtain ⟨m, hm, _⟩ := toOperation_supported o hs
      obtain ⟨x, hx, hxs⟩ := h
      have hrest : ∃ y ∈ rest, supported y = false := by
        rcases List.mem_cons.mp hx with rfl | hx
        · rw [hs] at hxs; cases hxs
        · exact ⟨x, hx, hxs⟩
      simp only [Option.some_bind, hm, Option.map_some']
      exact ih hrest _

theorem Forall₂_getElem? {α β : Type} {R : α → β → Prop} {xs : List α} {ys : List β}
    (h : List.Forall₂ R xs ys) :
    ∀ (i : Nat) (x : α), xs[i]? = some x → ∃ y, ys[i]? = some y ∧ R x y := by
  induction h with
  | nil => intro i x hx; simp at hx
  | cons hr _ ih =>
    intro i x hx
    cases i with
    | zero =>
      simp only [List.getElem?_cons_zero, Option.some.injEq] at hx
      subst hx
      exact ⟨_, by simp, hr⟩
    | succ k =>
      simp only [List.getElem?_cons_succ] at hx
      obtain ⟨y, hy, hxy⟩ := ih k x hx
      exact ⟨y, by simpa using hy, hxy⟩

/-- C10 (as the code has it): on a list of Set, Add, Remove, Edit and Select operations
whose Set and Add values `toJSONElement` encodes, `ToOperations` returns a list of the same
length whose `i`-th message has the variant of the `i`-th operation and carries its
`parent_created_at`, its `executed_at` and its type-specific fields, every ticket with
lamport, delimiter and actor hex unchanged, the map with the same actors, the offsets of
`from` and `to` converted to 32 bits. An operation of another kind, or a value that
`toJSONElement` does not encode, makes it panic. -/
theorem ToOperations_spec (ops : List operation.Operation) :
    ((∀ o ∈ ops, supported o = true) →
      ∃ msgs, ToOperations ops = some msgs ∧ msgs.length = ops.length ∧
        ∀ (i : Nat) (o : operation.Operation), ops[i]? = some o →
          ∃ m, msgs[i]? = some m ∧ Carries o m) ∧
    ((∃ o ∈ ops, supported o = false) → ToOperations ops = none) := by
  constructor
  · intro h
    obtain ⟨msgs, h1, h2⟩ := ToOperations_loop_supported ops h []
    refine ⟨msgs, by simpa [ToOperations] using h1, h2.length_eq.symm, Forall₂_getElem? h2⟩
  · intro h
    exact ToOperations_loop_unsupported ops h []

/-- C10 on one operation of each kind, and on the same list followed by an operation of
another kind. -/
theorem ToOperations_spec_witness :
    (∃ msgs, ToOperations sampleOperations = some msgs ∧ msgs.length = 5) ∧
    ToOperations (sampleOperations ++ [.Other]) = none :=
  ⟨by
    obtain ⟨msgs, h1, h2, _⟩ := (ToOperations_spec sampleOperations).1 (by decide)
    exact ⟨msgs, h1, h2⟩,
   (ToOperations_spec (sampleOperations ++ [.Other])).2 ⟨.Other, by simp, rfl⟩⟩

/-- C10 fails as stated. The Edit whose `from` has the offset `2^31` is sent with the
offset `-2^31`, so the message does not carry the `from` of the operation; and the Set
whose value is a Primitive of type Null makes `ToOperations` panic although the list holds
no operation of another kind. -/
theorem ToOperations_not_faithful :
    ToOperations
      [.Edit InitialTicket ⟨⟨InitialTicket, 2147483648⟩, 0⟩ ⟨⟨InitialTicket, 0⟩, 0⟩ [] ""
        InitialTicket]
      = some [.Edit
          { ParentCreatedAt := ⟨0, 0, "000000000000000000000000"⟩
            From := ⟨⟨0, 0, "000000000000000000000000"⟩, -2147483648, 0⟩
            To := ⟨⟨0, 0, "000000000000000000000000"⟩, 0, 0⟩
            CreatedAtMapByActor := []
            Content := ""
            ExecutedAt := ⟨0, 0, "000000000000000000000000"⟩ }] ∧
    ToOperations
      [.Set InitialTicket "k" (.primitive ⟨json.Null, .nil, InitialTicket, none⟩) InitialTicket]
      = none := by
  decide

end ConverterTheorems

section ChangePackTheorems

open time converter

theorem uint64LE_putUint64_mod (u : Nat) :
    uint64LE (putUint64 u) = some (u % 18446744073709551616) := by
  simp only [putUint64, uint64LE, byte, Option.some.injEq]
  omega

theorem wireValue_of_exact (v : json.Value) (h : IsWireExact v) : wireValue v = v := by
  cases v with
  | int x => simp only [wireValue]; rw [(intToInt32_eq_iff x).mpr h]
  | int64 x => simp only [wireValue]; rw [toInt64_toUint64 x h]
  | float64 bits =>
    have hb : bits < 18446744073709551616 := h
    simp only [wireValue]; rw [Nat.mod_eq_of_lt hb]
  | time t => exact h.elim
  | nil => rfl
  | bool b => rfl
  | int32 x => rfl
  | string s => rfl
  | bytes b => rfl
  | other => rfl

theorem toJSONElement_primitive (v : json.Value) (t : Ticket) (p : json.Primitive)
    (h : json.NewPrimitive v t = some p) :
    ∃ b, p.Bytes = some b ∧
      toJSONElement (.primitive p) = some ⟨toTimeTicket t, tagOf p.ValueType, b⟩ ∧
      json.ValueFromBytes p.ValueType b = some (wireValue v) := by
  cases v with
  | bool x =>
    simp only [json.NewPrimitive, Option.some.injEq] at h
    subst h
    cases x
    · exact ⟨[0], rfl, rfl, rfl⟩
    · exact ⟨[1], rfl, rfl, rfl⟩
  | int x =>
    simp only [json.NewPrimitive, Option.some.injEq] at h
    subst h
    refine ⟨putUint32 (toUint32 x), rfl, rfl, ?_⟩
    simp [json.ValueFromBytes, json.Primitive.ValueType, json.Integer, json.Boolean,
      uint32LE_putUint32 _ (toUint32_lt x), wireValue, intToInt32]
  | int64 x =>
    simp only [json.NewPrimitive, Option.some.injEq] at h
    subst h
    refine ⟨putUint64 (toUint64 x), rfl, rfl, ?_⟩
    simp [json.ValueFromBytes, json.Primitive.ValueType, json.Long, json.Integer, json.Boolean,
      uint64LE_putUint64 _ (toUint64_lt x), wireValue]
  | float64 bits =>
    simp only [json.NewPrimitive, Option.some.injEq] at h
    subst h
    refine ⟨putUint64 bits, rfl, rfl, ?_⟩
    simp [json.ValueFromBytes, json.Primitive.ValueType, json.Double, json.Long, json.Integer,
      json.Boolean, uint64LE_putUint64_mod, wireValue]
  | string s =>
    simp only [json.NewPrimitive, Option.some.injEq] at h
    subst h
    exact ⟨s, rfl, rfl, rfl⟩
  | bytes b =>
    simp only [json.NewPrimitive, Option.some.injEq] at h
    subst h
    exact ⟨b, rfl, rfl, rfl⟩
  | time x =>
    simp only [json.NewPrimitive, Option.some.injEq] at h
    subst h
    refine ⟨putUint64 (toUint64 x.UTC.Unix), rfl, rfl, ?_⟩
    simp [json.ValueFromBytes, json.Primitive.ValueType, json.Date, json.Bytes, json.String,
      json.Double, json.Long, json.Integer, json.Boolean,
      uint64LE_putUint64 _ (toUint64_lt _), wireValue, json.Time.UTC, json.Time.Unix]
  | nil => simp [json.NewPrimitive] at h
  | int32 x => simp [json.NewPrimitive] at h
  | other => simp [json.NewPrimitive] at h

/-- C11 (as the code has it): `toJSONElement` does not panic on an Object, an Array, a Text
and a Primitive built by `NewPrimitive`. The message carries the `created_at` of the element
and the tag of its kind, with an empty payload for Object, Array and Text; for a Primitive
the tag matches `p.ValueType()`, the payload is `p.Bytes()`, and `ValueFromBytes` under
`p.ValueType()` gives back the value the payload stands for, which is the value of the
primitive when that is a bool, an int64, a float64, a string, a byte sequence or an int of
the 32-bit range. -/
theorem toJSONElement_spec :
    (∀ c d, toJSONElement (.object c d) = some ⟨toTimeTicket c, .JSON_OBJECT, []⟩) ∧
    (∀ a : json.Array,
      toJSONElement (.array a) = some ⟨toTimeTicket (json.Array.CreatedAt a), .JSON_ARRAY, []⟩) ∧
    (∀ c d, toJSONElement (.text c d) = some ⟨toTimeTicket c, .TEXT, []⟩) ∧
    (∀ (v : json.Value) (t : Ticket) (p : json.Primitive), json.NewPrimitive v t = some p →
      ∃ b, p.Bytes = some b ∧
        toJSONElement (.primitive p) = some ⟨toTimeTicket t, tagOf p.ValueType, b⟩ ∧
        json.ValueFromBytes p.ValueType b = some (wireValue v) ∧
        (IsWireExact v → wireValue v = v)) := by
  refine ⟨fun _ _ => rfl, fun _ => rfl, fun _ _ => rfl, ?_⟩
  intro v t p h
  obtain ⟨b, h1, h2, h3⟩ := toJSONElement_primitive v t p h
  exact ⟨b, h1, h2, h3, wireValue_of_exact v⟩

/-- C11 on the string primitive `hi`. -/
theorem toJSONElement_spec_witness :
    ∃ b, json.Primitive.Bytes ⟨json.String, .string [104, 105], InitialTicket, none⟩ = some b ∧
      toJSONElement (.primitive ⟨json.String, .string [104, 105], InitialTicket, none⟩)
        = some ⟨toTimeTicket InitialTicket, .STRING, b⟩ ∧
      json.ValueFromBytes json.String b = some (.string [104, 105]) := by
  obtain ⟨b, h1, h2, h3, h4⟩ := toJSONElement_spec.2.2.2 (.string [104, 105]) InitialTicket
    ⟨json.String, .string [104, 105], InitialTicket, none⟩ rfl
  rw [h4 trivial] at h3
  exact ⟨b, h1, h2, h3⟩

/-- C11 fails as stated: the payload sent for the Integer primitive of the Go int `2^31`
parses back to `-2^31`, and the payload sent for a date with nanoseconds parses back to the
whole second. -/
theorem toJSONElement_payload_lossy :
    ((json.NewPrimitive (.int 2147483648) InitialTicket).bind fun p =>
      (toJSONElement (.primitive p)).bind fun m => json.ValueFromBytes p.ValueType m.Value)
      = some (.int (-2147483648)) ∧
    ((json.NewPrimitive (.time ⟨10, 5, .Local⟩) InitialTicket).bind fun p =>
      (toJSONElement (.primitive p)).bind fun m => json.ValueFromBytes p.ValueType m.Value)
      = some (.time ⟨10, 0, .Local⟩) ∧
    ((json.NewPrimitive (.int 2147483648) InitialTicket).bind fun p =>
      (toJSONElement (.primitive p)).bind fun m => json.ValueFromBytes p.ValueType m.Value)
      ≠ some (.int 2147483648) := by
  decide

theorem toChanges_loop_panicked (cs : List change.Change) :
    cs.foldl
      (fun pbChanges c =>
        pbChanges.bind fun done => (ToOperations c.operations).map fun ops =>
          done ++ [({ Id := toChangeID c.id, Message := c.message, Operations := ops } : api.Change)])
      none = none := by
  induction cs with
  | nil => rfl
  | cons c rest ih => simpa using ih

theorem toChanges_loop_converted (cs : List change.Change)
    (h : ∀ c ∈ cs, (ToOperations c.operations).isSome = true) :
    ∀ done : List api.Change, ∃ msgs,
      cs.foldl
        (fun pbChanges c =>
          pbChanges.bind fun done => (ToOperations c.operations).map fun ops =>
            done ++ [{ Id := toChangeID c.id, Message := c.message, Operations := ops }])
        (some done) = some (done ++ msgs) ∧ List.Forall₂ CarriesChange cs msgs := by
  induction cs with
  | nil => intro done; exact ⟨[], by simp, List.Forall₂.nil⟩
  | cons c rest ih =>
    intro done
    obtain ⟨ops, hops⟩ := Option.isSome_iff_exists.mp (h c (by simp))
    obtain ⟨msgs, h1, h2⟩ := ih (fun x hx => h x (by simp [hx]))
      (done ++ [{ Id := toChangeID c.id, Message := c.message, Operations := ops }])
    refine ⟨{ Id := toChangeID c.id, Message := c.message, Operations := ops } :: msgs, ?_,
      List.Forall₂.cons ⟨rfl, rfl, rfl, rfl, hops⟩ h2⟩
    simp only [List.foldl_cons, Option.some_bind, hops, Option.map_some']
    rw [h1]; simp

theorem toChanges_loop_panics (cs : List change.Change)
    (h : ∃ c ∈ cs, ToOperations c.operations = none) :
    ∀ done : List api.Change,
      cs.foldl
        (fun pbChanges c =>
          pbChanges.bind fun done => (ToOperations c.operations).map fun ops =>
            done ++ [{ Id := toChangeID c.id, Message := c.message, Operations := ops }])
        (some done) = none := by
  induction cs with
  | nil => obtain ⟨c, hc, _⟩ := h; simp at hc
  | cons c rest ih =>
    intro done
    rw [List.foldl_cons]
    cases hops : ToOperations c.operations with
    | none => exact toChanges_loop_panicked rest
    | some ops =>
      obtain ⟨x, hx, hxs⟩ := h
      have hrest : ∃ y ∈ rest, ToOperations y.operations = none := by
        rcases List.mem_cons.mp hx with rfl | hx
        · rw [hops] at hxs; cases hxs
        · exact ⟨x, hx, hxs⟩
      simp only [Option.some_bind, Option.map_some']
      exact ih hrest _

/-- C12 (as the code has it): on a change pack on whose changes `ToOperations` does not
panic, `ToChangePack` returns a message with the same document key, the same checkpoint and
a list of changes of the same length in the same order, the `i`-th carrying the message of
the `i`-th change, the `client_seq`, lamport and actor hex of its id, and `ToOperations` of
its operations. A change on which `ToOperations` panics makes `ToChangePack` panic. -/
theorem ToChangePack_spec (pack : change.Pack) :
    ((∀ c ∈ pack.Changes, (ToOperations c.operations).isSome = true) →
      ∃ msg, ToChangePack pack = some msg ∧
        msg.DocumentKey.Collection = pack.DocumentKey.Collection ∧
        msg.DocumentKey.Document = pack.DocumentKey.Document ∧
        msg.Checkpoint.ServerSeq = pack.Checkpoint.ServerSeq ∧
        msg.Checkpoint.ClientSeq = pack.Checkpoint.ClientSeq ∧
        msg.Changes.length = pack.Changes.length ∧
        ∀ (i : Nat) (c : change.Change), pack.Changes[i]? = some c →
          ∃ m, msg.Changes[i]? = some m ∧ CarriesChange c m) ∧
    ((∃ c ∈ pack.Changes, ToOperations c.operations = none) → ToChangePack pack = none) := by
  constructor
  · intro h
    obtain ⟨msgs, h1, h2⟩ := toChanges_loop_converted pack.Changes h []
    have h3 : toChanges pack.Changes = some msgs := by simpa [toChanges] using h1
    exact ⟨⟨toDocumentKey pack.DocumentKey, toCheckpoint pack.Checkpoint, msgs⟩,
      by simp only [ToChangePack, h3, Option.map_some'], rfl, rfl, rfl, rfl,
      h2.length_eq.symm, Forall₂_getElem? h2⟩
  · intro h
    have h3 : toChanges pack.Changes = none := toChanges_loop_panics pack.Changes h []
    simp only [ToChangePack, h3, Option.map_none']

/-- C12 on a pack of two changes. -/
theorem ToChangePack_spec_witness :
    ∃ msg, ToChangePack samplePack = some msg ∧ msg.Changes.length = 2 ∧
      msg.DocumentKey.Collection = "c1" := by
  obtain ⟨msg, h1, h2, _, _, _, h3, _⟩ := (ToChangePack_spec samplePack).1 (by decide)
  exact ⟨msg, h1, h3, h2⟩

/-- C12 fails as stated: a change pack with a change that holds an operation of another
kind makes `ToChangePack` panic. -/
theorem ToChangePack_panics :
    ToChangePack ⟨⟨"c1", "d1"⟩, ⟨0, 0⟩, [⟨⟨1, 1, sampleActor⟩, "m", [.Other], 0⟩]⟩ = none := by
  decide

end ChangePackTheorems

section MarshalTheorems

open time

/-- C13 fails on the code: the String primitive of the three bytes `a"b` marshals to the
five bytes `"a"b"`, whatever the formatting of floats and times, and that text is not a
JSON string literal, so it does not parse back to the string. -/
theorem Marshal_does_not_escape (f : json.Formats) :
    json.NewPrimitive (.string [97, 34, 98]) InitialTicket
      = some ⟨json.String, .string [97, 34, 98], InitialTicket, none⟩ ∧
    json.Primitive.Marshal f ⟨json.String, .string [97, 34, 98], InitialTicket, none⟩
      = some [34, 97, 34, 98, 34] ∧
    parseJSONString [34, 97, 34, 98, 34] = none ∧
    parseJSONString [34, 97, 92, 34, 98, 34] = some [97, 34, 98] :=
  ⟨rfl, rfl, by decide, by decide⟩

end MarshalTheorems

section MongoTheorems

open mongo

theorem FindLastSnapshotInfo_eq (s : Store) (docID : ObjectID) :
    FindLastSnapshotInfo s docID = .ok SnapshotInfo.zero := by
  unfold FindLastSnapshotInfo
  dsimp only
  cases ((s.snapshots.filter fun x => x.DocID = docID).insertionSort
    fun a b => a.ServerSeq ≤ b.ServerSeq).head? <;> rfl

/-- C14 fails on the code: with the snapshots of the server sequences 1 and 2 stored for
the document 7, `FindLastSnapshotInfo` returns the zero value of `SnapshotInfo` with no
error, not the stored snapshot of server sequence 2; the query it runs sorts ascending and
its result is never decoded. -/
theorem FindLastSnapshotInfo_not_last :
    (⟨2, 7, 2, [2], 20⟩ : SnapshotInfo) ∈ sampleSnapshots.snapshots ∧
    (∀ x ∈ sampleSnapshots.snapshots, x.DocID = 7 → x.ServerSeq ≤ 2) ∧
    FindLastSnapshotInfo sampleSnapshots 7 = .ok ⟨0, 0, 0, [], 0⟩ ∧
    ((sampleSnapshots.snapshots.filter fun x => x.DocID = 7).insertionSort
      fun a b => a.ServerSeq ≤ b.ServerSeq).head? = some ⟨1, 7, 1, [1], 10⟩ := by
  refine ⟨by decide, by decide, FindLastSnapshotInfo_eq _ _, by decide⟩

/-- C15 fails on the code: with no snapshot stored, `FindLastSnapshotInfo` returns the zero
value of `SnapshotInfo` with no error, not `ErrSnapshotNotFound`; it returns the same when
snapshots are stored, so a caller cannot tell the two apart. -/
theorem FindLastSnapshotInfo_no_error :
    FindLastSnapshotInfo emptyStore 7 = .ok ⟨0, 0, 0, [], 0⟩ ∧
    FindLastSnapshotInfo emptyStore 7 ≠ .error .ErrSnapshotNotFound ∧
    FindLastSnapshotInfo emptyStore 7 = FindLastSnapshotInfo sampleSnapshots 7 := by
  refine ⟨FindLastSnapshotInfo_eq _ _, ?_, ?_⟩
  · rw [FindLastSnapshotInfo_eq]; intro h; cases h
  · rw [FindLastSnapshotInfo_eq, FindLastSnapshotInfo_eq]

end MongoTheorems

section ChangeStoreTheorems

open mongo

theorem any_updateFirst {α : Type} (p q : α → Bool) (f : α → α) (hq : ∀ x, q (f x) = q x)
    (l : List α) : (updateFirst p f l).any q = l.any q := by
  induction l with
  | nil => rfl
  | cons x xs ih =>
    unfold updateFirst
    split
    · simp [hq]
    · simp [ih]

theorem updateFirst_of_none {α : Type} (p : α → Bool) (f : α → α) (l : List α)
    (h : l.any p = false) : updateFirst p f l = l := by
  induction l with
  | nil => rfl
  | cons x xs ih =>
    simp only [List.any_cons, Bool.or_eq_false_iff] at h
    simp [updateFirst, h.1, ih h.2]

theorem updateFirst_twice {α : Type} (p : α → Bool) (f g : α → α) (hp : ∀ x, p (g x) = p x)
    (l : List α) : updateFirst p f (updateFirst p g l) = updateFirst p (fun x => f (g x)) l := by
  induction l with
  | nil => rfl
  | cons x xs ih =>
    by_cases hx : p x = true
    · simp [updateFirst, hx, hp]
    · simp [updateFirst, hx, ih]

theorem updateFirst_comm {α : Type} (p q : α → Bool) (f g : α → α)
    (hdis : ∀ x, p x = true → q x = true → False)
    (hpg : ∀ x, p (g x) = p x) (hqf : ∀ x, q (f x) = q x) (l : List α) :
    updateFirst p f (updateFirst q g l) = updateFirst q g (updateFirst p f l) := by
  induction l with
  | nil => rfl
  | cons x xs ih =>
    by_cases hx : p x = true
    · have hqx : ¬ q x = true := fun h => hdis x hx h
      simp [updateFirst, hx, hqx, hqf]
    · by_cases hqx : q x = true
      · simp [updateFirst, hx, hqx, hpg]
      · simp [updateFirst, hx, hqx, ih]

theorem updateFirst_append {α : Type} (p : α → Bool) (f : α → α) (l m : List α)
    (h : l.any p = true) : updateFirst p f (l ++ m) = updateFirst p f l ++ m := by
  induction l with
  | nil => simp at h
  | cons x xs ih =>
    by_cases hx : p x = true
    · simp [updateFirst, hx]
    · have hxs : xs.any p = true := by simpa [hx] using h
      simp [updateFirst, hx, ih hxs]

theorem map_updateFirst {α β : Type} (p : α → Bool) (f : α → α) (k : α → β)
    (hk : ∀ x, k (f x) = k x) (l : List α) : (updateFirst p f l).map k = l.map k := by
  induction l with
  | nil => rfl
  | cons x xs ih =>
    unfold updateFirst
    split
    · simp [hk]
    · simp [ih]

theorem changeFilter_changeSet (ty : Types) (d : ObjectID) (c c1 : change.Change)
    (r : ChangeInfo) : changeFilter d c (changeSet ty c1 r) = changeFilter d c r := rfl

theorem changeSet_changeSet (ty : Types) (c c1 : change.Change) (r : ChangeInfo) :
    changeSet ty c (changeSet ty c1 r) = changeSet ty c r := rfl

theorem changeFilter_congr (d : ObjectID) (c c1 : change.Change)
    (h : c.serverSeq = c1.serverSeq) : changeFilter d c = changeFilter d c1 := by
  funext r
  simp [changeFilter, h]

theorem changeFilter_disjoint (d : ObjectID) (c c1 : change.Change)
    (h : c.serverSeq ≠ c1.serverSeq) (r : ChangeInfo) :
    changeFilter d c r = true → changeFilter d c1 r = true → False := by
  simp only [changeFilter, Bool.and_eq_true, decide_eq_true_eq]
  intro h1 h2
  exact h (h1.2.symm.trans h2.2)

theorem any_upsertChange (ty : Types) (d : ObjectID) (c0 c : change.Change)
    (col : List ChangeInfo) (h : col.any (changeFilter d c0) = true) :
    (upsertChange ty d col c).any (changeFilter d c0) = true := by
  unfold upsertChange
  split
  · rw [any_updateFirst _ _ _ (changeFilter_changeSet ty d c0 c)]; exact h
  · simp [h]

theorem any_foldl_upsertChange (ty : Types) (d : ObjectID) (c0 : change.Change)
    (cs : List change.Change) :
    ∀ col : List ChangeInfo, col.any (changeFilter d c0) = true →
      (cs.foldl (upsertChange ty d) col).any (changeFilter d c0) = true := by
  induction cs with
  | nil => intro col h; exact h
  | cons c rest ih =>
    intro col h
    exact ih _ (any_upsertChange ty d c0 c col h)

theorem any_upsertChange_self (ty : Types) (d : ObjectID) (c : change.Change)
    (col : List ChangeInfo) : (upsertChange ty d col c).any (changeFilter d c) = true := by
  unfold upsertChange
  split
  · rename_i h
    rw [any_updateFirst _ _ _ (changeFilter_changeSet ty d c c)]; exact h
  · simp [changeFilter, changeSet]

theorem updateFirst_append_of_none {α : Type} (p : α → Bool) (f : α → α) (l m : List α)
    (h : l.any p = false) : updateFirst p f (l ++ m) = l ++ updateFirst p f m := by
  induction l with
  | nil => rfl
  | cons x xs ih =>
    simp only [List.any_cons, Bool.or_eq_false_iff] at h
    simp [updateFirst, h.1, ih h.2]

theorem updateFirst_upsertChange_self (ty : Types) (d : ObjectID) (c : change.Change)
    (col : List ChangeInfo) :
    updateFirst (changeFilter d c) (changeSet ty c) (upsertChange ty d col c)
      = upsertChange ty d col c := by
  unfold upsertChange
  split
  · rw [updateFirst_twice _ _ _ (changeFilter_changeSet ty d c c)]
    rfl
  · rename_i h
    have h0 : col.any (changeFilter d c) = false := by simpa using h
    rw [updateFirst_append_of_none _ _ _ _ h0]
    simp [updateFirst, changeFilter, changeSet]

theorem upsertChange_updateFirst (ty : Types) (d : ObjectID) (c0 x : change.Change)
    (col : List ChangeInfo) (hcov : col.any (changeFilter d c0) = true)
    (hne : x.serverSeq ≠ c0.serverSeq) :
    upsertChange ty d (updateFirst (changeFilter d c0) (changeSet ty c0) col) x
      = updateFirst (changeFilter d c0) (changeSet ty c0) (upsertChange ty d col x) := by
  unfold upsertChange
  rw [any_updateFirst _ _ _ (changeFilter_changeSet ty d x c0),
    map_updateFirst (changeFilter d c0) (changeSet ty c0) (fun r : ChangeInfo => r.ID)
      (fun _ => rfl)]
  split
  · exact updateFirst_comm _ _ _ _ (changeFilter_disjoint d x c0 hne)
      (changeFilter_changeSet ty d x c0) (changeFilter_changeSet ty d c0 x) col
  · rw [updateFirst_append _ _ _ _ hcov]

theorem foldl_upsertChange_updateFirst (ty : Types) (d : ObjectID) (c0 : change.Change)
    (cs : List change.Change) (hne : ∀ x ∈ cs, x.serverSeq ≠ c0.serverSeq) :
    ∀ col : List ChangeInfo, col.any (changeFilter d c0) = true →
      cs.foldl (upsertChange ty d) (updateFirst (changeFilter d c0) (changeSet ty c0) col)
        = updateFirst (changeFilter d c0) (changeSet ty c0) (cs.foldl (upsertChange ty d) col) := by
  induction cs with
  | nil => intro col _; rfl
  | cons x rest ih =>
    intro col hcov
    simp only [List.foldl_cons]
    rw [upsertChange_updateFirst ty d c0 x col hcov (hne x (by simp))]
    exact ih (fun y hy => hne y (by simp [hy])) _ (any_upsertChange ty d c0 x col hcov)

theorem foldl_upsertChange_forgets (ty : Types) (d : ObjectID) (c0 : change.Change)
    (cs : List change.Change) (hex : ∃ x ∈ cs, x.serverSeq = c0.serverSeq) :
    ∀ col : List ChangeInfo, col.any (changeFilter d c0) = true →
      cs.foldl (upsertChange ty d) (updateFirst (changeFilter d c0) (changeSet ty c0) col)
        = cs.foldl (upsertChange ty d) col := by
  induction cs with
  | nil => obtain ⟨x, hx, _⟩ := hex; simp at hx
  | cons x rest ih =>
    intro col hcov
    simp only [List.foldl_cons]
    by_cases hx : x.serverSeq = c0.serverSeq
    · have hF : changeFilter d x = changeFilter d c0 := changeFilter_congr d x c0 hx
      have hstep : upsertChange ty d (updateFirst (changeFilter d c0) (changeSet ty c0) col) x
          = upsertChange ty d col x := by
        unfold upsertChange
        rw [any_updateFirst _ _ _ (changeFilter_changeSet ty d x c0), hF, hcov]
        simp only [if_true]
        rw [updateFirst_twice _ _ _ (changeFilter_changeSet ty d c0 c0)]
        rfl
      rw [hstep]
    · rw [upsertChange_updateFirst ty d c0 x col hcov hx]
      have hrest : ∃ y ∈ rest, y.serverSeq = c0.serverSeq := by
        obtain ⟨y, hy, hys⟩ := hex
        rcases List.mem_cons.mp hy with rfl | hy
        · exact absurd hys hx
        · exact ⟨y, hy, hys⟩
      exact ih hrest _ (any_upsertChange ty d c0 x col hcov)

theorem upsertChange_covered (ty : Types) (d : ObjectID) (c : change.Change)
    (col : List ChangeInfo) (h : col.any (changeFilter d c) = true) :
    upsertChange ty d col c = updateFirst (changeFilter d c) (changeSet ty c) col := by
  simp [upsertChange, h]

theorem foldl_upsertChange_idempotent (ty : Types) (d : ObjectID) (cs : List change.Change) :
    ∀ col : List ChangeInfo,
      cs.foldl (upsertChange ty d) (cs.foldl (upsertChange ty d) col)
        = cs.foldl (upsertChange ty d) col := by
  induction cs with
  | nil => intro col; rfl
  | cons c rest ih =>
    intro col
    simp only [List.foldl_cons]
    have hcov1 := any_upsertChange_self ty d c col
    have hcovR := any_foldl_upsertChange ty d c rest _ hcov1
    rw [upsertChange_covered ty d c _ hcovR]
    by_cases hex : ∃ x ∈ rest, x.serverSeq = c.serverSeq
    · rw [foldl_upsertChange_forgets ty d c rest hex _ hcovR]
      exact ih _
    · have hne : ∀ x ∈ rest, x.serverSeq ≠ c.serverSeq := fun x hx h => hex ⟨x, hx, h⟩
      rw [← foldl_upsertChange_updateFirst ty d c rest hne _ hcov1,
        updateFirst_upsertChange_self]
      exact ih _

theorem nodup_upsertChange (ty : Types) (d : ObjectID) (c : change.Change)
    (col : List ChangeInfo) (h : (col.map ChangeInfo.key).Nodup) :
    ((upsertChange ty d col c).map ChangeInfo.key).Nodup := by
  unfold upsertChange
  split
  · rw [map_updateFirst (changeFilter d c) (changeSet ty c) ChangeInfo.key (fun _ => rfl)]
    exact h
  · rename_i hany
    rw [List.map_append, List.nodup_append]
    refine ⟨h, by simp, ?_⟩
    intro k hk hk2
    simp only [List.map_cons, List.map_nil, List.mem_singleton] at hk2
    obtain ⟨r, hr, hrk⟩ := List.mem_map.mp hk
    apply hany
    rw [List.any_eq_true]
    refine ⟨r, hr, ?_⟩
    have : r.key = (d, c.serverSeq) := by rw [hrk, hk2]; rfl
    simp only [ChangeInfo.key, Prod.mk.injEq] at this
    simp [changeFilter, this.1, this.2]

theorem nodup_foldl_upsertChange (ty : Types) (d : ObjectID) (cs : List change.Change) :
    ∀ col : List ChangeInfo, (col.map ChangeInfo.key).Nodup →
      ((cs.foldl (upsertChange ty d) col).map ChangeInfo.key).Nodup := by
  induction cs with
  | nil => intro col h; exact h
  | cons c rest ih => intro col h; exact ih _ (nodup_upsertChange ty d c col h)

/-- C16: `CreateChangeInfos` with an empty list returns nil and leaves the store as it is;
a second call with the same arguments returns nil and leaves the store the first call left;
and a changes collection without two records of the same `(doc_id, server_seq)` is left
without two such records. -/
theorem CreateChangeInfos_spec (ty : Types) (s : Store) (docID : ObjectID)
    (changes : List change.Change) :
    CreateChangeInfos ty s docID [] = (none, s) ∧
    CreateChangeInfos ty (CreateChangeInfos ty s docID changes).2 docID changes
      = CreateChangeInfos ty s docID changes ∧
    ((s.changes.map ChangeInfo.key).Nodup →
      ((CreateChangeInfos ty s docID changes).2.changes.map ChangeInfo.key).Nodup) := by
  refine ⟨rfl, ?_, ?_⟩
  · unfold CreateChangeInfos
    by_cases h : changes.length = 0
    · simp [h]
    · simp only [h, if_false]
      rw [foldl_upsertChange_idempotent]
  · intro hnd
    unfold CreateChangeInfos
    by_cases h : changes.length = 0
    · simpa [h] using hnd
    · simp only [h, if_false]
      exact nodup_foldl_upsertChange ty docID changes _ hnd

/-- C16 on a store with one change of the document and three changes to write, two of them
with the same server sequence. -/
theorem CreateChangeInfos_spec_witness :
    ((CreateChangeInfos sampleTypes sampleStore 7 sampleChanges).2.changes.map
      ChangeInfo.key).Nodup ∧
    (CreateChangeInfos sampleTypes sampleStore 7 sampleChanges).2.changes
      = [⟨1, 7, 4, [2], 3, 7, "third", []⟩, ⟨2, 8, 4, [8], 8, 8, "other", []⟩,
         ⟨3, 7, 5, [1], 2, 6, "second", []⟩] :=
  ⟨(CreateChangeInfos_spec sampleTypes sampleStore 7 sampleChanges).2.2 (by decide), by decide⟩

end ChangeStoreTheorems

section StoreQueryTheorems

open mongo

theorem FindChangeInfos_loop (ty : Types) (rs : List ChangeInfo)
    (h : ∀ r ∈ rs, ∃ c, ty.ToChange r = .ok c) :
    ∀ done : List change.Change, ∃ cs,
      rs.foldl
        (fun (acc : Except Error (List change.Change)) changeInfo => acc.bind fun changes =>
          (ty.ToChange changeInfo).map fun c => changes ++ [c])
        (.ok done) = .ok (done ++ cs) ∧
      List.Forall₂ (fun r c => ty.ToChange r = .ok c) rs cs := by
  induction rs with
  | nil => intro done; exact ⟨[], by simp, List.Forall₂.nil⟩
  | cons r rest ih =>
    intro done
    obtain ⟨c, hc⟩ := h r (by simp)
    obtain ⟨cs, h1, h2⟩ := ih (fun x hx => h x (by simp [hx])) (done ++ [c])
    refine ⟨c :: cs, ?_, List.Forall₂.cons hc h2⟩
    have hstep : ((Except.ok done : Except Error (List change.Change)).bind fun changes =>
        (ty.ToChange r).map fun c => changes ++ [c]) = .ok (done ++ [c]) := by
      rw [hc]; rfl
    simp only [List.foldl_cons]
    rw [hstep, h1]; simp

/-- C17: when the stored changes decode and neither bound is above `math.MaxInt64`,
`FindChangeInfosBetweenServerSeqs` returns, with no error, the decoded changes of exactly
the records of the collection whose `doc_id` is the given one and whose `server_seq` lies
between `from` and `to`, both inclusive, one for one in the order of the collection; the
list is empty when `from > to`. When a bound is above `math.MaxInt64` the result is an
error. -/
theorem FindChangeInfos_spec (ty : Types) (s : Store) (docID : ObjectID) (from_ to_ : Nat)
    (h : ∀ r ∈ s.changes, ∃ c, ty.ToChange r = .ok c) :
    (from_ ≤ MaxInt64 ∧ to_ ≤ MaxInt64 →
      ∃ cs, FindChangeInfosBetweenServerSeqs ty s docID from_ to_ = .ok cs ∧
        List.Forall₂ (fun r c => ty.ToChange r = .ok c)
          (s.changes.filter fun r =>
            decide (r.DocID = docID ∧ from_ ≤ r.ServerSeq ∧ r.ServerSeq ≤ to_)) cs ∧
        (to_ < from_ → cs = [])) ∧
    (MaxInt64 < from_ ∨ MaxInt64 < to_ →
      ∃ err, FindChangeInfosBetweenServerSeqs ty s docID from_ to_ = .error err) := by
  refine ⟨?_, fun hbig => ⟨_, by unfold FindChangeInfosBetweenServerSeqs; rw [if_pos hbig]⟩⟩
  intro hsmall
  have hnot : ¬ (MaxInt64 < from_ ∨ MaxInt64 < to_) := by
    intro hbig
    rcases hbig with hbig | hbig
    · exact absurd hsmall.1 (Nat.not_le_of_lt hbig)
    · exact absurd hsmall.2 (Nat.not_le_of_lt hbig)
  have hfilter : (s.changes.filter fun r =>
      r.DocID = docID && from_ ≤ r.ServerSeq && r.ServerSeq ≤ to_)
      = s.changes.filter fun r =>
          decide (r.DocID = docID ∧ from_ ≤ r.ServerSeq ∧ r.ServerSeq ≤ to_) := by
    congr 1
    funext r
    simp [Bool.and_assoc]
  obtain ⟨cs, h1, h2⟩ := FindChangeInfos_loop ty
    (s.changes.filter fun r => r.DocID = docID && from_ ≤ r.ServerSeq && r.ServerSeq ≤ to_)
    (fun r hr => h r (List.mem_of_mem_filter hr)) []
  refine ⟨cs, ?_, by rw [← hfilter]; exact h2, ?_⟩
  · unfold FindChangeInfosBetweenServerSeqs
    rw [if_neg hnot]
    simpa using h1
  intro hlt
  have hnil : (s.changes.filter fun r =>
      r.DocID = docID && from_ ≤ r.ServerSeq && r.ServerSeq ≤ to_) = [] := by
    rw [List.filter_eq_nil_iff]
    intro r _
    simp only [Bool.and_eq_true, decide_eq_true_eq, not_and]
    intro h3 h4
    omega
  rw [hnil] at h2
  cases h2
  rfl

/-- C17 on a store with one change of the document at server sequence 4. -/
theorem FindChangeInfos_spec_witness :
    ∃ cs, FindChangeInfosBetweenServerSeqs sampleTypes sampleStore 7 4 4 = .ok cs ∧
      cs.length = 1 := by
  obtain ⟨cs, h1, h2, _⟩ :=
    (FindChangeInfos_spec sampleTypes sampleStore 7 4 4 (fun r _ => ⟨_, rfl⟩)).1
      (by decide)
  exact ⟨cs, h1, by rw [← h2.length_eq]; decide⟩

/-- C17 fails for a bound above `math.MaxInt64`: the store holds a change of document 7 at
server sequence 4, which lies between 0 and `2^64 - 1`, and every stored change decodes,
yet the query with these bounds returns an error and no change; and with `from = 2^63` and
`to = 0`, where `from > to`, the result is an error, not the empty list. -/
theorem FindChangeInfos_large_bound :
    (∀ r ∈ sampleStore.changes, ∃ c, sampleTypes.ToChange r = .ok c) ∧
    (∃ r ∈ sampleStore.changes,
      r.DocID = 7 ∧ 0 ≤ r.ServerSeq ∧ r.ServerSeq ≤ 18446744073709551615) ∧
    FindChangeInfosBetweenServerSeqs sampleTypes sampleStore 7 0 18446744073709551615 =
      .error (.Driver "overflows int64") ∧
    FindChangeInfosBetweenServerSeqs sampleTypes sampleStore 7 9223372036854775808 0 =
      .error (.Driver "overflows int64") :=
  ⟨fun _ _ => ⟨_, rfl⟩, by decide, rfl, rfl⟩

theorem le_foldr_max (ids : List ObjectID) : ∀ x ∈ ids, x ≤ ids.foldr max 0 := by
  induction ids with
  | nil => intro x hx; simp at hx
  | cons y ys ih =>
    intro x hx
    simp only [List.foldr_cons]
    rcases List.mem_cons.mp hx with rfl | hx
    · exact le_max_left _ _
    · exact le_trans (ih x hx) (le_max_right _ _)

theorem freshID_not_mem (ids : List ObjectID) : freshID ids ∉ ids := by
  intro h
  have := le_foldr_max ids _ h
  exact Nat.not_succ_le_self _ this

theorem findOne_split {α : Type} (p : α → Bool) (pre post : List α) (d : α)
    (hpre : ∀ x ∈ pre, p x = false) (hd : p d = true) :
    findOne p (pre ++ d :: post) = some d := by
  unfold findOne
  induction pre with
  | nil => simp [hd]
  | cons x xs ih =>
    have hx := hpre x (by simp)
    simp [hx, ih (fun y hy => hpre y (by simp [hy]))]

theorem findOne_none {α : Type} (p : α → Bool) (l : List α) (h : ∀ x ∈ l, p x = false) :
    findOne p l = none := by
  unfold findOne
  rw [List.find?_eq_none]
  intro x hx
  simp [h x hx]

theorem updateFirst_split {α : Type} (p : α → Bool) (f : α → α) (pre post : List α) (d : α)
    (hpre : ∀ x ∈ pre, p x = false) (hd : p d = true) :
    updateFirst p f (pre ++ d :: post) = pre ++ f d :: post := by
  induction pre with
  | nil => simp [updateFirst, hd]
  | cons x xs ih =>
    have hx := hpre x (by simp)
    simp [updateFirst, hx, ih (fun y hy => hpre y (by simp [hy]))]

theorem exists_first {α : Type} (p : α → Bool) (l : List α) (h : ∃ x ∈ l, p x = true) :
    ∃ pre d post, l = pre ++ d :: post ∧ p d = true ∧ ∀ x ∈ pre, p x = false := by
  induction l with
  | nil => obtain ⟨x, hx, _⟩ := h; simp at hx
  | cons y ys ih =>
    by_cases hy : p y = true
    · exact ⟨[], y, ys, rfl, hy, by simp⟩
    · have hys : ∃ x ∈ ys, p x = true := by
        obtain ⟨x, hx, hpx⟩ := h
        rcases List.mem_cons.mp hx with rfl | hx
        · exact absurd hpx hy
        · exact ⟨x, hx, hpx⟩
      obtain ⟨pre, d, post, h1, h2, h3⟩ := ih hys
      refine ⟨y :: pre, d, post, by simp [h1], h2, ?_⟩
      intro x hx
      rcases List.mem_cons.mp hx with rfl | hx
      · simpa using hy
      · exact h3 x hx

/-- The three cases of `FindDocInfoByKey`. On a store with no document of key `k` it
returns `ErrDocumentNotFound` and leaves the store as it is when `createDocIfNotExist` is
false; when it is true it adds exactly one document, of key `k` and owned by the calling
client, under a new `_id`, and returns the document of that `_id` and key as the update
found it, without owner and creation time. On a store with a document of key `k` it returns
the first such document, with its access time set, and adds none, whatever the flag. -/
theorem FindDocInfoByKey_cases (now : Nat) (s : Store) (clientInfo : ClientInfo) (k : String) :
    ((∀ d ∈ s.documents, d.Key ≠ k) →
      FindDocInfoByKey now s clientInfo k false = (.error .ErrDocumentNotFound, s)) ∧
    ((∀ d ∈ s.documents, d.Key ≠ k) →
      ∃ id, (∀ d ∈ s.documents, d.ID ≠ id) ∧
        FindDocInfoByKey now s clientInfo k true
          = (.ok ⟨id, k, 0, 0, 0, now, 0⟩,
             { s with documents := s.documents ++ [⟨id, k, clientInfo.ID, 0, now, now, 0⟩] })) ∧
    ((∃ d ∈ s.documents, d.Key = k) →
      ∃ pre d post, s.documents = pre ++ d :: post ∧ d.Key = k ∧ (∀ x ∈ pre, x.Key ≠ k) ∧
        ∀ create : Bool, FindDocInfoByKey now s clientInfo k create
          = (.ok { d with AccessedAt := now },
             { s with documents := pre ++ { d with AccessedAt := now } :: post })) := by
  refine ⟨?_, ?_, ?_⟩
  · intro hno
    have hany : s.documents.any (fun d => decide (d.Key = k)) = false := by
      rw [List.any_eq_false]; intro d hd; simpa using hno d hd
    have hfind : findOne (fun d : DocInfo => decide (d.Key = k)) s.documents = none :=
      findOne_none _ _ (fun d hd => by simpa using hno d hd)
    simp [FindDocInfoByKey, hany, hfind]
  · intro hno
    have hany : s.documents.any (fun d => decide (d.Key = k)) = false := by
      rw [List.any_eq_false]; intro d hd; simpa using hno d hd
    have hfresh : ∀ d ∈ s.documents, d.ID ≠ freshID (s.documents.map fun d => d.ID) := by
      intro d hd heq
      exact freshID_not_mem (s.documents.map fun d => d.ID) (heq ▸ List.mem_map.mpr ⟨d, hd, rfl⟩)
    refine ⟨freshID (s.documents.map fun d => d.ID), hfresh, ?_⟩
    have hpre : ∀ x ∈ s.documents,
        (fun d : DocInfo => decide (d.ID = freshID (s.documents.map fun d => d.ID))) x = false :=
      fun x hx => by simpa using hfresh x hx
    have hfind := findOne_split
      (fun d : DocInfo => decide (d.ID = freshID (s.documents.map fun d => d.ID)))
      s.documents [] ⟨freshID (s.documents.map fun d => d.ID), k, 0, 0, 0, now, 0⟩ hpre (by simp)
    have hupd := updateFirst_split
      (fun d : DocInfo => decide (d.ID = freshID (s.documents.map fun d => d.ID)))
      (fun d => { d with Owner := clientInfo.ID, CreatedAt := now })
      s.documents [] ⟨freshID (s.documents.map fun d => d.ID), k, 0, 0, 0, now, 0⟩ hpre (by simp)
    simp only [FindDocInfoByKey, hany, Bool.false_eq_true, if_false, if_true, gt_iff_lt,
      Nat.lt_one_iff, Nat.zero_lt_one, hfind, hupd]
  · intro hex
    obtain ⟨pre, d, post, h1, h2, h3⟩ :=
      exists_first (fun d : DocInfo => decide (d.Key = k)) s.documents
        (by obtain ⟨d, hd, hk⟩ := hex; exact ⟨d, hd, by simpa using hk⟩)
    have hk : d.Key = k := by simpa using h2
    refine ⟨pre, d, post, h1, hk, fun x hx => by simpa using h3 x hx, ?_⟩
    intro create
    have hany : s.documents.any (fun d => decide (d.Key = k)) = true := by
      rw [List.any_eq_true]; exact ⟨d, by rw [h1]; simp, h2⟩
    have hupd : updateFirst (fun d : DocInfo => decide (d.Key = k))
        (fun d => { d with AccessedAt := now }) s.documents
        = pre ++ { d with AccessedAt := now } :: post := by
      rw [h1]; exact updateFirst_split _ _ pre post d h3 h2
    have hfind : findOne (fun d : DocInfo => decide (d.Key = k))
        (pre ++ { d with AccessedAt := now } :: post) = some { d with AccessedAt := now } :=
      findOne_split _ pre post _ h3 (by simpa using hk)
    simp [FindDocInfoByKey, hany, hupd, hfind]

/-- The three cases of `FindDocInfoByKey` on a store without the key, with and without
creation, and on a store with it. -/
theorem FindDocInfoByKey_cases_witness :
    FindDocInfoByKey 9 sampleStore ⟨11, "alice", "activated", 1, 1⟩ "c$d2" false
      = (.error .ErrDocumentNotFound, sampleStore) ∧
    (∃ id, FindDocInfoByKey 9 sampleStore ⟨11, "alice", "activated", 1, 1⟩ "c$d2" true
      = (.ok ⟨id, "c$d2", 0, 0, 0, 9, 0⟩,
         { sampleStore with
           documents := sampleStore.documents ++ [⟨id, "c$d2", 11, 0, 9, 9, 0⟩] })) ∧
    (FindDocInfoByKey 9 sampleStore ⟨12, "bob", "activated", 2, 2⟩ "c$d1" true).1
      = .ok ⟨21, "c$d1", 11, 0, 1, 9, 1⟩ := by
  refine ⟨(FindDocInfoByKey_cases 9 sampleStore ⟨11, "alice", "activated", 1, 1⟩ "c$d2").1
    (by decide), ?_, rfl⟩
  obtain ⟨id, _, h⟩ :=
    (FindDocInfoByKey_cases 9 sampleStore ⟨11, "alice", "activated", 1, 1⟩ "c$d2").2.1 (by decide)
  exact ⟨id, h⟩

/-- C18: on a store with no document of key `c$d2`, `FindDocInfoByKey` with
`createDocIfNotExist` adds exactly one document of that key, owned by the calling client 11
and created at the time of the call, but what it returns is not that document: it is the
document as `FindOneAndUpdate` found it, before owner and creation time were set, with
owner 0 and creation time 0. A second call with the same key returns the stored document,
of owner 11. -/
theorem FindDocInfoByKey_returns_stale :
    (∀ d ∈ sampleStore.documents, d.Key ≠ "c$d2") ∧
    (FindDocInfoByKey 9 sampleStore ⟨11, "alice", "activated", 1, 1⟩ "c$d2" true).1
      = .ok ⟨22, "c$d2", 0, 0, 0, 9, 0⟩ ∧
    (FindDocInfoByKey 9 sampleStore ⟨11, "alice", "activated", 1, 1⟩ "c$d2" true).2.documents
      = sampleStore.documents ++ [⟨22, "c$d2", 11, 0, 9, 9, 0⟩] ∧
    (FindDocInfoByKey 10
      (FindDocInfoByKey 9 sampleStore ⟨11, "alice", "activated", 1, 1⟩ "c$d2" true).2
      ⟨11, "alice", "activated", 1, 1⟩ "c$d2" true).1
      = .ok ⟨22, "c$d2", 11, 0, 9, 10, 0⟩ :=
  ⟨by decide, rfl, rfl, rfl⟩

theorem ObjectIDFromHex_error (clientID : String) (err : Error)
    (h : ObjectIDFromHex clientID = .error err) : err ≠ .ErrClientNotFound := by
  unfold ObjectIDFromHex at h
  split at h
  · cases h; intro h2; cases h2
  · split at h
    · cases h
    · cases h; intro h2; cases h2

/-- C19: for a client id of 24 hexadecimal digits, `FindClientInfoByID` and
`DeactivateClient` return `ErrClientNotFound` exactly when no client with that id is stored,
and `DeactivateClient` then leaves the store as it is; otherwise both return the stored
client of that id, and `DeactivateClient` sets the status of that client to deactivated,
with its update time, and changes no other client. A client id that is not valid hex
yields the error of the conversion, which is not `ErrClientNotFound`, and no change of the
store. -/
theorem client_lookup_spec (now : Nat) (s : Store) (clientID : String) :
    (∀ id, ObjectIDFromHex clientID = .ok id →
      (FindClientInfoByID s clientID = .error .ErrClientNotFound ↔ ∀ c ∈ s.clients, c.ID ≠ id) ∧
      ((DeactivateClient now s clientID).1 = .error .ErrClientNotFound ↔
        ∀ c ∈ s.clients, c.ID ≠ id) ∧
      ((∀ c ∈ s.clients, c.ID ≠ id) → (DeactivateClient now s clientID).2 = s) ∧
      ((∃ c ∈ s.clients, c.ID = id) →
        ∃ pre c post, s.clients = pre ++ c :: post ∧ c.ID = id ∧ (∀ x ∈ pre, x.ID ≠ id) ∧
          FindClientInfoByID s clientID = .ok c ∧
          DeactivateClient now s clientID
            = (.ok c, { s with clients :=
                pre ++ { c with Status := ClientDeactivated, UpdatedAt := now } :: post }))) ∧
    (∀ err, ObjectIDFromHex clientID = .error err →
      err ≠ .ErrClientNotFound ∧ FindClientInfoByID s clientID = .error err ∧
      DeactivateClient now s clientID = (.error err, s)) := by
  constructor
  · intro id hid
    have hnone : (∀ c ∈ s.clients, c.ID ≠ id) →
        findOne (fun c : ClientInfo => decide (c.ID = id)) s.clients = none :=
      fun hno => findOne_none _ _ (fun c hc => by simpa using hno c hc)
    have hsome : (∃ c ∈ s.clients, c.ID = id) →
        ∃ pre c post, s.clients = pre ++ c :: post ∧ c.ID = id ∧ (∀ x ∈ pre, x.ID ≠ id) ∧
          findOne (fun c : ClientInfo => decide (c.ID = id)) s.clients = some c ∧
          updateFirst (fun c : ClientInfo => decide (c.ID = id))
            (fun c => { c with Status := ClientDeactivated, UpdatedAt := now }) s.clients
            = pre ++ { c with Status := ClientDeactivated, UpdatedAt := now } :: post := by
      intro hex
      obtain ⟨pre, c, post, h1, h2, h3⟩ :=
        exists_first (fun c : ClientInfo => decide (c.ID = id)) s.clients
          (by obtain ⟨c, hc, hk⟩ := hex; exact ⟨c, hc, by simpa using hk⟩)
      refine ⟨pre, c, post, h1, by simpa using h2, fun x hx => by simpa using h3 x hx, ?_, ?_⟩
      · rw [h1]; exact findOne_split _ pre post c h3 h2
      · rw [h1]; exact updateFirst_split _ _ pre post c h3 h2
    have hcases : (∀ c ∈ s.clients, c.ID ≠ id) ∨ (∃ c ∈ s.clients, c.ID = id) := by
      by_cases h : ∃ c ∈ s.clients, c.ID = id
      · exact Or.inr h
      · exact Or.inl (fun c hc heq => h ⟨c, hc, heq⟩)
    refine ⟨?_, ?_, ?_, ?_⟩
    · constructor
      · intro hret
        rcases hcases with hno | hex
        · exact hno
        · obtain ⟨pre, c, post, _, _, _, hf, _⟩ := hsome hex
          simp [FindClientInfoByID, hid, hf] at hret
      · intro hno
        simp [FindClientInfoByID, hid, hnone hno]
    · constructor
      · intro hret
        rcases hcases with hno | hex
        · exact hno
        · obtain ⟨pre, c, post, _, _, _, hf, _⟩ := hsome hex
          simp [DeactivateClient, hid, hf] at hret
      · intro hno
        simp [DeactivateClient, hid, hnone hno]
    · intro hno
      simp [DeactivateClient, hid, hnone hno]
    · intro hex
      obtain ⟨pre, c, post, h1, h2, h3, hf, hu⟩ := hsome hex
      refine ⟨pre, c, post, h1, h2, h3, ?_, ?_⟩
      · simp [FindClientInfoByID, hid, hf]
      · simp [DeactivateClient, hid, hf, hu]
  · intro err herr
    refine ⟨ObjectIDFromHex_error clientID err herr, ?_, ?_⟩
    · simp [FindClientInfoByID, herr]
    · simp [DeactivateClient, herr]

/-- C19 on the stored client 11, on the absent client 13 and on a text that is not hex. -/
theorem client_lookup_spec_witness :
    FindClientInfoByID sampleStore "00000000000000000000000d" = .error .ErrClientNotFound ∧
    (∃ pre c post, sampleStore.clients = pre ++ c :: post ∧ c.ID = 11 ∧
      FindClientInfoByID sampleStore "00000000000000000000000b" = .ok c) ∧
    DeactivateClient 9 sampleStore "xyz" = (.error .ErrInvalidHex, sampleStore) := by
  refine ⟨?_, ?_, ?_⟩
  · exact ((client_lookup_spec 9 sampleStore "00000000000000000000000d").1 13 rfl).1.mpr
      (by decide)
  · obtain ⟨pre, c, post, h1, h2, _, h3, _⟩ :=
      ((client_lookup_spec 9 sampleStore "00000000000000000000000b").1 11 rfl).2.2.2
        ⟨⟨11, "alice", "activated", 1, 1⟩, by decide, rfl⟩
    exact ⟨pre, c, post, h1, h2, h3⟩
  · exact ((client_lookup_spec 9 sampleStore "xyz").2 .ErrInvalidHex rfl).2.2

/-- C20: on a database without indexes `ensureIndexes` installs, with no error, one index
on each of the four collections: clients on `key`, documents on `key`, changes on
`(doc_id, server_seq)` and snapshots on `(doc_id, server_seq)`; every index it installs, on
any database and whatever the driver reports, is marked unique. -/
theorem ensureIndexes_spec :
    ensureIndexes (fun _ => false) []
      = (none,
         [("clients", ⟨[("key", 1)], true⟩),
          ("documents", ⟨[("key", 1)], true⟩),
          ("changes", ⟨[("doc_id", 1), ("server_seq", 1)], true⟩),
          ("snapshots", ⟨[("doc_id", 1), ("server_seq", 1)], true⟩)]) ∧
    (∀ (fails : String → Bool) (db : Indexes), ∀ e ∈ (ensureIndexes fails db).2,
      e ∈ db ∨ e.2.Unique = true) ∧
    (∀ m ∈ idxClientInfos ++ idxDocInfos ++ idxChanges ++ idxSnapshots, m.Unique = true) := by
  refine ⟨rfl, ?_, by decide⟩
  intro fails db e he
  unfold ensureIndexes createMany at he
  by_cases h1 : fails ColClientInfos = true <;> by_cases h2 : fails ColDocInfos = true <;>
    by_cases h3 : fails ColChanges = true <;> by_cases h4 : fails ColSnapshots = true <;>
    simp [h1, h2, h3, h4, idxClientInfos, idxDocInfos, idxChanges, idxSnapshots] at he <;>
    aesop

/-- C20 on a driver that reports an error on the collection of changes: the two indexes
installed before the error are unique. -/
theorem ensureIndexes_spec_witness :
    (ensureIndexes (fun col => col == "changes") []).1 = some (.Driver "changes") ∧
    ∀ e ∈ (ensureIndexes (fun col => col == "changes") []).2,
      e ∈ ([] : Indexes) ∨ e.2.Unique = true :=
  ⟨rfl, ensureIndexes_spec.2.1 (fun col => col == "changes") []⟩

end StoreQueryTheorems

section DeepCopyTheorems

open time

mutual

theorem Element_DeepCopy_eq : ∀ e : json.Element, e.DeepCopy = e
  | .object _ _ => rfl
  | .array a => by
    unfold json.Element.DeepCopy
    rw [Array_DeepCopy_eq a]
  | .primitive _ => rfl
  | .text _ _ => rfl

theorem Array_DeepCopy_eq : ∀ a : json.Array, json.Array.DeepCopy a = a
  | ⟨⟨nodes⟩, createdAt, deletedAt⟩ => by
    unfold json.Array.DeepCopy
    rw [copyNodes_eq nodes json.NewRGA]
    rfl

theorem copyNodes_eq : ∀ (nodes : List json.RGANode) (elements : json.RGA),
    json.copyNodes nodes elements = ⟨elements.nodes ++ nodes⟩
  | [], elements => by simp [json.copyNodes]
  | ⟨elem⟩ :: rest, elements => by
    unfold json.copyNodes
    rw [Element_DeepCopy_eq elem, copyNodes_eq rest]
    simp [json.RGAOf.Add]

end

/-- C21: the deep copy of an Array, tombstones or not, has the same `created_at` and
`deleted_at`, the same `Len()`, the same `Elements()` by value and the same `Marshal()`
output, and its nodes are tombstones at exactly the positions of the tombstones of the
Array; by value it is the Array itself. -/
theorem DeepCopy_spec (a : json.Array) (f : json.ElementFormats) :
    (json.Array.DeepCopy a).CreatedAt = a.CreatedAt ∧
    (json.Array.DeepCopy a).DeletedAt = a.DeletedAt ∧
    (json.Array.DeepCopy a).Len = a.Len ∧
    (json.Array.DeepCopy a).Elements = a.Elements ∧
    json.Array.Marshal f (json.Array.DeepCopy a) = json.Array.Marshal f a ∧
    ((json.Array.DeepCopy a).elements.Nodes.map fun n => n.elem.DeletedAt)
      = (a.elements.Nodes.map fun n => n.elem.DeletedAt) ∧
    json.Array.DeepCopy a = a := by
  rw [Array_DeepCopy_eq a]
  exact ⟨rfl, rfl, rfl, rfl, rfl, rfl, rfl⟩

/-- The deep copy of an Array with a tombstoned element and a nested Array has two visible
elements, as the Array has, and keeps the tombstone. -/
theorem DeepCopy_nestedArray :
    (json.Array.DeepCopy json.nestedArray).Len = 2 ∧
    json.nestedArray.Len = 2 ∧
    ((json.Array.DeepCopy json.nestedArray).elements.Nodes.map fun n => n.isDeleted)
      = [true, false, false] := by
  decide

end DeepCopyTheorems

section PayloadTheorems

open time converter

/-- C22: the payload of the Date primitive of an instant `t`, in whatever location, parses
back under the type Date to the instant of the same whole UNIX second with zero
nanoseconds; that instant is `t` exactly when `t` has no sub-second part. -/
theorem Date_round_trip (t : json.Time) (c : Ticket) (h : IsInt64 t.unixSec) :
    ∃ p b r, json.NewPrimitive (.time t) c = some p ∧ p.ValueType = json.Date ∧
      p.Bytes = some b ∧ json.ValueFromBytes json.Date b = some (.time r) ∧
      r.unixSec = t.unixSec ∧ r.nsec = 0 ∧ (r.Equal t ↔ t.nsec = 0) := by
  refine ⟨⟨json.Date, .time t, c, none⟩, putUint64 (toUint64 t.unixSec),
    json.Time.ofUnix t.unixSec, rfl, rfl, rfl, ?_, rfl, rfl, ?_⟩
  · simp [json.ValueFromBytes, json.Date, json.Bytes, json.String, json.Double, json.Long,
      json.Integer, json.Boolean, uint64LE_putUint64 _ (toUint64_lt _),
      toInt64_toUint64 t.unixSec h]
  · simp only [json.Time.Equal, json.Time.ofUnix, true_and]
    exact eq_comm

/-- C22 on an instant before 1970 with nanoseconds, in a fixed zone. -/
theorem Date_round_trip_witness :
    ∃ p b r, json.NewPrimitive (.time ⟨-5, 7, .Fixed 3600⟩) InitialTicket = some p ∧
      p.Bytes = some b ∧ json.ValueFromBytes json.Date b = some (.time r) ∧
      r.unixSec = -5 ∧ r.nsec = 0 := by
  obtain ⟨p, b, r, h1, _, h2, h3, h4, h5, _⟩ :=
    Date_round_trip ⟨-5, 7, .Fixed 3600⟩ InitialTicket (by decide)
  exact ⟨p, b, r, h1, h2, h3, h4, h5⟩

/-- C23 (as the code has it): `toTextNodePos` returns a message whose `CreatedAt` is the
`created_at` of the node id and whose `Offset` and `RelativeOffset` are the offset and the
relative offset of the position converted to 32 bits; each is numerically equal to that of
the position exactly when that lies in the 32-bit range. -/
theorem toTextNodePos_spec (pos : json.TextNodePos) :
    (toTextNodePos pos).CreatedAt = toTimeTicket pos.id.createdAt ∧
    (toTextNodePos pos).Offset = intToInt32 pos.id.offset ∧
    (toTextNodePos pos).RelativeOffset = intToInt32 pos.relativeOffset ∧
    ((toTextNodePos pos).Offset = pos.id.offset ↔ IsInt32 pos.id.offset) ∧
    ((toTextNodePos pos).RelativeOffset = pos.relativeOffset ↔ IsInt32 pos.relativeOffset) :=
  ⟨rfl, rfl, rfl, intToInt32_eq_iff _, intToInt32_eq_iff _⟩

/-- C23 fails as stated: the position with offset `2^31` and relative offset `-2^31 - 1`
is sent with offset `-2^31` and relative offset `2^31 - 1`. -/
theorem toTextNodePos_wraps :
    (toTextNodePos ⟨⟨InitialTicket, 2147483648⟩, -2147483649⟩).Offset = -2147483648 ∧
    (toTextNodePos ⟨⟨InitialTicket, 2147483648⟩, -2147483649⟩).RelativeOffset = 2147483647 ∧
    (toTextNodePos ⟨⟨InitialTicket, 2147483648⟩, -2147483649⟩).Offset ≠ 2147483648 ∧
    (toTextNodePos ⟨⟨InitialTicket, 2147483648⟩, -2147483649⟩).RelativeOffset
      ≠ -2147483649 := by
  decide

theorem putUint32_of_bytes (b0 b1 b2 b3 : Byte) :
    putUint32 (b0.val + b1.val * 256 + b2.val * 65536 + b3.val * 16777216)
      = [b0, b1, b2, b3] := by
  have h0 := b0.isLt
  have h1 := b1.isLt
  have h2 := b2.isLt
  have h3 := b3.isLt
  simp only [putUint32, byte, List.cons.injEq, and_true]
  refine ⟨?_, ?_, ?_, ?_⟩ <;> apply Fin.ext <;> simp only [] <;> omega

theorem putUint64_of_bytes (b0 b1 b2 b3 b4 b5 b6 b7 : Byte) :
    putUint64 (b0.val + b1.val * 256 + b2.val * 65536 + b3.val * 16777216
      + b4.val * 4294967296 + b5.val * 1099511627776 + b6.val * 281474976710656
      + b7.val * 72057594037927936) = [b0, b1, b2, b3, b4, b5, b6, b7] := by
  have h0 := b0.isLt
  have h1 := b1.isLt
  have h2 := b2.isLt
  have h3 := b3.isLt
  have h4 := b4.isLt
  have h5 := b5.isLt
  have h6 := b6.isLt
  have h7 := b7.isLt
  simp only [putUint64, byte, List.cons.injEq, and_true]
  refine ⟨?_, ?_, ?_, ?_, ?_, ?_, ?_, ?_⟩ <;> apply Fin.ext <;> simp only [] <;> omega

theorem uint32LE_of_length (b : List Byte) (h : b.length = 4) :
    ∃ u, uint32LE b = some u ∧ u < 4294967296 ∧ putUint32 u = b := by
  match b, h with
  | [b0, b1, b2, b3], _ =>
    refine ⟨_, rfl, ?_, putUint32_of_bytes b0 b1 b2 b3⟩
    have h0 := b0.isLt
    have h1 := b1.isLt
    have h2 := b2.isLt
    have h3 := b3.isLt
    omega

theorem uint64LE_of_length (b : List Byte) (h : b.length = 8) :
    ∃ u, uint64LE b = some u ∧ u < 18446744073709551616 ∧ putUint64 u = b := by
  match b, h with
  | [b0, b1, b2, b3, b4, b5, b6, b7], _ =>
    refine ⟨_, rfl, ?_, putUint64_of_bytes b0 b1 b2 b3 b4 b5 b6 b7⟩
    have h0 := b0.isLt
    have h1 := b1.isLt
    have h2 := b2.isLt
    have h3 := b3.isLt
    have h4 := b4.isLt
    have h5 := b5.isLt
    have h6 := b6.isLt
    have h7 := b7.isLt
    omega

theorem toUint32_toInt32 (u : Nat) (h : u < 4294967296) : toUint32 (toInt32 u) = u := by
  unfold toUint32 toInt32
  split <;> omega

theorem toUint64_toInt64 (u : Nat) (h : u < 18446744073709551616) :
    toUint64 (toInt64 u) = u := by
  unfold toUint64 toInt64
  split <;> omega

/-- C24: decoding a well-formed payload and encoding the value again gives the payload
back: the primitive built from `ValueFromBytes(vt, b)` has the value type `vt` and the
payload `b`, for four bytes under Integer, eight bytes under Long, Double and Date, any
bytes under String and Bytes, and the byte 0 or 1 under Boolean; under Boolean a first
byte other than 1 decodes to false. -/
theorem decode_encode_identity (vt : json.ValueType) (b : List Byte) (t : Ticket) :
    (json.WellFormedPayload vt b →
      ∃ v q, json.ValueFromBytes vt b = some v ∧ json.NewPrimitive v t = some q ∧
        q.ValueType = vt ∧ q.Bytes = some b) ∧
    (∀ (b0 : Byte) (rest : List Byte), b0 ≠ 1 →
      json.ValueFromBytes json.Boolean (b0 :: rest) = some (.bool false)) := by
  constructor
  · intro h
    rcases h with ⟨rfl, hlen⟩ | ⟨hvt, hlen⟩ | rfl | rfl | ⟨rfl, hb⟩
    · obtain ⟨u, hu, hlt, hput⟩ := uint32LE_of_length b hlen
      refine ⟨.int (toInt32 u), ⟨json.Integer, .int (toInt32 u), t, none⟩, ?_, rfl, rfl, ?_⟩
      · simp [json.ValueFromBytes, json.Integer, json.Boolean, hu]
      · simp only [json.Primitive.Bytes]
        rw [toUint32_toInt32 u hlt, hput]
    · obtain ⟨u, hu, hlt, hput⟩ := uint64LE_of_length b hlen
      rcases hvt with rfl | rfl | rfl
      · refine ⟨.int64 (toInt64 u), ⟨json.Long, .int64 (toInt64 u), t, none⟩, ?_, rfl, rfl, ?_⟩
        · simp [json.ValueFromBytes, json.Long, json.Integer, json.Boolean, hu]
        · simp only [json.Primitive.Bytes]
          rw [toUint64_toInt64 u hlt, hput]
      · refine ⟨.float64 u, ⟨json.Double, .float64 u, t, none⟩, ?_, rfl, rfl, ?_⟩
        · simp [json.ValueFromBytes, json.Double, json.Long, json.Integer, json.Boolean, hu]
        · simp only [json.Primitive.Bytes]
          rw [hput]
      · refine ⟨.time (json.Time.ofUnix (toInt64 u)),
          ⟨json.Date, .time (json.Time.ofUnix (toInt64 u)), t, none⟩, ?_, rfl, rfl, ?_⟩
        · simp [json.ValueFromBytes, json.Date, json.Bytes, json.String, json.Double, json.Long,
            json.Integer, json.Boolean, hu]
        · simp only [json.Primitive.Bytes, json.Time.UTC, json.Time.Unix, json.Time.ofUnix]
          rw [toUint64_toInt64 u hlt, hput]
    · exact ⟨.string b, ⟨json.String, .string b, t, none⟩, rfl, rfl, rfl, rfl⟩
    · exact ⟨.bytes b, ⟨json.Bytes, .bytes b, t, none⟩, rfl, rfl, rfl, rfl⟩
    · rcases hb with rfl | rfl
      · exact ⟨.bool false, ⟨json.Boolean, .bool false, t, none⟩, rfl, rfl, rfl, rfl⟩
      · exact ⟨.bool true, ⟨json.Boolean, .bool true, t, none⟩, rfl, rfl, rfl, rfl⟩
  · intro b0 rest hb0
    simp [json.ValueFromBytes, hb0]

/-- C24 on a payload of four bytes under Integer and on the byte 2 under Boolean. -/
theorem decode_encode_identity_witness :
    (∃ v q, json.ValueFromBytes json.Integer [255, 255, 255, 255] = some v ∧
      json.NewPrimitive v InitialTicket = some q ∧ q.ValueType = json.Integer ∧
      q.Bytes = some [255, 255, 255, 255]) ∧
    json.ValueFromBytes json.Boolean [2] = some (.bool false) :=
  ⟨(decode_encode_identity json.Integer [255, 255, 255, 255] InitialTicket).1
      (Or.inl ⟨rfl, rfl⟩),
   (decode_encode_identity json.Integer [] InitialTicket).2 2 [] (by decide)⟩

/-- C25: `NewPrimitive` tags a bool as Boolean, an int as Integer, an int64 as Long, a
float64 as Double, a string as String, a byte sequence as Bytes and a time as Date, with
the given `created_at` and no `deleted_at`; it panics on nil, on a 32-bit int and on a value
of any other type; so every primitive it yields holds the value given and has a type from
Boolean to Date, never Null. -/
theorem NewPrimitive_spec (t : Ticket) :
    (∀ b, json.NewPrimitive (.bool b) t = some ⟨json.Boolean, .bool b, t, none⟩) ∧
    (∀ v, json.NewPrimitive (.int v) t = some ⟨json.Integer, .int v, t, none⟩) ∧
    (∀ v, json.NewPrimitive (.int64 v) t = some ⟨json.Long, .int64 v, t, none⟩) ∧
    (∀ bits, json.NewPrimitive (.float64 bits) t = some ⟨json.Double, .float64 bits, t, none⟩) ∧
    (∀ s, json.NewPrimitive (.string s) t = some ⟨json.String, .string s, t, none⟩) ∧
    (∀ b, json.NewPrimitive (.bytes b) t = some ⟨json.Bytes, .bytes b, t, none⟩) ∧
    (∀ x, json.NewPrimitive (.time x) t = some ⟨json.Date, .time x, t, none⟩) ∧
    json.NewPrimitive .nil t = none ∧
    (∀ v, json.NewPrimitive (.int32 v) t = none) ∧
    json.NewPrimitive .other t = none ∧
    (∀ v p, json.NewPrimitive v t = some p →
      p.ValueType ≠ json.Null ∧ json.Boolean ≤ p.ValueType ∧ p.ValueType ≤ json.Date ∧
      p.value = v ∧ p.CreatedAt = t ∧ p.DeletedAt = none) := by
  refine ⟨fun _ => rfl, fun _ => rfl, fun _ => rfl, fun _ => rfl, fun _ => rfl, fun _ => rfl,
    fun _ => rfl, rfl, fun _ => rfl, rfl, ?_⟩
  intro v p h
  cases v with
  | bool x =>
    simp only [json.NewPrimitive, Option.some.injEq] at h
    subst h
    refine ⟨?_, ?_, ?_, rfl, rfl, rfl⟩ <;>
      simp [json.Primitive.ValueType, json.Null, json.Boolean, json.Integer, json.Long,
        json.Double, json.String, json.Bytes, json.Date]
  | int x =>
    simp only [json.NewPrimitive, Option.some.injEq] at h
    subst h
    refine ⟨?_, ?_, ?_, rfl, rfl, rfl⟩ <;>
      simp [json.Primitive.ValueType, json.Null, json.Boolean, json.Integer, json.Long,
        json.Double, json.String, json.Bytes, json.Date]
  | int64 x =>
    simp only [json.NewPrimitive, Option.some.injEq] at h
    subst h
    refine ⟨?_, ?_, ?_, rfl, rfl, rfl⟩ <;>
      simp [json.Primitive.ValueType, json.Null, json.Boolean, json.Integer, json.Long,
        json.Double, json.String, json.Bytes, json.Date]
  | float64 x =>
    simp only [json.NewPrimitive, Option.some.injEq] at h
    subst h
    refine ⟨?_, ?_, ?_, rfl, rfl, rfl⟩ <;>
      simp [json.Primitive.ValueType, json.Null, json.Boolean, json.Integer, json.Long,
        json.Double, json.String, json.Bytes, json.Date]
  | string x =>
    simp only [json.NewPrimitive, Option.some.injEq] at h
    subst h
    refine ⟨?_, ?_, ?_, rfl, rfl, rfl⟩ <;>
      simp [json.Primitive.ValueType, json.Null, json.Boolean, json.Integer, json.Long,
        json.Double, json.String, json.Bytes, json.Date]
  | bytes x =>
    simp only [json.NewPrimitive, Option.some.injEq] at h
    subst h
    refine ⟨?_, ?_, ?_, rfl, rfl, rfl⟩ <;>
      simp [json.Primitive.ValueType, json.Null, json.Boolean, json.Integer, json.Long,
        json.Double, json.String, json.Bytes, json.Date]
  | time x =>
    simp only [json.NewPrimitive, Option.some.injEq] at h
    subst h
    refine ⟨?_, ?_, ?_, rfl, rfl, rfl⟩ <;>
      simp [json.Primitive.ValueType, json.Null, json.Boolean, json.Integer, json.Long,
        json.Double, json.String, json.Bytes, json.Date]
  | nil => simp [json.NewPrimitive] at h
  | int32 x => simp [json.NewPrimitive] at h
  | other => simp [json.NewPrimitive] at h

/-- C25 on the int 7. -/
theorem NewPrimitive_spec_witness :
    (⟨json.Integer, .int 7, InitialTicket, none⟩ : json.Primitive).ValueType ≠ json.Null ∧
    json.NewPrimitive (.int32 7) InitialTicket = none :=
  ⟨((NewPrimitive_spec InitialTicket).2.2.2.2.2.2.2.2.2.2 (.int 7)
      ⟨json.Integer, .int 7, InitialTicket, none⟩ rfl).1,
   (NewPrimitive_spec InitialTicket).2.2.2.2.2.2.2.2.1 7⟩

theorem uint32LE_prefix (b : List Byte) (h : 4 ≤ b.length) :
    ∃ u, uint32LE b = some u ∧ ∀ extra, uint32LE (b.take 4 ++ extra) = some u := by
  match b, h with
  | b0 :: b1 :: b2 :: b3 :: rest, _ => exact ⟨_, rfl, fun _ => rfl⟩

theorem uint64LE_prefix (b : List Byte) (h : 8 ≤ b.length) :
    ∃ u, uint64LE b = some u ∧ ∀ extra, uint64LE (b.take 8 ++ extra) = some u := by
  match b, h with
  | b0 :: b1 :: b2 :: b3 :: b4 :: b5 :: b6 :: b7 :: rest, _ => exact ⟨_, rfl, fun _ => rfl⟩

theorem uint32LE_short (b : List Byte) (h : b.length < 4) : uint32LE b = none := by
  match b, h with
  | [], _ => rfl
  | [_], _ => rfl
  | [_, _], _ => rfl
  | [_, _, _], _ => rfl

theorem uint64LE_short (b : List Byte) (h : b.length < 8) : uint64LE b = none := by
  match b, h with
  | [], _ => rfl
  | [_], _ => rfl
  | [_, _], _ => rfl
  | [_, _, _], _ => rfl
  | [_, _, _, _], _ => rfl
  | [_, _, _, _, _], _ => rfl
  | [_, _, _, _, _, _], _ => rfl
  | [_, _, _, _, _, _, _], _ => rfl

theorem int_between_one_and_seven (n : Int) (h1 : 1 ≤ n) (h2 : n ≤ 7) :
    n = 1 ∨ n = 2 ∨ n = 3 ∨ n = 4 ∨ n = 5 ∨ n = 6 ∨ n = 7 := by
  omega

theorem int_outside_one_and_seven (n : Int) (h : n < 1 ∨ 7 < n) :
    n ≠ 1 ∧ n ≠ 2 ∧ n ≠ 3 ∧ n ≠ 4 ∧ n ≠ 5 ∧ n ≠ 6 ∧ n ≠ 7 := by
  omega

theorem valueType_cases (vt : json.ValueType) (h : json.Boolean ≤ vt ∧ vt ≤ json.Date) :
    vt = json.Boolean ∨ vt = json.Integer ∨ vt = json.Long ∨ vt = json.Double ∨
    vt = json.String ∨ vt = json.Bytes ∨ vt = json.Date :=
  int_between_one_and_seven vt h.1 h.2

/-- C26: for a value type from Boolean to Date and a payload of at least the width of the
type (1 byte for Boolean, 4 for Integer, 8 for Long, Double and Date, none for String and
Bytes) `ValueFromBytes` returns a value, and for a fixed width the value is that of the
first bytes of that width alone; for the type Null, for any other type, and for a payload
shorter than the width it panics. -/
theorem ValueFromBytes_safety (vt : json.ValueType) (b : List Byte) :
    ((json.Boolean ≤ vt ∧ vt ≤ json.Date) → json.payloadWidth vt ≤ b.length →
      (∃ v, json.ValueFromBytes vt b = some v) ∧
      (0 < json.payloadWidth vt → ∀ extra : List Byte,
        json.ValueFromBytes vt (b.take (json.payloadWidth vt) ++ extra)
          = json.ValueFromBytes vt b)) ∧
    ((vt < json.Boolean ∨ json.Date < vt) → json.ValueFromBytes vt b = none) ∧
    ((json.Boolean ≤ vt ∧ vt ≤ json.Date) → b.length < json.payloadWidth vt →
      json.ValueFromBytes vt b = none) := by
  refine ⟨?_, ?_, ?_⟩
  · intro hvt hlen
    rcases valueType_cases vt hvt with rfl | rfl | rfl | rfl | rfl | rfl | rfl
    · match b, hlen with
      | b0 :: rest, _ =>
        refine ⟨?_, fun _ extra => ?_⟩
        · by_cases h1 : b0 = 1
          · exact ⟨.bool true, by simp [json.ValueFromBytes, h1]⟩
          · exact ⟨.bool false, by simp [json.ValueFromBytes, h1]⟩
        · simp [json.ValueFromBytes, json.payloadWidth]
    · obtain ⟨u, hu, hpre⟩ := uint32LE_prefix b hlen
      refine ⟨⟨.int (toInt32 u), by simp [json.ValueFromBytes, json.Integer, json.Boolean, hu]⟩,
        fun _ extra => ?_⟩
      have := hpre extra
      simp [json.ValueFromBytes, json.Integer, json.Boolean, json.payloadWidth, hu, this]
    · obtain ⟨u, hu, hpre⟩ := uint64LE_prefix b hlen
      refine ⟨⟨.int64 (toInt64 u),
        by simp [json.ValueFromBytes, json.Long, json.Integer, json.Boolean, hu]⟩,
        fun _ extra => ?_⟩
      have := hpre extra
      simp [json.ValueFromBytes, json.Long, json.Integer, json.Boolean, json.payloadWidth, hu,
        this]
    · obtain ⟨u, hu, hpre⟩ := uint64LE_prefix b hlen
      refine ⟨⟨.float64 u, by simp [json.ValueFromBytes, json.Double, json.Long, json.Integer,
        json.Boolean, hu]⟩, fun _ extra => ?_⟩
      have := hpre extra
      simp [json.ValueFromBytes, json.Double, json.Long, json.Integer, json.Boolean,
        json.payloadWidth, hu, this]
    · exact ⟨⟨.string b, rfl⟩, fun h0 => absurd h0 (by decide)⟩
    · exact ⟨⟨.bytes b, rfl⟩, fun h0 => absurd h0 (by decide)⟩
    · obtain ⟨u, hu, hpre⟩ := uint64LE_prefix b hlen
      refine ⟨⟨.time (json.Time.ofUnix (toInt64 u)),
        by simp [json.ValueFromBytes, json.Date, json.Bytes, json.String,
          json.Double, json.Long, json.Integer, json.Boolean, hu]⟩, fun _ extra => ?_⟩
      have := hpre extra
      simp [json.ValueFromBytes, json.Date, json.Bytes, json.String, json.Double, json.Long,
        json.Integer, json.Boolean, json.payloadWidth, hu, this]
  · intro hvt
    obtain ⟨h1, h2, h3, h4, h5, h6, h7⟩ := int_outside_one_and_seven vt hvt
    simp [json.ValueFromBytes, json.Date, json.Bytes, json.String, json.Double, json.Long,
      json.Integer, json.Boolean, h1, h2, h3, h4, h5, h6, h7]
  · intro hvt hlen
    rcases valueType_cases vt hvt with rfl | rfl | rfl | rfl | rfl | rfl | rfl
    · match b, hlen with
      | [], _ => rfl
    · have := uint32LE_short b hlen
      simp [json.ValueFromBytes, json.Integer, json.Boolean, this]
    · have := uint64LE_short b hlen
      simp [json.ValueFromBytes, json.Long, json.Integer, json.Boolean, this]
    · have := uint64LE_short b hlen
      simp [json.ValueFromBytes, json.Double, json.Long, json.Integer, json.Boolean, this]
    · exact absurd hlen (by simp [json.payloadWidth, json.String, json.Boolean, json.Integer,
        json.Long, json.Double, json.Date])
    · exact absurd hlen (by simp [json.payloadWidth, json.Bytes, json.Boolean, json.Integer,
        json.Long, json.Double, json.Date])
    · have := uint64LE_short b hlen
      simp [json.ValueFromBytes, json.Date, json.Bytes, json.String, json.Double, json.Long,
        json.Integer, json.Boolean, this]

/-- C26 on a payload of five bytes under Integer, on three bytes under Integer and on the
type Null. -/
theorem ValueFromBytes_safety_witness :
    (∃ v, json.ValueFromBytes json.Integer [1, 0, 0, 0, 9] = some v) ∧
    json.ValueFromBytes json.Integer [1, 0, 0] = none ∧
    json.ValueFromBytes json.Null [1, 0, 0, 0] = none :=
  ⟨((ValueFromBytes_safety json.Integer [1, 0, 0, 0, 9]).1 (by decide) (by decide)).1,
   (ValueFromBytes_safety json.Integer [1, 0, 0]).2.2 (by decide) (by decide),
   (ValueFromBytes_safety json.Null [1, 0, 0, 0]).2.1 (Or.inl (by decide))⟩

end PayloadTheorems

end Yorkie
